import Mathlib

/-!
# gDel2D: voting codes, the negative escape, constraint labels and the checker

Shallow embedding of `KerCommon.h` and `DelaunayChecker.cpp`.

A C `int` is an `Int` together with an explicit wrap to the 32-bit two's complement
range wherever the arithmetic of the source can leave it.
-/

namespace gdg

/-! ## 32-bit machine integers -/

/-- Largest value of a 32-bit `int`. -/
def INT_MAX : Int := 2147483647

/-- Smallest value of a 32-bit `int`. -/
def INT_MIN : Int := -2147483648

/-- Reduction of an integer to the 32-bit two's complement range. -/
def wrap32 (x : Int) : Int := (x + 2147483648) % 4294967296 - 2147483648

/-- The C expression `x << k` on a 32-bit `int` (the device wraps). -/
def shl32 (x : Int) (k : Nat) : Int := wrap32 (x * 2 ^ k)

/-- The C expression `x >> k` on a 32-bit `int` (arithmetic shift). -/
def shr32 (x : Int) (k : Nat) : Int := x >>> k

/-- The C expression `x | y`. -/
def or32 (x y : Int) : Int := Int.lor x y

/-- The C expression `x & y`. -/
def and32 (x y : Int) : Int := Int.land x y

/-- The C expression `-x` on a 32-bit `int`. -/
def neg32 (x : Int) : Int := wrap32 (-x)

/-- The C expression `x + y` on a 32-bit `int`. -/
def add32 (x y : Int) : Int := wrap32 (x + y)

/-! ## KerCommon.h -/

/-- `makePositive`: `CudaAssert(v < 0) return -(v + 2);` An assertion that fails is `none`. -/
def makePositive (v : Int) : Option Int :=
  if v < 0 then some (neg32 (add32 v 2)) else none

/-- `makeNegative`: `CudaAssert(v >= 0) return -(v + 2);` An assertion that fails is `none`. -/
def makeNegative (v : Int) : Option Int :=
  if v ≥ 0 then some (neg32 (add32 v 2)) else none

/-- `encode`: `return (triIdx << 2) | vi;` -/
def encode (triIdx vi : Int) : Int := or32 (shl32 triIdx 2) vi

/-- `decode`: `*idx = (code >> 2); *vi = (code & 3);` The two out-parameters are the
components of the result, `idx` first. -/
def decode (code : Int) : Int × Int := (shr32 code 2, and32 code 3)

/-- `encode_constraint`: `return (idx << 4) | (vi << 2) | side;` -/
def encode_constraint (idx vi side : Int) : Int :=
  or32 (or32 (shl32 idx 4) (shl32 vi 2)) side

/-- `decode_cIdx`: `return (label >> 4);` -/
def decode_cIdx (label : Int) : Int := shr32 label 4

/-- `decode_cVi`: `return (label >> 2) & 3;` -/
def decode_cVi (label : Int) : Int := and32 (shr32 label 2) 3

/-- `decode_cSide`: `return (label & 3);` -/
def decode_cSide (label : Int) : Int := and32 label 3

/-- The vote array `int *triVoteArr`, as the map from an index to the value stored there. -/
abbrev VoteArr := Int → Int

/-- `atomicMin(&arr[i], val)`: the slot `i` receives the smaller of its value and `val`. -/
def atomicMin (arr : VoteArr) (i val : Int) : VoteArr :=
  fun k => if k = i then min (arr i) val else arr k

/-- `voteForFlip`: both the bottom and the top triangle receive the vote `encode(botTi, botVi)`. -/
def voteForFlip (triVoteArr : VoteArr) (botTi topTi botVi : Int) : VoteArr :=
  let voteVal := encode botTi botVi
  let arr1 := atomicMin triVoteArr botTi voteVal
  atomicMin arr1 topTi voteVal

/-- A candidate flip: the arguments `botTi`, `topTi`, `botVi` of one call of `voteForFlip`. -/
structure Flip where
  botTi : Int
  topTi : Int
  botVi : Int
deriving DecidableEq, Repr

/-- The vote a candidate casts. -/
def Flip.code (c : Flip) : Int := encode c.botTi c.botVi

/-- One vote round: `voteForFlip` is applied for the candidates one after the other. -/
def voteAll (arr : VoteArr) (cs : List Flip) : VoteArr :=
  cs.foldl (fun a c => voteForFlip a c.botTi c.topTi c.botVi) arr

/-- A candidate names slot `k` when `k` is its bottom or its top triangle. -/
def Flip.names (c : Flip) (k : Int) : Bool := decide (k = c.botTi) || decide (k = c.topTi)

/-- The check after the vote step: both vote slots of the candidate hold its own code. -/
def Flip.wins (arr : VoteArr) (c : Flip) : Prop :=
  arr c.botTi = c.code ∧ arr c.topTi = c.code

/-- The smallest of `init` and the values in `xs`. -/
def minOver (init : Int) (xs : List Int) : Int := xs.foldl min init

instance (arr : VoteArr) (c : Flip) : Decidable (Flip.wins arr c) := by
  unfold Flip.wins; infer_instance

/-- The arguments of a candidate flip are in the range the vote codes are built for. -/
def Flip.inDomain (c : Flip) : Prop :=
  0 ≤ c.botTi ∧ c.botTi < 2 ^ 29 ∧ 0 ≤ c.botVi ∧ c.botVi ≤ 2

instance (c : Flip) : Decidable c.inDomain := by
  unfold Flip.inDomain; infer_instance

/-! ## Mesh types

`CommonTypes.h` is not among the sources; the types it declares are taken from the data model
of the specification. -/

/-- Modelled from the spec: `Tri` of `CommonTypes.h`, the three vertex indices `_v[0..2]` of a
triangle. -/
structure Tri where
  v0 : Int
  v1 : Int
  v2 : Int
deriving DecidableEq, Repr

/-- The read `tri._v[i]`; an index outside `0..2` is outside the array. -/
def Tri.v (t : Tri) (i : Int) : Option Int :=
  if i = 0 then some t.v0 else if i = 1 then some t.v1 else if i = 2 then some t.v2 else none

/-- Modelled from the spec: `Tri::getIndexOf` of `CommonTypes.h`, the slot of a vertex in a
triangle: the first slot holding `v`, and `-1` when no slot does. -/
def Tri.getIndexOf (t : Tri) (v : Int) : Int :=
  if t.v0 = v then 0 else if t.v1 = v then 1 else if t.v2 = v then 2 else -1

/-- Modelled from the spec: one word `_t[vi]` of `TriOpp` in `CommonTypes.h`. It carries the
opposite-triangle index (`-1` = boundary), the opposite-vertex slot and the constraint bit. The
test `_t[vi] == -1` of the sources is the test `tri = -1`. -/
structure OppSlot where
  tri : Int
  vi : Int
  cons : Bool
deriving DecidableEq, Repr

/-- Modelled from the spec: `TriOpp` of `CommonTypes.h`, the three words `_t[0..2]`. -/
structure TriOpp where
  t0 : OppSlot
  t1 : OppSlot
  t2 : OppSlot
deriving DecidableEq, Repr

/-- The read `opp._t[i]`; an index outside `0..2` is outside the array. -/
def TriOpp.t (o : TriOpp) (i : Int) : Option OppSlot :=
  if i = 0 then some o.t0 else if i = 1 then some o.t1 else if i = 2 then some o.t2 else none

/-- The write `opp._t[i] = s`; an index outside `0..2` is outside the array. -/
def TriOpp.setT (o : TriOpp) (i : Int) (s : OppSlot) : Option TriOpp :=
  if i = 0 then some ⟨s, o.t1, o.t2⟩
  else if i = 1 then some ⟨o.t0, s, o.t2⟩
  else if i = 2 then some ⟨o.t0, o.t1, s⟩
  else none

/-- Modelled from the spec: `TriOpp::getOppTri`, the opposite-triangle index of a slot. -/
def TriOpp.getOppTri (o : TriOpp) (vi : Int) : Option Int := (o.t vi).map OppSlot.tri

/-- Modelled from the spec: `TriOpp::getOppVi`, the opposite-vertex slot of a slot. -/
def TriOpp.getOppVi (o : TriOpp) (vi : Int) : Option Int := (o.t vi).map OppSlot.vi

/-- Modelled from the spec: `TriOpp::isOppConstraint`, the constraint bit of a slot. -/
def TriOpp.isOppConstraint (o : TriOpp) (vi : Int) : Option Bool := (o.t vi).map OppSlot.cons

/-- Modelled from the spec: `TriOpp::setOppConstraint`, which writes the constraint bit of a slot
and leaves its opposite triangle and opposite slot as they are. -/
def TriOpp.setOppConstraint (o : TriOpp) (vi : Int) (val : Bool) : Option TriOpp :=
  match o.t vi with
  | some s => o.setT vi ⟨s.tri, s.vi, val⟩
  | none => none

/-- Modelled from the spec: `Edge` of `CommonTypes.h`, the two vertex indices `_v[0..1]` of a
constraint. -/
structure Edge where
  v0 : Int
  v1 : Int
deriving DecidableEq, Repr

/-- Modelled from the spec: `Side` of `CommonTypes.h`, the result `in | out | on` of the
in-circle predicate. -/
inductive Side where
  | SideIn
  | SideOut
  | SideOn
deriving DecidableEq, Repr

/-- Modelled from the spec: the constant `DEG` of `CommonTypes.h`, the number of vertices (and
of slots) of a triangle. -/
def DEG : Int := 3

/-- The C expression `a % b` on `int` (the remainder has the sign of `a`). -/
def cmod (a b : Int) : Int := Int.tmod a b

/-- The read `vec[i]` of a vector; an index outside the vector is `none`. -/
def getAt {α : Type} (l : List α) (i : Int) : Option α :=
  if 0 ≤ i then l[i.toNat]? else none

/-- The write `vec[i] = x` of a vector; an index outside the vector is `none`. -/
def setAt {α : Type} (l : List α) (i : Int) (x : α) : Option (List α) :=
  if 0 ≤ i ∧ i.toNat < l.length then some (l.set i.toNat x) else none

/-- The loop `for (i = i0; i < i0 + k; ++i) body`, threading a state; the body fails on an
access outside a vector. -/
def loopFrom {σ : Type} (body : Nat → σ → Option σ) : Nat → Nat → σ → Option σ
  | 0, _, s => some s
  | k + 1, i, s =>
    match body i s with
    | some s1 => loopFrom body k (i + 1) s1
    | none => none

/-- The conversion `(int)vec.size()` of a vector size to a 32-bit `int`. -/
def sizeToInt (n : Nat) : Int := if n ≤ 2147483647 then (n : Int) else wrap32 n

/-- The verdict line of a check: `Pass`, or `***Fail***` with the printed count. -/
inductive Verdict where
  | pass
  | fail (count : Int)
deriving DecidableEq, Repr

/-- Modelled from the spec: `Output` of `CommonTypes.h`, as far as the checker reads it: the
triangles and, in parallel, their opposites. -/
structure Output where
  triVec : List Tri
  triOppVec : List TriOpp
deriving DecidableEq, Repr

/-! ## DelaunayChecker::checkAdjacency -/

/-- A diagnostic line of `checkAdjacency`. -/
inductive AdjMsg where
  | fail4
  | notOpp (ti0 ti1 : Int)
  | viMismatch (ti0 ti1 : Int)
deriving DecidableEq, Repr

/-- The body of the inner loop of `checkAdjacency` for slot `vi` of triangle `ti0`: the
diagnostic lines it prints. -/
def checkAdjacencySlot (triVec : List Tri) (oppVec : List TriOpp) (ti0 : Int) (opp0 : TriOpp)
    (vi : Int) (msgs : List AdjMsg) : Option (List AdjMsg) :=
  match opp0.t vi with
  | none => none
  | some s0 =>
    if s0.tri = -1 then some msgs
    else
      let ti1 := s0.tri
      let vi0_1 := s0.vi
      match getAt triVec ti1, getAt oppVec ti1 with
      | some _, some opp1 =>
        match opp1.t vi0_1 with
        | none => none
        | some s1 =>
          if s1.tri = -1 then some (msgs ++ [AdjMsg.fail4])
          else if ti0 ≠ s1.tri then some (msgs ++ [AdjMsg.notOpp ti0 ti1])
          else if vi ≠ s1.vi then some (msgs ++ [AdjMsg.viMismatch ti0 ti1])
          else some msgs
      | _, _ => none

/-- The body of the outer loop of `checkAdjacency` for triangle `ti0`. -/
def checkAdjacencyTri (triVec : List Tri) (oppVec : List TriOpp) (ti0 : Nat)
    (msgs : List AdjMsg) : Option (List AdjMsg) :=
  match getAt triVec ti0, getAt oppVec ti0 with
  | some _, some opp0 =>
    loopFrom (fun vi m => checkAdjacencySlot triVec oppVec ti0 opp0 vi m) DEG.toNat 0 msgs
  | _, _ => none

/-- `DelaunayChecker::checkAdjacency`: the diagnostic lines and the final verdict line, which
the source prints as `Adjacency check: Pass` after the loops. -/
def checkAdjacency (output : Output) : Option (List AdjMsg × Verdict) :=
  match loopFrom (checkAdjacencyTri output.triVec output.triOppVec)
      (sizeToInt output.triVec.length).toNat 0 [] with
  | some msgs => some (msgs, Verdict.pass)
  | none => none

/-! ## DelaunayChecker::checkDelaunay -/

/-- The body of the inner loop of `checkDelaunay` for slot `botVi` of triangle `botTi`, acting
on the counter `failNum`. `doIncircle` is `PredWrapper::doIncircle`, whose source is not among
the files: it is a parameter. -/
def checkDelaunaySlot (doIncircle : Tri → Int → Side) (triVec : List Tri) (botTi : Int)
    (botTri : Tri) (botOpp : TriOpp) (botVi : Int) (failNum : Int) : Option Int :=
  match botOpp.t botVi with
  | none => none
  | some s =>
    if s.tri = -1 ∨ s.cons = true then some failNum
    else
      let topVi := s.vi
      let topTi := s.tri
      if topTi < botTi then some failNum
      else
        match getAt triVec topTi with
        | none => none
        | some topTri =>
          match topTri.v topVi with
          | none => none
          | some topVert =>
            let side := doIncircle botTri topVert
            if Side.SideIn ≠ side then some failNum
            else some (wrap32 (failNum + 1))

/-- The body of the outer loop of `checkDelaunay` for triangle `botTi`. -/
def checkDelaunayTri (doIncircle : Tri → Int → Side) (triVec : List Tri) (oppVec : List TriOpp)
    (botTi : Nat) (failNum : Int) : Option Int :=
  match getAt triVec botTi, getAt oppVec botTi with
  | some botTri, some botOpp =>
    loopFrom (fun botVi f => checkDelaunaySlot doIncircle triVec botTi botTri botOpp botVi f)
      DEG.toNat 0 failNum
  | _, _ => none

/-- `DelaunayChecker::checkDelaunay`: the verdict line. -/
def checkDelaunay (doIncircle : Tri → Int → Side) (output : Output) : Option Verdict :=
  match loopFrom (checkDelaunayTri doIncircle output.triVec output.triOppVec)
      (sizeToInt output.triVec.length).toNat 0 0 with
  | some failNum => if failNum = 0 then some Verdict.pass else some (Verdict.fail failNum)
  | none => none

/-! ## DelaunayChecker::checkConstraints -/

/-- Modelled from the spec: `Input` of `CommonTypes.h`, as far as the checker reads it: the
constraint edges. The point count `predWrapper.pointNum()` is passed separately, the source of
`PredWrapper` is not among the files. -/
structure Input where
  constraintVec : List Edge
deriving DecidableEq, Repr

/-- The bound `MaxWalking` of the walks. -/
def MaxWalking : Int := 1000000

/-- The body of the clear pass for slot `j` of triangle `i`:
`if (oppVec[i]._t[j] != -1) oppVec[i].setOppConstraint(j, false);` -/
def clearSlot (i j : Nat) (oppVec : List TriOpp) : Option (List TriOpp) :=
  match getAt oppVec i with
  | none => none
  | some opp =>
    match opp.t j with
    | none => none
    | some s =>
      if s.tri ≠ -1 then
        match opp.setOppConstraint j false with
        | none => none
        | some opp1 => setAt oppVec i opp1
      else some oppVec

/-- The clear pass for triangle `i`: its three slots. -/
def clearTri (i : Nat) (oppVec : List TriOpp) : Option (List TriOpp) :=
  loopFrom (clearSlot i) 3 0 oppVec

/-- The body of the loop that fills the vertex to triangle map, for triangle `i`:
`for (int v : triVec[i]._v) vertTriMap[v] = i;` -/
def fillTri (triVec : List Tri) (i : Nat) (vertTriMap : List Int) : Option (List Int) :=
  match getAt triVec i with
  | none => none
  | some tri =>
    match setAt vertTriMap tri.v0 (i : Int) with
    | none => none
    | some m1 =>
      match setAt m1 tri.v1 (i : Int) with
      | none => none
      | some m2 => setAt m2 tri.v2 (i : Int)

/-- The variables `j`, `triIdx`, `vi` of a walk. -/
structure WalkState where
  j : Int
  triIdx : Int
  vi : Int
deriving DecidableEq, Repr

/-- The first walk loop of `checkConstraints` (around the starting vertex, across the edge
`(vi + 1) % DEG`), run for at most `fuel` iterations, where `fuel` is `MaxWalking - j`. The
constraint is `(_, b)`. The state returned is the one the loop is left with. -/
def ccwWalk (triVec : List Tri) (oppVec : List TriOpp) (startIdx b : Int) :
    Nat → WalkState → Option WalkState
  | 0, st => some st
  | fuel + 1, st =>
    match getAt triVec st.triIdx, getAt oppVec st.triIdx with
    | some tri, some opp =>
      match tri.v (cmod (st.vi + 2) 3) with
      | none => none
      | some nextVert =>
        if nextVert = b then some ⟨INT_MAX, st.triIdx, cmod (st.vi + 1) DEG⟩
        else
          match opp.t (cmod (st.vi + 1) DEG) with
          | none => none
          | some s =>
            if s.tri = -1 then some st
            else if s.tri = startIdx then some ⟨st.j, s.tri, cmod (s.vi + 1) DEG⟩
            else ccwWalk triVec oppVec startIdx b fuel ⟨st.j + 1, s.tri, cmod (s.vi + 1) DEG⟩
    | _, _ => none

/-- The second walk loop of `checkConstraints` (the other direction, across the edge
`(vi + 2) % DEG`), run for at most `fuel` iterations, where `fuel` is `MaxWalking - j`. -/
def cwWalk (triVec : List Tri) (oppVec : List TriOpp) (startIdx b : Int) :
    Nat → WalkState → Option WalkState
  | 0, st => some st
  | fuel + 1, st =>
    match getAt triVec st.triIdx with
    | none => none
    | some tri =>
      match tri.v (cmod (st.vi + 1) 3) with
      | none => none
      | some nextVert =>
        if nextVert = b then some ⟨INT_MAX, st.triIdx, cmod (st.vi + 2) DEG⟩
        else
          match getAt oppVec st.triIdx with
          | none => none
          | some opp =>
            match opp.t (cmod (st.vi + 2) DEG) with
            | none => none
            | some s =>
              if s.tri = -1 then some st
              else if s.tri = startIdx then some ⟨st.j, s.tri, cmod (s.vi + 2) DEG⟩
              else cwWalk triVec oppVec startIdx b fuel ⟨st.j + 1, s.tri, cmod (s.vi + 2) DEG⟩

/-- The two walks of one constraint from the triangle `startIdx` of its first vertex: the first
loop, and the second loop when the first left `j < MaxWalking`. -/
def walkBoth (triVec : List Tri) (oppVec : List TriOpp) (startIdx : Int) (constraint : Edge) :
    Option WalkState :=
  match getAt triVec startIdx with
  | none => none
  | some startTri =>
    match ccwWalk triVec oppVec startIdx constraint.v1 MaxWalking.toNat
        ⟨0, startIdx, startTri.getIndexOf constraint.v0⟩ with
    | none => none
    | some w1 =>
      if w1.j < MaxWalking then
        cwWalk triVec oppVec startIdx constraint.v1 (MaxWalking - w1.j).toNat
          ⟨w1.j, startIdx, startTri.getIndexOf constraint.v0⟩
      else some w1

/-- The found branch of `checkConstraints`: the constraint bit is set on slot `vi` of `triIdx`
and on slot `oppVi` of `oppTri`, the triangle and slot that slot names. -/
def markFound (oppVec : List TriOpp) (triIdx vi : Int) : Option (List TriOpp) :=
  match getAt oppVec triIdx with
  | none => none
  | some opp =>
    match opp.getOppTri vi, opp.getOppVi vi with
    | some oppTri, some oppVi =>
      match opp.setOppConstraint vi true with
      | none => none
      | some opp1 =>
        match setAt oppVec triIdx opp1 with
        | none => none
        | some oppVec1 =>
          match getAt oppVec1 oppTri with
          | none => none
          | some opp2 =>
            match opp2.setOppConstraint oppVi true with
            | none => none
            | some opp3 => setAt oppVec1 oppTri opp3
    | _, _ => none

/-- What the loop over the constraints left for one constraint: no start triangle, or the final
values of `j`, `triIdx` and `vi`; the constraint was found when `j` is `INT_MAX`. -/
inductive Walk where
  | noStart
  | ended (j triIdx vi : Int)
deriving DecidableEq, Repr

/-- The state of the loop over the constraints: the opposites, what each constraint so far
ended with, the constraints named in a `Vertex degree too high; Skipping constraint` line, and
the counter `failNum`. -/
structure ConsState where
  oppVec : List TriOpp
  walks : List Walk
  skipped : List Nat
  failNum : Int
deriving DecidableEq, Repr

/-- The body of the loop over the constraints, for constraint `i`. -/
def checkOne (triVec : List Tri) (vertTriMap : List Int) (consVec : List Edge) (i : Nat)
    (st : ConsState) : Option ConsState :=
  match getAt consVec i with
  | none => none
  | some constraint =>
    match getAt vertTriMap constraint.v0 with
    | none => none
    | some startIdx =>
      if startIdx < 0 then
        some ⟨st.oppVec, st.walks ++ [Walk.noStart], st.skipped, wrap32 (st.failNum + 1)⟩
      else
        match walkBoth triVec st.oppVec startIdx constraint with
        | none => none
        | some w =>
          if w.j = INT_MAX then
            match markFound st.oppVec w.triIdx w.vi with
            | none => none
            | some oppVec1 =>
              some ⟨oppVec1, st.walks ++ [Walk.ended w.j w.triIdx w.vi], st.skipped, st.failNum⟩
          else
            some ⟨st.oppVec, st.walks ++ [Walk.ended w.j w.triIdx w.vi],
              if w.j ≥ MaxWalking then st.skipped ++ [i] else st.skipped,
              wrap32 (st.failNum + 1)⟩

/-- What `checkConstraints` leaves: `output.triOppVec`, what each constraint ended with, the
skipped constraints, and the verdict line (none is printed for an empty constraint list). -/
structure ConsResult where
  oppVec : List TriOpp
  walks : List Walk
  skipped : List Nat
  verdict : Option Verdict
deriving DecidableEq, Repr

/-- `DelaunayChecker::checkConstraints`, with `pointNum` the value of
`predWrapper.pointNum()`. -/
def checkConstraints (pointNum : Nat) (input : Input) (output : Output) : Option ConsResult :=
  if input.constraintVec.isEmpty then some ⟨output.triOppVec, [], [], none⟩
  else
    match loopFrom clearTri (sizeToInt output.triVec.length).toNat 0 output.triOppVec with
    | none => none
    | some oppVec0 =>
      match loopFrom (fillTri output.triVec) (sizeToInt output.triVec.length).toNat 0
          (List.replicate pointNum (-1)) with
      | none => none
      | some vertTriMap =>
        match loopFrom (checkOne output.triVec vertTriMap input.constraintVec)
            input.constraintVec.length 0 ⟨oppVec0, [], [], 0⟩ with
        | none => none
        | some st =>
          some ⟨st.oppVec, st.walks, st.skipped,
            some (if st.failNum = 0 then Verdict.pass else Verdict.fail st.failNum)⟩

/-! ## Properties of an output that the checks are about -/

/-- The word of slot `e` of triangle `t`, when both exist. -/
def slotOf (oppVec : List TriOpp) (t e : Int) : Option OppSlot :=
  (getAt oppVec t).bind (fun o => o.t e)

/-- The vertex in slot `i` of triangle `t`, when both exist. -/
def vertOf (triVec : List Tri) (t i : Int) : Option Int :=
  (getAt triVec t).bind (fun u => u.v i)

/-- Adjacency symmetry: for every triangle `t` and slot `e` whose opposite is not boundary and
names `(u, f)`, slot `f` of `u` is not boundary and names `(t, e)`. -/
def AdjacencySymmetric (output : Output) : Prop :=
  ∀ t : Nat, t < output.triVec.length → ∀ e : Nat, e < 3 → ∀ s ∈ slotOf output.triOppVec t e,
    s.tri ≠ -1 →
      ∃ s1 ∈ slotOf output.triOppVec s.tri s.vi, s1.tri ≠ -1 ∧ s1.tri = t ∧ s1.vi = e

instance (output : Output) : Decidable (AdjacencySymmetric output) := by
  unfold AdjacencySymmetric; infer_instance

/-- The in-circle test of one face: the vertex of the neighbour named by the word `s`, opposite
the shared edge, is not `SideIn` for triangle `t`. -/
def FaceNotIn (doIncircle : Tri → Int → Side) (output : Output) (t : Nat) (s : OppSlot) : Prop :=
  ∀ tri ∈ getAt output.triVec t, ∀ w ∈ vertOf output.triVec s.tri s.vi,
    doIncircle tri w ≠ Side.SideIn

instance (doIncircle : Tri → Int → Side) (output : Output) (t : Nat) (s : OppSlot) :
    Decidable (FaceNotIn doIncircle output t s) := by
  unfold FaceNotIn; infer_instance

/-- The Delaunay property over all faces: for every triangle `t` and slot `e` that has a
neighbour `u` and whose constraint bit is clear, the vertex of `u` opposite the shared edge is
not `SideIn` for `t`. -/
def DelaunayAll (doIncircle : Tri → Int → Side) (output : Output) : Prop :=
  ∀ t : Nat, t < output.triVec.length → ∀ e : Nat, e < 3 → ∀ s ∈ slotOf output.triOppVec t e,
    s.tri ≠ -1 → s.cons = false → FaceNotIn doIncircle output t s

instance (doIncircle : Tri → Int → Side) (output : Output) :
    Decidable (DelaunayAll doIncircle output) := by
  unfold DelaunayAll; infer_instance

/-- The Delaunay property over the faces that `checkDelaunay` tests: as `DelaunayAll`, for the
slots whose neighbour `u` has an index that is not below the index of `t`. -/
def DelaunayUpper (doIncircle : Tri → Int → Side) (output : Output) : Prop :=
  ∀ t : Nat, t < output.triVec.length → ∀ e : Nat, e < 3 → ∀ s ∈ slotOf output.triOppVec t e,
    s.tri ≠ -1 → s.cons = false → (t : Int) ≤ s.tri → FaceNotIn doIncircle output t s

instance (doIncircle : Tri → Int → Side) (output : Output) :
    Decidable (DelaunayUpper doIncircle output) := by
  unfold DelaunayUpper; infer_instance

/-- The reads of `checkDelaunay` stay inside the vectors: every triangle has its `TriOpp`, the
counters fit an `int`, and a tested slot names an existing triangle and one of its vertices. -/
def DelaunayIndexed (output : Output) : Prop :=
  output.triVec.length ≤ output.triOppVec.length ∧
  3 * (output.triVec.length : Int) ≤ INT_MAX ∧
  ∀ t : Nat, t < output.triVec.length → ∀ e : Nat, e < 3 → ∀ s ∈ slotOf output.triOppVec t e,
    s.tri ≠ -1 → s.cons = false → (t : Int) ≤ s.tri →
      (vertOf output.triVec s.tri s.vi).isSome = true

instance (output : Output) : Decidable (DelaunayIndexed output) := by
  unfold DelaunayIndexed; infer_instance

/-- The adjacency is consistent: the neighbour named by slot `e` of `t` names `(t, e)` back and
shares the edge `e` of `t`, with the two shared vertices in reversed order. -/
def Consistent (output : Output) : Prop :=
  ∀ t : Nat, t < output.triVec.length → ∀ e : Nat, e < 3 → ∀ s ∈ slotOf output.triOppVec t e,
    s.tri ≠ -1 →
      (∃ s1 ∈ slotOf output.triOppVec s.tri s.vi, s1.tri = t ∧ s1.vi = e) ∧
      vertOf output.triVec s.tri (cmod (s.vi + 1) 3) = vertOf output.triVec t (cmod (e + 2) 3) ∧
      vertOf output.triVec s.tri (cmod (s.vi + 2) 3) = vertOf output.triVec t (cmod (e + 1) 3)

instance (output : Output) : Decidable (Consistent output) := by
  unfold Consistent; infer_instance

/-- The face of slot `e` of triangle `t` passes the test of `checkDelaunay`: when the slot has
a neighbour with an index not below `t` and a clear constraint bit, the in-circle test holds. -/
def FaceGood (doIncircle : Tri → Int → Side) (output : Output) (t e : Nat) : Prop :=
  ∀ s ∈ slotOf output.triOppVec t e,
    s.tri ≠ -1 → s.cons = false → (t : Int) ≤ s.tri → FaceNotIn doIncircle output t s

/-- Two words name the same opposite triangle and slot. -/
def SlotEqv (a b : OppSlot) : Prop := a.tri = b.tri ∧ a.vi = b.vi

/-- Two words name the same opposite triangle and slot, and a constraint bit set in the first is
set in the second. -/
def SlotLe (a b : OppSlot) : Prop := a.tri = b.tri ∧ a.vi = b.vi ∧ (a.cons = true → b.cons = true)

/-- Two vectors of opposites have the same slots, with related words. -/
def VecRel (R : OppSlot → OppSlot → Prop) (o1 o2 : List TriOpp) : Prop :=
  ∀ t e : Int,
    (∀ s, slotOf o1 t e = some s → ∃ s1, slotOf o2 t e = some s1 ∧ R s s1) ∧
    (∀ s1, slotOf o2 t e = some s1 → ∃ s, slotOf o1 t e = some s ∧ R s s1)

/-- The edge opposite slot `vi` of triangle `triIdx` joins the two vertices of the constraint:
`{tri.v[(vi+1)%3], tri.v[(vi+2)%3]} = {a, b}`. -/
def EdgeAt (triVec : List Tri) (c : Edge) (triIdx vi : Int) : Prop :=
  ∃ tri x y, getAt triVec triIdx = some tri ∧
    tri.v (cmod (vi + 1) 3) = some x ∧ tri.v (cmod (vi + 2) 3) = some y ∧
    ((x = c.v0 ∧ y = c.v1) ∨ (x = c.v1 ∧ y = c.v0))

/-- The constraint bit is set on slot `vi` of `triIdx`, whose word names a neighbour, and on the
slot of the neighbour that the word names. -/
def MarkedBoth (oppVec : List TriOpp) (triIdx vi : Int) : Prop :=
  ∃ s, slotOf oppVec triIdx vi = some s ∧ s.tri ≠ -1 ∧ s.cons = true ∧
    ∃ s2, slotOf oppVec s.tri s.vi = some s2 ∧ s2.cons = true

/-- The vertex to triangle map is right: an entry that is not `-1` is a triangle that has the
vertex. -/
def MapOK (triVec : List Tri) (vertTriMap : List Int) : Prop :=
  ∀ a s : Int, getAt vertTriMap a = some s →
    s = -1 ∨ ∃ tri, getAt triVec s = some tri ∧ (tri.v0 = a ∨ tri.v1 = a ∨ tri.v2 = a)

/-- The words of `oppVec` link the triangles of `triVec` along shared edges: the neighbour named
by a word holds the two vertices of the edge in reversed order. -/
def LinkOK (triVec : List Tri) (oppVec : List TriOpp) : Prop :=
  ∀ (t e : Int) (tri : Tri) (s : OppSlot),
    getAt triVec t = some tri → slotOf oppVec t e = some s → s.tri ≠ -1 →
      vertOf triVec s.tri (cmod (s.vi + 1) 3) = tri.v (cmod (e + 2) 3) ∧
      vertOf triVec s.tri (cmod (s.vi + 2) 3) = tri.v (cmod (e + 1) 3)

/-- Two triangles `[0,1,2]` and `[3,2,1]` over the shared edge `1-2`. -/
def squareTris : List Tri := [⟨0, 1, 2⟩, ⟨3, 2, 1⟩]

/-- The symmetric adjacency of `squareTris`: slot 0 of each triangle names slot 0 of the other,
the other slots are boundary. -/
def squareOpps : List TriOpp :=
  [⟨⟨1, 0, false⟩, ⟨-1, 0, false⟩, ⟨-1, 0, false⟩⟩,
   ⟨⟨0, 0, false⟩, ⟨-1, 0, false⟩, ⟨-1, 0, false⟩⟩]

/-- An asymmetric adjacency of `squareTris`: triangle 0 names triangle 1 across its slot 0, and
triangle 1 has only boundary slots. -/
def oneWayOpps : List TriOpp :=
  [⟨⟨1, 0, false⟩, ⟨-1, 0, false⟩, ⟨-1, 0, false⟩⟩,
   ⟨⟨-1, 0, false⟩, ⟨-1, 0, false⟩, ⟨-1, 0, false⟩⟩]

/-- The result of `checkConstraints` on the two triangles for the constraints `(1,2)`, `(0,3)`,
`(2,1)`: the shared edge is marked on both sides, the second constraint is missing. -/
def squareConsResult : ConsResult :=
  ⟨[⟨⟨1, 0, true⟩, ⟨-1, 0, false⟩, ⟨-1, 0, false⟩⟩,
    ⟨⟨0, 0, true⟩, ⟨-1, 0, false⟩, ⟨-1, 0, false⟩⟩],
   [Walk.ended INT_MAX 1 0, Walk.ended 0 0 0, Walk.ended INT_MAX 1 0], [],
   some (Verdict.fail 1)⟩

/-- An in-circle predicate that answers `SideIn` exactly for triangle `[3,2,1]` and vertex 0. -/
def inOnlyFromSecond (tri : Tri) (vert : Int) : Side :=
  if tri = ⟨3, 2, 1⟩ ∧ vert = 0 then Side.SideIn else Side.SideOut

/-! ## DelaunayChecker::checkOrientation -/

/-- Modelled from the spec: `Orient` of `CommonTypes.h`, the sign `neg | zero | pos` of the
orientation predicate. -/
inductive Orient where
  | OrientNeg
  | OrientZero
  | OrientPos
deriving DecidableEq, Repr

/-- The loop of `checkOrientation` over the triangles, acting on the counter `count`.
`doOrient2DFastExactSoS` is `PredWrapper::doOrient2DFastExactSoS`, whose source is not among the
files: it is a parameter. -/
def orientCount (doOrient2DFastExactSoS : Int → Int → Int → Orient) (triVec : List Tri)
    (count : Int) : Int :=
  triVec.foldl
    (fun count t =>
      if Orient.OrientNeg = doOrient2DFastExactSoS t.v0 t.v1 t.v2 then wrap32 (count + 1)
      else count)
    count

/-- `DelaunayChecker::checkOrientation`: the verdict line. -/
def checkOrientation (doOrient2DFastExactSoS : Int → Int → Int → Orient) (output : Output) :
    Verdict :=
  if orientCount doOrient2DFastExactSoS output.triVec 0 ≠ 0 then
    Verdict.fail (orientCount doOrient2DFastExactSoS output.triVec 0)
  else Verdict.pass

/-- The number of triangles that the predicate finds negatively oriented. -/
def negCount (doOrient2DFastExactSoS : Int → Int → Int → Orient) (triVec : List Tri) : Nat :=
  (triVec.filter (fun t => decide (doOrient2DFastExactSoS t.v0 t.v1 t.v2 = Orient.OrientNeg))).length

/-- The number of triangles that the predicate does not find positively oriented. -/
def notPosCount (doOrient2DFastExactSoS : Int → Int → Int → Orient) (triVec : List Tri) : Nat :=
  (triVec.filter (fun t => decide (doOrient2DFastExactSoS t.v0 t.v1 t.v2 ≠ Orient.OrientPos))).length

/-- An orientation predicate that answers `zero` for every triple. -/
def alwaysZero (_v0 _v1 _v2 : Int) : Orient := Orient.OrientZero

/-! ## DelaunayChecker::checkEuler -/

/-- The C expression `a - b` on `size_t` (64 bits). -/
def sub64 (a b : Nat) : Nat := (a + 18446744073709551616 - b % 18446744073709551616) % 18446744073709551616

/-- The C expression `a + b` on `size_t` (64 bits). -/
def add64 (a b : Nat) : Nat := (a + b) % 18446744073709551616

/-- `DelaunayChecker::getVertexCount`: the size of the `std::set<int>` that receives the three
vertices of every triangle. The set is a list without repetition. -/
def getVertexCount (output : Output) : Nat :=
  (output.triVec.foldl
    (fun vertSet tri => ((vertSet.insert tri.v0).insert tri.v1).insert tri.v2)
    ([] : List Int)).length

/-- `DelaunayChecker::getSegmentCount`: the size of the `std::set<Edge> segSet`, into which the
source inserts nothing (the loop that reads the segments is commented out). -/
def getSegmentCount (_output : Output) : Nat :=
  ([] : List Edge).length

/-- `DelaunayChecker::getTriangleCount`. -/
def getTriangleCount (output : Output) : Nat := output.triVec.length

/-- What `checkEuler` prints: the three counts, `euler`, and whether the verdict is `Pass`. -/
structure EulerReport where
  v : Nat
  e : Nat
  f : Nat
  euler : Nat
  pass : Bool
deriving DecidableEq, Repr

/-- `DelaunayChecker::checkEuler`: `euler = v - e + f` on `size_t`, and `Pass` when
`1 == euler`. -/
def checkEuler (output : Output) : EulerReport :=
  ⟨getVertexCount output, getSegmentCount output, getTriangleCount output,
    add64 (sub64 (getVertexCount output) (getSegmentCount output)) (getTriangleCount output),
    decide (¬ (1 ≠ add64 (sub64 (getVertexCount output) (getSegmentCount output))
      (getTriangleCount output)))⟩

/-- The undirected edge of two vertices, the smaller index first. -/
def undirected (a b : Int) : Int × Int := if a ≤ b then (a, b) else (b, a)

/-- The distinct undirected edges of the triangles, each shared edge once. -/
def distinctEdges (triVec : List Tri) : List (Int × Int) :=
  (triVec.foldl
    (fun segSet tri =>
      ((segSet.insert (undirected tri.v0 tri.v1)).insert (undirected tri.v1 tri.v2)).insert
        (undirected tri.v2 tri.v0))
    ([] : List (Int × Int)))

/-- The output object after `checkConstraints`: `triVec` is read through a `const` copy and not
written, `triOppVec` is the vector the function leaves. -/
def outputAfter (output : Output) (res : ConsResult) : Output := ⟨output.triVec, res.oppVec⟩

/-- The opposite triangle and the opposite slot of a word, without its constraint bit. -/
def OppSlot.link (s : OppSlot) : Int × Int := (s.tri, s.vi)

/-! ## MemoryManager.h: DevVector -/

/-- The C expression `a * b` on `size_t` (64 bits). -/
def mul64 (a b : Nat) : Nat := (a * b) % 18446744073709551616

/-- `DevVector<T>`: the device pointer (an address, 0 for the null pointer of a
default-constructed vector), `_size`, `_capacity` and `_owned`. The elements are kept apart,
in the device memory `DevMem`. -/
structure DevVector where
  _ptr : Nat
  _size : Nat
  _capacity : Nat
  _owned : Bool
deriving DecidableEq, Repr

/-- `DevVector() = default`. -/
def DevVector.default : DevVector := ⟨0, 0, 0, true⟩

/-- `DevVector::free`: the vector afterwards and the pointers given to `cudaFree`. -/
def DevVector.free (v : DevVector) : DevVector × List Nat :=
  (⟨v._ptr, 0, 0, v._owned⟩, if v._capacity > 0 ∧ v._owned = true then [v._ptr] else [])

/-- `DevVector::resize`: the vector afterwards and the pointers given to `cudaFree`.
`mallocResult` is what `thrust::device_malloc` answers when it is called: a pointer, or `none`
when it fails, in which case `resize` throws. -/
def DevVector.resize (v : DevVector) (n : Nat) (mallocResult : Option Nat) :
    Option (DevVector × List Nat) :=
  if v._capacity ≥ n then some (⟨v._ptr, n, v._capacity, v._owned⟩, [])
  else
    match mallocResult with
    | none => none
    | some p => some (⟨p, n, if n = 0 then 1 else n, true⟩, v.free.2)

/-! ## MemoryManager.h: MemoryPool -/

/-- `struct Buffer`. -/
structure Buffer where
  ptr : Nat
  sizeInBytes : Nat
  avail : Bool
deriving DecidableEq, Repr

/-- What `reserve` leaves: the pool and the returned index. -/
structure ReserveResult where
  pool : List Buffer
  idx : Int
deriving DecidableEq, Repr

/-- `MemoryPool::reserve<T>(size)` on the pool `_memPool`, with `sz` for `sizeof(T)`: a vector
of `size` elements is constructed, its storage is recorded as an available buffer at the end of
the pool, and the index of that buffer is returned. -/
def reserve (pool : List Buffer) (size sz : Nat) (mallocResult : Option Nat) :
    Option ReserveResult :=
  match DevVector.default.resize size mallocResult with
  | none => none
  | some (vec, _) =>
    some ⟨pool ++ [Buffer.mk vec._ptr (mul64 size sz) true],
      sizeToInt (pool ++ [Buffer.mk vec._ptr (mul64 size sz) true]).length - 1⟩

/-- The body of the best-fit loop of `allocateAny` for buffer `i`, acting on `bufIdx`. -/
def bestFitStep (pool : List Buffer) (sizeInBytes : Nat) (i : Nat) (bufIdx : Int) : Option Int :=
  match getAt pool i with
  | none => none
  | some b =>
    if b.avail = true ∧ b.sizeInBytes ≥ sizeInBytes then
      if bufIdx = -1 then some (i : Int)
      else
        match getAt pool bufIdx with
        | none => none
        | some best => if b.sizeInBytes < best.sizeInBytes then some (i : Int) else some bufIdx
    else some bufIdx

/-- The best-fit loop of `allocateAny`: the value of `bufIdx` after it. -/
def findBestFit (pool : List Buffer) (sizeInBytes : Nat) : Option Int :=
  loopFrom (bestFitStep pool sizeInBytes) pool.length 0 (-1)

/-- What `allocateAny` leaves: the returned vector, the pool, and the final `bufIdx`. -/
structure AllocResult where
  vec : DevVector
  pool : List Buffer
  bufIdx : Int
deriving DecidableEq, Repr

/-- The end of `allocateAny`, once `bufIdx` names a buffer: the vector is built on the buffer,
and the buffer is marked unavailable unless `tempOnly`. -/
def allocateFrom (pool : List Buffer) (sz : Nat) (tempOnly : Bool) (bufIdx : Int) :
    Option AllocResult :=
  match getAt pool bufIdx with
  | none => none
  | some b =>
    if tempOnly = false then
      match setAt pool bufIdx ⟨b.ptr, b.sizeInBytes, false⟩ with
      | none => none
      | some pool1 => some ⟨⟨b.ptr, 0, b.sizeInBytes / sz, false⟩, pool1, bufIdx⟩
    else some ⟨⟨b.ptr, 0, b.sizeInBytes / sz, false⟩, pool, bufIdx⟩

/-- `MemoryPool::allocateAny<T>(size, tempOnly)` on the pool `_memPool`, with `sz` for
`sizeof(T)`. -/
def allocateAny (pool : List Buffer) (size sz : Nat) (tempOnly : Bool)
    (mallocResult : Option Nat) : Option AllocResult :=
  match findBestFit pool (mul64 size sz) with
  | none => none
  | some bufIdx =>
    if bufIdx = -1 then
      match reserve pool size sz mallocResult with
      | none => none
      | some r => allocateFrom r.pool sz tempOnly r.idx
    else allocateFrom pool sz tempOnly bufIdx

/-- What `release` leaves: the pool, the vector, the pointers given to `cudaFree`, and whether
the warning `Releasing a DevVector not in the MemoryPool!` was printed. -/
structure ReleaseResult where
  pool : List Buffer
  vec : DevVector
  freed : List Nat
  warned : Bool
deriving DecidableEq, Repr

/-- `MemoryPool::release<T>(vec)` on the buffers from the current one of the loop on: the first
buffer with the pointer of the vector is made available again (both assertions must hold) and
the vector is reset; with no such buffer the vector is made an owner and freed. -/
def releaseFrom (vec : DevVector) : List Buffer → Option ReleaseResult
  | [] => some ⟨[], (DevVector.free ⟨vec._ptr, vec._size, vec._capacity, true⟩).1,
      (DevVector.free ⟨vec._ptr, vec._size, vec._capacity, true⟩).2, true⟩
  | b :: rest =>
    if b.ptr = vec._ptr then
      if b.avail = true then none
      else if vec._owned = true then none
      else some ⟨⟨b.ptr, b.sizeInBytes, true⟩ :: rest, vec.free.1, vec.free.2, false⟩
    else
      match releaseFrom vec rest with
      | none => none
      | some r => some ⟨b :: r.pool, r.vec, r.freed, r.warned⟩

/-- `MemoryPool::release<T>(vec)` on the pool `_memPool`. -/
def release (pool : List Buffer) (vec : DevVector) : Option ReleaseResult :=
  releaseFrom vec pool

/-- A buffer fits a request of `n` bytes: it is available and has at least `n` bytes. -/
def Buffer.fits (b : Buffer) (n : Nat) : Prop := b.avail = true ∧ n ≤ b.sizeInBytes

instance (b : Buffer) (n : Nat) : Decidable (b.fits n) := by
  unfold Buffer.fits; infer_instance

/-- Buffer `j` is the best fit among the first `i` buffers of the pool for `n` bytes: it fits,
no fitting buffer is smaller, and no fitting buffer of the same size has a lower index. -/
def IsBestFit (pool : List Buffer) (n i j : Nat) : Prop :=
  j < i ∧ ∃ bj, pool[j]? = some bj ∧ bj.fits n ∧
    ∀ k, k < i → ∀ b, pool[k]? = some b → b.fits n →
      bj.sizeInBytes ≤ b.sizeInBytes ∧ (b.sizeInBytes = bj.sizeInBytes → j ≤ k)

/-- No buffer among the first `i` of the pool fits `n` bytes. -/
def NoneFits (pool : List Buffer) (n i : Nat) : Prop :=
  ∀ k, k < i → ∀ b, pool[k]? = some b → ¬ b.fits n

/-- What `allocateFrom` leaves when it builds the vector on buffer `j` of `pool0`, which is `b`:
the vector, the index, and the pool with only the `avail` flag of buffer `j` written. -/
def AllocatedOn (pool0 : List Buffer) (sz : Nat) (tempOnly : Bool) (j : Nat) (b : Buffer)
    (r : AllocResult) : Prop :=
  pool0[j]? = some b ∧ r.vec = ⟨b.ptr, 0, b.sizeInBytes / sz, false⟩ ∧ r.bufIdx = (j : Int) ∧
    r.pool.length = pool0.length ∧
    r.pool[j]? = some ⟨b.ptr, b.sizeInBytes, b.avail && tempOnly⟩ ∧
    ∀ k, k ≠ j → r.pool[k]? = pool0[k]?

/-- A pool of three buffers: 64 bytes in use, 128 and 32 bytes available. -/
def samplePool : List Buffer := [⟨1000, 64, false⟩, ⟨2000, 128, true⟩, ⟨3000, 32, true⟩]

/-- What `allocateAny samplePool 5 4 false` leaves: the vector on the 32-byte buffer, which is
marked unavailable. -/
def sampleAlloc : AllocResult :=
  ⟨⟨3000, 0, 8, false⟩, [⟨1000, 64, false⟩, ⟨2000, 128, true⟩, ⟨3000, 32, false⟩], 2⟩

/-! ## InputGenerator.cpp -/

/-- A `double`, by a code of its value: equal codes are equal values. Arithmetic on doubles is
not part of the model. -/
abbrev Coord := Int

/-- Modelled from the spec: `Point` of `CommonTypes.h`, three doubles `_p[0..2]`. -/
structure Point where
  p0 : Coord
  p1 : Coord
  p2 : Coord
deriving DecidableEq, Repr

/-- The write `pt._p[i] = x`; an index outside `0..2` is outside the array. -/
def Point.setP (pt : Point) (i : Nat) (x : Coord) : Option Point :=
  if i = 0 then some ⟨x, pt.p1, pt.p2⟩
  else if i = 1 then some ⟨pt.p0, x, pt.p2⟩
  else if i = 2 then some ⟨pt.p0, pt.p1, x⟩
  else none

/-- The inner loop of `readPoints` on one line, `while (ss >> pt._p[i]) ++i;`, the line given
by its tokens: a number (`some x`) or a token that is not a number (`none`). A number
overwrites `pt._p[i]` and the loop goes on; a token that is not a number stores 0 in
`pt._p[i]` and ends the loop; at the end of the line the extraction fails before it writes,
and `pt._p[i]` is left as it is. -/
def readLine : List (Option Coord) → Nat → Point → Option Point
  | [], _, pt => some pt
  | none :: _, i, pt => pt.setP i 0
  | some x :: xs, i, pt =>
    match pt.setP i x with
    | none => none
    | some pt1 => readLine xs (i + 1) pt1

/-- The loop of `InputGenerator::readPoints` over the lines of the file, each line given by its
tokens: the point `pt`, declared before the loop, is overwritten by the line and pushed to
`input.pointVec`. -/
def readPoints : List (List (Option Coord)) → Point → List Point → Option (List Point)
  | [], _, pointVec => some pointVec
  | line :: rest, pt, pointVec =>
    match readLine line 0 pt with
    | none => none
    | some pt1 => readPoints rest pt1 (pointVec ++ [pt1])

/-- The two fields of `InputGeneratorOption` that decide what `generateInput` does to the
input. -/
structure InputGeneratorOption where
  inputFromFile : Bool
  inputConstraint : Bool
deriving DecidableEq, Repr

/-- Modelled from the spec: `gdg::Input` of `CommonTypes.h` as the generator fills it, the
points and the constraints. -/
structure GeneratedInput where
  pointVec : List Point
  constraintVec : List Edge
deriving DecidableEq, Repr

/-- Modelled from the spec: `Input::removeDuplicates` of `CommonTypes.h`, the deduplication of
the points that leaves one of each. -/
def GeneratedInput.removeDuplicates (input : GeneratedInput) : GeneratedInput :=
  ⟨input.pointVec.dedup, input.constraintVec⟩

/-- `InputGenerator::generateInput`, as far as it writes `input`. `fileLines` are the lines of
the point file, `pt0` the value of the uninitialised point of `readPoints`, `constraintsRead`
the edges that `readConstraints` pushes, and `made` the points that `makePoints` pushes. -/
def generateInput (option : InputGeneratorOption) (fileLines : List (List (Option Coord)))
    (pt0 : Point) (constraintsRead : List Edge) (made : List Point) (input : GeneratedInput) :
    Option GeneratedInput :=
  if option.inputFromFile = true then
    match readPoints fileLines pt0 input.pointVec with
    | none => none
    | some pointVec =>
      if option.inputConstraint = true then
        some ⟨pointVec, input.constraintVec ++ constraintsRead⟩
      else some ⟨pointVec, input.constraintVec⟩
  else
    some (GeneratedInput.removeDuplicates ⟨input.pointVec ++ made, input.constraintVec⟩)

/-! ## Fans, for the completeness of the constraint check -/

/-- A position of a walk around a vertex: a triangle and the slot of the vertex in it. -/
abbrev FanPos := Int × Int

/-- Rotating across the edge `(vi + 1) % 3` of position `p` leads to position `q`. -/
def ccwLink (oppVec : List TriOpp) (p q : FanPos) : Prop :=
  ∃ s ∈ slotOf oppVec p.1 (cmod (p.2 + 1) 3), s.tri ≠ -1 ∧ s.tri = q.1 ∧ cmod (s.vi + 1) 3 = q.2

/-- Rotating across the edge `(vi + 2) % 3` of position `p` leads to position `q`. -/
def cwLink (oppVec : List TriOpp) (p q : FanPos) : Prop :=
  ∃ s ∈ slotOf oppVec p.1 (cmod (p.2 + 2) 3), s.tri ≠ -1 ∧ s.tri = q.1 ∧ cmod (s.vi + 2) 3 = q.2

/-- The edge `(vi + 1) % 3` of position `p` is a boundary edge. -/
def ccwEnd (oppVec : List TriOpp) (p : FanPos) : Prop :=
  ∃ s ∈ slotOf oppVec p.1 (cmod (p.2 + 1) 3), s.tri = -1

/-- The edge `(vi + 2) % 3` of position `p` is a boundary edge. -/
def cwEnd (oppVec : List TriOpp) (p : FanPos) : Prop :=
  ∃ s ∈ slotOf oppVec p.1 (cmod (p.2 + 2) 3), s.tri = -1

instance (oppVec : List TriOpp) (p q : FanPos) : Decidable (ccwLink oppVec p q) := by
  unfold ccwLink; infer_instance

instance (oppVec : List TriOpp) (p q : FanPos) : Decidable (cwLink oppVec p q) := by
  unfold cwLink; infer_instance

instance (oppVec : List TriOpp) (p : FanPos) : Decidable (ccwEnd oppVec p) := by
  unfold ccwEnd; infer_instance

instance (oppVec : List TriOpp) (p : FanPos) : Decidable (cwEnd oppVec p) := by
  unfold cwEnd; infer_instance

/-- Position `k` of a fan. -/
def fanAt (fan : List FanPos) (k : Nat) : FanPos := fan.getD k (0, 0)

/-- The triangles incident to vertex `a` form the single fan `fan`, listed in the order of the
first walk: fewer than `MaxWalking` positions, each a slot that holds `a`, in pairwise distinct
triangles, each linked to the next by a rotation; a closed fan links its last position to its
first, an open fan ends with a boundary edge on both sides; and every slot of the mesh that
holds `a` is a position of the fan. -/
def IsFan (output : Output) (a : Int) (fan : List FanPos) (closed : Bool) : Prop :=
  0 < fan.length ∧ fan.length < 1000000 ∧
  (∀ k : Nat, k < fan.length →
    vertOf output.triVec (fanAt fan k).1 (fanAt fan k).2 = some a) ∧
  (∀ k1 : Nat, k1 < fan.length → ∀ k2 : Nat, k2 < fan.length →
    (fanAt fan k1).1 = (fanAt fan k2).1 → k1 = k2) ∧
  (∀ k : Nat, k < fan.length - 1 →
    ccwLink output.triOppVec (fanAt fan k) (fanAt fan (k + 1))) ∧
  (closed = true → ccwLink output.triOppVec (fanAt fan (fan.length - 1)) (fanAt fan 0)) ∧
  (closed = false →
    ccwEnd output.triOppVec (fanAt fan (fan.length - 1)) ∧ cwEnd output.triOppVec (fanAt fan 0)) ∧
  (∀ t : Nat, t < output.triVec.length → ∀ i : Nat, i < 3 →
    vertOf output.triVec t i = some a → ∃ k : Nat, k < fan.length ∧ fanAt fan k = ((t : Int), (i : Int)))

instance (output : Output) (a : Int) (fan : List FanPos) (closed : Bool) :
    Decidable (IsFan output a fan closed) := by
  unfold IsFan; infer_instance

/-- The edge opposite slot `e` of triangle `t` joins the two vertices of the constraint, in
either order. -/
def EdgeJoins (triVec : List Tri) (c : Edge) (t e : Int) : Prop :=
  (vertOf triVec t (cmod (e + 1) 3) = some c.v0 ∧ vertOf triVec t (cmod (e + 2) 3) = some c.v1) ∨
  (vertOf triVec t (cmod (e + 1) 3) = some c.v1 ∧ vertOf triVec t (cmod (e + 2) 3) = some c.v0)

instance (triVec : List Tri) (c : Edge) (t e : Int) : Decidable (EdgeJoins triVec c t e) := by
  unfold EdgeJoins; infer_instance

/-- The constraint is an interior edge of the mesh: some triangle has its two vertices as
consecutive vertices, and every slot whose edge joins them has a neighbour. -/
def InteriorEdge (output : Output) (c : Edge) : Prop :=
  (∃ t : Nat, t < output.triVec.length ∧ ∃ e : Nat, e < 3 ∧ EdgeJoins output.triVec c t e) ∧
  ∀ t : Nat, t < output.triVec.length → ∀ e : Nat, e < 3 → EdgeJoins output.triVec c t e →
    ∀ s ∈ slotOf output.triOppVec t e, s.tri ≠ -1

instance (output : Output) (c : Edge) : Decidable (InteriorEdge output c) := by
  unfold InteriorEdge; infer_instance

/-- The constraint `(a, b)` is an interior edge and the triangles incident to `a` form a single
fan of fewer than `MaxWalking` triangles. -/
def FanEdge (output : Output) (c : Edge) : Prop :=
  InteriorEdge output c ∧ ∃ (fan : List FanPos) (closed : Bool), IsFan output c.v0 fan closed

/-- The vectors fit the checker: one `TriOpp` per triangle, a triangle count that fits an
`int`, and every vertex index a point index in `[0, pointNum)`. -/
def MeshFits (pointNum : Nat) (output : Output) : Prop :=
  output.triVec.length = output.triOppVec.length ∧
  (output.triVec.length : Int) ≤ INT_MAX ∧
  ∀ tri ∈ output.triVec,
    (0 ≤ tri.v0 ∧ tri.v0 < pointNum) ∧ (0 ≤ tri.v1 ∧ tri.v1 < pointNum) ∧
      (0 ≤ tri.v2 ∧ tri.v2 < pointNum)

instance (pointNum : Nat) (output : Output) : Decidable (MeshFits pointNum output) := by
  unfold MeshFits; infer_instance

/-! ## MemoryManager.h: the other operations of DevVector, with the elements -/

/-- The elements in device memory: the value at each index of the block at each pointer. -/
abbrev DevMem := Nat → Nat → Int

/-- `thrust::copy(src, src + count, dst)`: the first `count` elements of the block at `src` are
written to the block at `dst`. -/
def copyRange (mem : DevMem) (src count dst : Nat) : DevMem :=
  fun p i => if p = dst ∧ i < count then mem src i else mem p i

/-- `thrust::fill_n(dst, count, value)`. -/
def fillRange (mem : DevMem) (dst count : Nat) (value : Int) : DevMem :=
  fun p i => if p = dst ∧ i < count then value else mem p i

/-- The read `vec[index]`, which is `_ptr[index]`. -/
def DevVector.get (v : DevVector) (mem : DevMem) (index : Nat) : Int := mem v._ptr index

/-- `DevVector::expand`; the assertion `_capacity >= n` that fails is `none`. -/
def DevVector.expand (v : DevVector) (n : Nat) : Option DevVector :=
  if v._capacity ≥ n then some ⟨v._ptr, n, v._capacity, v._owned⟩ else none

/-- `DevVector::swap`: the vector and the argument afterwards. A pointer is taken over only
with a positive capacity. -/
def DevVector.swap (v arr : DevVector) : DevVector × DevVector :=
  (⟨if arr._capacity > 0 then arr._ptr else v._ptr, arr._size, arr._capacity, arr._owned⟩,
    ⟨if v._capacity > 0 then (if v._capacity > 0 then v._ptr else 0) else arr._ptr,
      v._size, v._capacity, v._owned⟩)

/-- `DevVector::swapAndFree`: the vector and the argument afterwards, and the pointers given to
`cudaFree`. -/
def DevVector.swapAndFree (v inArr : DevVector) : DevVector × DevVector × List Nat :=
  ((v.swap inArr).1, (v.swap inArr).2.free.1, (v.swap inArr).2.free.2)

/-- The constructor `DevVector(size_t n)`: `_size(0), _capacity(0)` and then `resize(n)`. -/
def DevVector.ofSize (n : Nat) (mallocResult : Option Nat) : Option (DevVector × List Nat) :=
  DevVector.resize ⟨0, 0, 0, true⟩ n mallocResult

/-- `DevVector::grow`: the vector and the device memory afterwards, and the pointers given to
`cudaFree`. The assertion `n >= _size` that fails is `none`. Beyond the capacity a temporary
vector of `n` elements is constructed, the elements are copied to it, the two are swapped, and
the temporary is freed (and freed once more by its destructor). -/
def DevVector.grow (v : DevVector) (mem : DevMem) (n : Nat) (mallocResult : Option Nat) :
    Option (DevVector × DevMem × List Nat) :=
  if n ≥ v._size then
    if v._capacity ≥ n then some (⟨v._ptr, n, v._capacity, v._owned⟩, mem, [])
    else
      match DevVector.ofSize n mallocResult with
      | none => none
      | some (tempVec, freed0) =>
        some ((v.swapAndFree tempVec).1, copyRange mem v._ptr v._size tempVec._ptr,
          freed0 ++ (v.swapAndFree tempVec).2.2 ++ (v.swapAndFree tempVec).2.1.free.2)
  else none

/-- `DevVector::assign`: `resize(n)` and then `n` elements filled with `value`. -/
def DevVector.assign (v : DevVector) (mem : DevMem) (n : Nat) (value : Int)
    (mallocResult : Option Nat) : Option (DevVector × DevMem × List Nat) :=
  match v.resize n mallocResult with
  | none => none
  | some (v1, freed) => some (v1, fillRange mem v1._ptr n value, freed)

/-- `DevVector::erase(first, last)`, with the two pointers given by their element offsets from
`_ptr`: when `last` is `end()`, `_size -= (last - first)` on `size_t`; any other `last` fails
the assertion, which is `none`. -/
def DevVector.erase (v : DevVector) (first last : Int) : Option DevVector :=
  if last = (v._size : Int) then
    some ⟨v._ptr, (((v._size : Int) - (last - first)) % 18446744073709551616).toNat,
      v._capacity, v._owned⟩
  else none

/-! ## Sequences of operations on a MemoryPool -/

/-- A vector handed out by `allocateAny` and not yet released, with the index of the pool
entry it was built on. -/
structure Allocation where
  vec : DevVector
  bufIdx : Int
deriving DecidableEq, Repr

/-- One call on a pool: `reserve<T>(size)`, `allocateAny<T>(size)` with `tempOnly = false`, or
`release` of the `k`-th vector that is outstanding. `sz` is `sizeof(T)` and `mallocResult` what
`device_malloc` answers if the call reaches it. -/
inductive PoolOp where
  | reserve (size sz : Nat) (mallocResult : Option Nat)
  | allocate (size sz : Nat) (mallocResult : Option Nat)
  | release (k : Nat)
deriving DecidableEq, Repr

/-- The pointer that `device_malloc` answers to the call, if it has one. -/
def PoolOp.malloc : PoolOp → Option Nat
  | PoolOp.reserve _ _ m => m
  | PoolOp.allocate _ _ m => m
  | PoolOp.release _ => none

/-- The call asks for at least one element. -/
def PoolOp.positive : PoolOp → Prop
  | PoolOp.reserve size _ _ => 1 ≤ size
  | PoolOp.allocate size _ _ => 1 ≤ size
  | PoolOp.release _ => True

instance (op : PoolOp) : Decidable op.positive := by
  cases op <;> unfold PoolOp.positive <;> infer_instance

/-- The pool `_memPool` and the outstanding vectors, in the order they were handed out. -/
structure PoolState where
  pool : List Buffer
  out : List Allocation
deriving DecidableEq, Repr

/-- One call on the pool; `none` when the call throws, fails an assertion, or names no
outstanding vector. -/
def poolStep (s : PoolState) : PoolOp → Option PoolState
  | PoolOp.reserve size sz m =>
    match reserve s.pool size sz m with
    | none => none
    | some r => some ⟨r.pool, s.out⟩
  | PoolOp.allocate size sz m =>
    match allocateAny s.pool size sz false m with
    | none => none
    | some r => some ⟨r.pool, s.out ++ [⟨r.vec, r.bufIdx⟩]⟩
  | PoolOp.release k =>
    match s.out[k]? with
    | none => none
    | some a =>
      match release s.pool a.vec with
      | none => none
      | some r => some ⟨r.pool, s.out.eraseIdx k⟩

/-- A sequence of calls on the pool. -/
def poolRun : PoolState → List PoolOp → Option PoolState
  | s, [] => some s
  | s, op :: ops =>
    match poolStep s op with
    | none => none
    | some s1 => poolRun s1 ops

/-- Every outstanding vector is on a pool entry of its own, which is marked unavailable and
holds the pointer of the vector. -/
def Exclusive (s : PoolState) : Prop :=
  (s.out.map Allocation.bufIdx).Nodup ∧
  ∀ a ∈ s.out, ∃ b ∈ getAt s.pool a.bufIdx, b.avail = false ∧ b.ptr = a.vec._ptr

instance (s : PoolState) : Decidable (Exclusive s) := by
  unfold Exclusive; infer_instance

/-- The invariant of a pool whose buffers have pointers of their own: the pointers are pairwise
distinct, the outstanding vectors are on pairwise distinct entries, and the entry of each is
marked unavailable and holds its pointer; the vectors do not own their storage. -/
def PoolInv (s : PoolState) : Prop :=
  (s.pool.map Buffer.ptr).Nodup ∧ (s.out.map Allocation.bufIdx).Nodup ∧
  ∀ a ∈ s.out, ∃ j : Nat, a.bufIdx = (j : Int) ∧ ∃ b, s.pool[j]? = some b ∧
    b.avail = false ∧ b.ptr = a.vec._ptr ∧ a.vec._owned = false

/-- Two requests for no element, the release of the second vector, and a third request for no
element. -/
def zeroSizeOps : List PoolOp :=
  [PoolOp.allocate 0 4 (some 1000), PoolOp.allocate 0 4 (some 2000), PoolOp.release 1,
    PoolOp.allocate 0 4 (some 3000)]

/-! ## The walks of checkConstraints, with a count of their rotations -/

/-- The first walk loop as `ccwWalk`, with a count of the rotations: `r` is incremented at each
execution of `triIdx = opp.getOppTri((vi + 1) % DEG)`. The state and the count after the loop
are returned. -/
def ccwWalkCount (triVec : List Tri) (oppVec : List TriOpp) (startIdx b : Int) :
    Nat → WalkState → Nat → Option (WalkState × Nat)
  | 0, st, r => some (st, r)
  | fuel + 1, st, r =>
    match getAt triVec st.triIdx, getAt oppVec st.triIdx with
    | some tri, some opp =>
      match tri.v (cmod (st.vi + 2) 3) with
      | none => none
      | some nextVert =>
        if nextVert = b then some (⟨INT_MAX, st.triIdx, cmod (st.vi + 1) DEG⟩, r)
        else
          match opp.t (cmod (st.vi + 1) DEG) with
          | none => none
          | some s =>
            if s.tri = -1 then some (st, r)
            else if s.tri = startIdx then some (⟨st.j, s.tri, cmod (s.vi + 1) DEG⟩, r + 1)
            else ccwWalkCount triVec oppVec startIdx b fuel
              ⟨st.j + 1, s.tri, cmod (s.vi + 1) DEG⟩ (r + 1)
    | _, _ => none

/-- The second walk loop as `cwWalk`, with a count of the rotations: `r` is incremented at
each execution of `triIdx = opp.getOppTri((vi + 2) % DEG)`. -/
def cwWalkCount (triVec : List Tri) (oppVec : List TriOpp) (startIdx b : Int) :
    Nat → WalkState → Nat → Option (WalkState × Nat)
  | 0, st, r => some (st, r)
  | fuel + 1, st, r =>
    match getAt triVec st.triIdx with
    | none => none
    | some tri =>
      match tri.v (cmod (st.vi + 1) 3) with
      | none => none
      | some nextVert =>
        if nextVert = b then some (⟨INT_MAX, st.triIdx, cmod (st.vi + 2) DEG⟩, r)
        else
          match getAt oppVec st.triIdx with
          | none => none
          | some opp =>
            match opp.t (cmod (st.vi + 2) DEG) with
            | none => none
            | some s =>
              if s.tri = -1 then some (st, r)
              else if s.tri = startIdx then some (⟨st.j, s.tri, cmod (s.vi + 2) DEG⟩, r + 1)
              else cwWalkCount triVec oppVec startIdx b fuel
                ⟨st.j + 1, s.tri, cmod (s.vi + 2) DEG⟩ (r + 1)

/-- The two walks of one constraint as `walkBoth`, with the count of the rotations of both. -/
def walkBothCount (triVec : List Tri) (oppVec : List TriOpp) (startIdx : Int)
    (constraint : Edge) : Option (WalkState × Nat) :=
  match getAt triVec startIdx with
  | none => none
  | some startTri =>
    match ccwWalkCount triVec oppVec startIdx constraint.v1 MaxWalking.toNat
        ⟨0, startIdx, startTri.getIndexOf constraint.v0⟩ 0 with
    | none => none
    | some (w1, r1) =>
      if w1.j < MaxWalking then
        cwWalkCount triVec oppVec startIdx constraint.v1 (MaxWalking - w1.j).toNat
          ⟨w1.j, startIdx, startTri.getIndexOf constraint.v0⟩ r1
      else some (w1, r1)

/-- The word of a slot stays inside a mesh of `n` triangles: it is the boundary word or names
one of the triangles, and its opposite slot is a two-bit value. -/
def SlotIndexed (n : Nat) (s : OppSlot) : Prop :=
  (s.tri = -1 ∨ (0 ≤ s.tri ∧ s.tri < (n : Int))) ∧ 0 ≤ s.vi ∧ s.vi ≤ 3

instance (n : Nat) (s : OppSlot) : Decidable (SlotIndexed n s) := by
  unfold SlotIndexed; infer_instance

/-- The vectors of a mesh are indexed inside themselves: one `TriOpp` per triangle, and every
word stays inside the mesh. The adjacency need not be symmetric or consistent. -/
def WellIndexed (triVec : List Tri) (oppVec : List TriOpp) : Prop :=
  triVec.length = oppVec.length ∧
  ∀ o ∈ oppVec, SlotIndexed triVec.length o.t0 ∧ SlotIndexed triVec.length o.t1 ∧
    SlotIndexed triVec.length o.t2

instance (triVec : List Tri) (oppVec : List TriOpp) : Decidable (WellIndexed triVec oppVec) := by
  unfold WellIndexed; infer_instance

/-- Two triangles `[0,2,3]` and `[0,1,2]` around vertex 0; the vertex to triangle map gives
vertex 0 the triangle 1. -/
def loopTris : List Tri := [⟨0, 2, 3⟩, ⟨0, 1, 2⟩]

/-- An inconsistent, cyclic adjacency of `loopTris`: slot 1 of triangle 1 names triangle 1
itself, slot 2 of triangle 1 names triangle 0, and slot 2 of triangle 0 names triangle 0
itself. -/
def loopOpps : List TriOpp :=
  [⟨⟨-1, 0, false⟩, ⟨-1, 0, false⟩, ⟨0, 1, false⟩⟩,
   ⟨⟨-1, 0, false⟩, ⟨1, 0, false⟩, ⟨0, 1, false⟩⟩]

/-! ## Arithmetic of the encodings -/

theorem wrap32_of_range (x : Int) (h0 : -2147483648 ≤ x) (h1 : x < 2147483648) :
    wrap32 x = x := by
  unfold wrap32; omega

theorem or32_ofNat (a b : Nat) : or32 (a : Int) (b : Int) = ((a ||| b : Nat) : Int) := rfl

theorem and32_ofNat (a b : Nat) : and32 (a : Int) (b : Int) = ((a &&& b : Nat) : Int) := rfl

theorem shr32_ofNat (a k : Nat) : shr32 (a : Int) k = ((a >>> k : Nat) : Int) := rfl

/-- Masking with `3` keeps the two low bits. -/
theorem and32_three (a : Nat) : and32 (a : Int) 3 = ((a % 4 : Nat) : Int) := by
  show ((a &&& 3 : Nat) : Int) = _
  have h3 : a &&& 3 = a % 2 ^ 2 := Nat.and_pow_two_sub_one_eq_mod a 2
  rw [h3]; rfl

/-- Packing a small value below a multiple of a power of two is an addition. -/
theorem or32_mul_add (i a b : Nat) (hb : b < 2 ^ i) :
    or32 ((2 ^ i * a : Nat) : Int) (b : Int) = ((2 ^ i * a + b : Nat) : Int) := by
  rw [or32_ofNat, Nat.mul_add_lt_is_or hb]

theorem encode_ofNat (t v : Nat) (ht : t < 2 ^ 29) (hv : v < 4) :
    encode (t : Int) (v : Int) = ((4 * t + v : Nat) : Int) := by
  unfold encode shl32
  have h4 : ((t : Int) * 2 ^ 2) = ((2 ^ 2 * t : Nat) : Int) := by push_cast; ring
  rw [h4, wrap32_of_range _ (by omega) (by omega)]
  have := or32_mul_add 2 t v (by omega)
  simpa using this

theorem encode_eq (t v : Int) (ht0 : 0 ≤ t) (ht : t < 2 ^ 29) (hv0 : 0 ≤ v) (hv : v ≤ 3) :
    encode t v = 4 * t + v := by
  obtain ⟨n, rfl⟩ := Int.eq_ofNat_of_zero_le ht0
  obtain ⟨m, rfl⟩ := Int.eq_ofNat_of_zero_le hv0
  rw [encode_ofNat n m (by omega) (by omega)]
  push_cast; ring

theorem decode_ofNat (t v : Nat) (hv : v < 4) :
    decode ((4 * t + v : Nat) : Int) = ((t : Int), (v : Int)) := by
  unfold decode
  rw [shr32_ofNat, and32_three, Nat.shiftRight_eq_div_pow]
  have h1 : (4 * t + v) / 2 ^ 2 = t := by omega
  have h2 : (4 * t + v) % 4 = v := by omega
  rw [h1, h2]

theorem encode_constraint_ofNat (i v s : Nat) (hi : i < 2 ^ 27) (hv : v < 4) (hs : s < 4) :
    encode_constraint (i : Int) (v : Int) (s : Int) = ((16 * i + 4 * v + s : Nat) : Int) := by
  unfold encode_constraint shl32
  have h16 : ((i : Int) * 2 ^ 4) = ((2 ^ 4 * i : Nat) : Int) := by push_cast; ring
  have h4 : ((v : Int) * 2 ^ 2) = ((4 * v : Nat) : Int) := by push_cast; ring
  rw [h16, h4, wrap32_of_range _ (by omega) (by omega), wrap32_of_range _ (by omega) (by omega)]
  rw [or32_mul_add 4 i (4 * v) (by omega)]
  have e : 2 ^ 4 * i + 4 * v = 2 ^ 2 * (4 * i + v) := by omega
  rw [e, or32_mul_add 2 (4 * i + v) s (by omega)]
  congr 1; omega

/-! ## The claims on the encodings -/

/-- C4: for a triangle index in `[0, 2^29)` and a slot in `{0,1,2,3}`, `encode` is the
shift-and-or `(triIdx<<2)|vi` without overflow (which is `4*triIdx + vi`), and `decode`
returns the index and the slot that were encoded. -/
theorem encode_decode_roundtrip (triIdx vi : Int)
    (ht0 : 0 ≤ triIdx) (ht : triIdx < 2 ^ 29) (hv0 : 0 ≤ vi) (hv : vi ≤ 3) :
    encode triIdx vi = Int.lor (triIdx * 2 ^ 2) vi ∧ encode triIdx vi = 4 * triIdx + vi ∧
      decode (encode triIdx vi) = (triIdx, vi) := by
  obtain ⟨n, rfl⟩ := Int.eq_ofNat_of_zero_le ht0
  obtain ⟨m, rfl⟩ := Int.eq_ofNat_of_zero_le hv0
  have hn : n < 2 ^ 29 := by omega
  have hm : m < 4 := by omega
  refine ⟨?_, ?_, ?_⟩
  · unfold encode shl32 or32
    rw [wrap32_of_range _ (by omega) (by omega)]
  · rw [encode_ofNat n m hn hm]; push_cast; ring
  · rw [encode_ofNat n m hn hm, decode_ofNat n m hm]

theorem encode_decode_roundtrip_witness :
    encode 5 2 = Int.lor (5 * 2 ^ 2) 2 ∧ encode 5 2 = 4 * 5 + 2 ∧
      decode (encode 5 2) = (5, 2) :=
  encode_decode_roundtrip 5 2 (by decide) (by decide) (by decide) (by decide)

/-- C5: on triangle indices in `[0, 2^29)` and slots in `{0,1,2,3}`, `encode` compares as the
lexicographic order of the pairs, it is injective, and the minimum of two codes is the code
of the lexicographically lower pair. -/
theorem encode_lex_order (t1 v1 t2 v2 : Int)
    (h1 : 0 ≤ t1 ∧ t1 < 2 ^ 29) (h2 : 0 ≤ t2 ∧ t2 < 2 ^ 29)
    (hv1 : 0 ≤ v1 ∧ v1 ≤ 3) (hv2 : 0 ≤ v2 ∧ v2 ≤ 3) :
    (encode t1 v1 < encode t2 v2 ↔ (t1 < t2 ∨ (t1 = t2 ∧ v1 < v2))) ∧
      (encode t1 v1 = encode t2 v2 → t1 = t2 ∧ v1 = v2) ∧
      min (encode t1 v1) (encode t2 v2) =
        (if t1 < t2 ∨ (t1 = t2 ∧ v1 ≤ v2) then encode t1 v1 else encode t2 v2) := by
  rw [encode_eq t1 v1 h1.1 h1.2 hv1.1 hv1.2, encode_eq t2 v2 h2.1 h2.2 hv2.1 hv2.2]
  refine ⟨by omega, by omega, ?_⟩
  split_ifs with h
  · exact min_eq_left (by omega)
  · exact min_eq_right (by omega)

theorem encode_lex_order_witness :
    (encode 3 2 < encode 4 0 ↔ ((3 : Int) < 4 ∨ ((3 : Int) = 4 ∧ (2 : Int) < 0))) ∧
      (encode 3 2 = encode 4 0 → (3 : Int) = 4 ∧ (2 : Int) = 0) ∧
      min (encode 3 2) (encode 4 0) =
        (if (3 : Int) < 4 ∨ ((3 : Int) = 4 ∧ (2 : Int) ≤ 0) then encode 3 2 else encode 4 0) :=
  encode_lex_order 3 2 4 0 (by decide) (by decide) (by decide) (by decide)

/-- C6: for `0 ≤ v ≤ INT_MAX - 2`, `makeNegative` passes its assertion and returns `-(v+2)`,
which is at most `-2` and so never the reserved `-1`, and `makePositive` maps it back to `v`. -/
theorem makeNegative_roundtrip (v : Int) (h0 : 0 ≤ v) (h1 : v ≤ INT_MAX - 2) :
    makeNegative v = some (-(v + 2)) ∧ -(v + 2) ≤ -2 ∧ -(v + 2) ≠ -1 ∧
      (makeNegative v).bind makePositive = some v := by
  unfold INT_MAX at h1
  have e1 : makeNegative v = some (-(v + 2)) := by
    unfold makeNegative neg32 add32
    rw [if_pos (by omega), wrap32_of_range (v + 2) (by omega) (by omega),
      wrap32_of_range _ (by omega) (by omega)]
  refine ⟨e1, by omega, by omega, ?_⟩
  rw [e1, Option.some_bind]
  unfold makePositive neg32 add32
  rw [if_pos (by omega), wrap32_of_range (-(v + 2) + 2) (by omega) (by omega),
    wrap32_of_range _ (by omega) (by omega)]
  congr 1; omega

theorem makeNegative_roundtrip_witness :
    makeNegative 7 = some (-(7 + 2)) ∧ -((7 : Int) + 2) ≤ -2 ∧ -((7 : Int) + 2) ≠ -1 ∧
      (makeNegative 7).bind makePositive = some 7 :=
  makeNegative_roundtrip 7 (by decide) (by decide)

/-- C7: for a constraint index in `[0, 2^27)`, a slot and a side in `{0,1,2,3}`, the label
`encode_constraint(idx, vi, side)` is `(idx<<4)|(vi<<2)|side` without overflow and the three
decoders return `idx`, `vi` and `side`. -/
theorem constraint_label_roundtrip (idx vi side : Int)
    (hi : 0 ≤ idx ∧ idx < 2 ^ 27) (hv : 0 ≤ vi ∧ vi ≤ 3) (hs : 0 ≤ side ∧ side ≤ 3) :
    encode_constraint idx vi side = Int.lor (Int.lor (idx * 2 ^ 4) (vi * 2 ^ 2)) side ∧
      decode_cIdx (encode_constraint idx vi side) = idx ∧
      decode_cVi (encode_constraint idx vi side) = vi ∧
      decode_cSide (encode_constraint idx vi side) = side := by
  obtain ⟨i, rfl⟩ := Int.eq_ofNat_of_zero_le hi.1
  obtain ⟨v, rfl⟩ := Int.eq_ofNat_of_zero_le hv.1
  obtain ⟨s, rfl⟩ := Int.eq_ofNat_of_zero_le hs.1
  have hi2 : i < 2 ^ 27 := by omega
  have hv2 : v < 4 := by omega
  have hs2 : s < 4 := by omega
  refine ⟨?_, ?_, ?_, ?_⟩
  · unfold encode_constraint shl32 or32
    rw [wrap32_of_range _ (by omega) (by omega), wrap32_of_range _ (by omega) (by omega)]
  · rw [encode_constraint_ofNat i v s hi2 hv2 hs2]
    unfold decode_cIdx
    rw [shr32_ofNat, Nat.shiftRight_eq_div_pow]
    congr 1; omega
  · rw [encode_constraint_ofNat i v s hi2 hv2 hs2]
    unfold decode_cVi
    rw [shr32_ofNat, and32_three, Nat.shiftRight_eq_div_pow]
    congr 1; omega
  · rw [encode_constraint_ofNat i v s hi2 hv2 hs2]
    unfold decode_cSide
    rw [and32_three]
    congr 1; omega

theorem constraint_label_roundtrip_witness :
    encode_constraint 9 2 3 = Int.lor (Int.lor (9 * 2 ^ 4) (2 * 2 ^ 2)) 3 ∧
      decode_cIdx (encode_constraint 9 2 3) = 9 ∧
      decode_cVi (encode_constraint 9 2 3) = 2 ∧
      decode_cSide (encode_constraint 9 2 3) = 3 :=
  constraint_label_roundtrip 9 2 3 (by decide) (by decide) (by decide)

/-! ## The vote round -/

theorem le_minOver_iff (z init : Int) (xs : List Int) :
    z ≤ minOver init xs ↔ z ≤ init ∧ ∀ x ∈ xs, z ≤ x := by
  unfold minOver
  induction xs generalizing init with
  | nil => simp
  | cons x xs ih =>
    rw [List.foldl_cons, ih]
    simp only [le_min_iff, List.mem_cons, forall_eq_or_imp]
    tauto

theorem minOver_le_init (init : Int) (xs : List Int) : minOver init xs ≤ init :=
  ((le_minOver_iff _ init xs).1 le_rfl).1

theorem minOver_le_mem (init : Int) (xs : List Int) (x : Int) (hx : x ∈ xs) :
    minOver init xs ≤ x :=
  ((le_minOver_iff _ init xs).1 le_rfl).2 x hx

theorem minOver_mem (init : Int) (xs : List Int) : minOver init xs = init ∨ minOver init xs ∈ xs := by
  unfold minOver
  induction xs generalizing init with
  | nil => simp
  | cons x xs ih =>
    rw [List.foldl_cons]
    rcases ih (min init x) with h | h
    · rcases min_choice init x with e | e
      · left; rw [h, e]
      · right; rw [h, e]; exact List.mem_cons_self _ _
    · right; exact List.mem_cons_of_mem _ h

theorem voteForFlip_apply (arr : VoteArr) (botTi topTi botVi k : Int) :
    voteForFlip arr botTi topTi botVi k =
      if k = botTi ∨ k = topTi then min (arr k) (encode botTi botVi) else arr k := by
  unfold voteForFlip atomicMin
  by_cases h1 : k = topTi <;> by_cases h2 : k = botTi
  · subst h2; subst h1; simp
  · subst h1; simp [h2, Ne.symm h2]
  · subst h2; simp [h1]
  · simp [h1, h2]

/-- After a vote round a slot holds the minimum of its initial value and the codes of the
candidates that name it. -/
theorem voteAll_apply (cs : List Flip) (arr : VoteArr) (k : Int) :
    voteAll arr cs k = minOver (arr k) ((cs.filter (fun c => c.names k)).map Flip.code) := by
  induction cs generalizing arr with
  | nil => rfl
  | cons c cs ih =>
    have step : voteAll arr (c :: cs) = voteAll (voteForFlip arr c.botTi c.topTi c.botVi) cs := rfl
    rw [step, ih, voteForFlip_apply]
    by_cases h : k = c.botTi ∨ k = c.topTi
    · have hn : c.names k = true := by
        unfold Flip.names; simpa using h
      have e : List.filter (fun c => c.names k) (c :: cs) =
          c :: List.filter (fun c => c.names k) cs := by
        simp [List.filter_cons, hn]
      rw [if_pos h, e]
      rfl
    · have hn : ¬ (c.names k = true) := by
        unfold Flip.names; simpa using h
      have e : List.filter (fun c => c.names k) (c :: cs) =
          List.filter (fun c => c.names k) cs := by
        simp [List.filter_cons, hn]
      rw [if_neg h, e]

theorem exists_min_code (cs : List Flip) (hne : cs ≠ []) :
    ∃ c ∈ cs, ∀ d ∈ cs, c.code ≤ d.code := by
  induction cs with
  | nil => exact absurd rfl hne
  | cons a cs ih =>
    by_cases hcs : cs = []
    · subst hcs; exact ⟨a, List.mem_cons_self _ _, by simp⟩
    · obtain ⟨m, hm, hmin⟩ := ih hcs
      by_cases h : a.code ≤ m.code
      · refine ⟨a, List.mem_cons_self _ _, ?_⟩
        intro d hd
        rcases List.mem_cons.1 hd with rfl | hd
        · exact le_rfl
        · exact le_trans h (hmin d hd)
      · refine ⟨m, List.mem_cons_of_mem _ hm, ?_⟩
        intro d hd
        rcases List.mem_cons.1 hd with rfl | hd
        · omega
        · exact hmin d hd

theorem code_le_INT_MAX (c : Flip) (h : c.inDomain) : c.code ≤ INT_MAX := by
  obtain ⟨h0, h1, h2, h3⟩ := h
  unfold Flip.code INT_MAX
  rw [encode_eq _ _ h0 h1 h2 (by omega)]
  omega

theorem code_injective (c d : Flip) (hc : c.inDomain) (hd : d.inDomain) (h : c.code = d.code) :
    c.botTi = d.botTi ∧ c.botVi = d.botVi := by
  obtain ⟨c0, c1, c2, c3⟩ := hc
  obtain ⟨d0, d1, d2, d3⟩ := hd
  unfold Flip.code at h
  rw [encode_eq _ _ c0 c1 c2 (by omega), encode_eq _ _ d0 d1 d2 (by omega)] at h
  omega

theorem min_code_slot (cs : List Flip) (c : Flip) (hc : c ∈ cs) (hdom : c.inDomain)
    (hmin : ∀ d ∈ cs, c.code ≤ d.code) (k : Int) (hk : c.names k = true) :
    voteAll (fun _ => INT_MAX) cs k = c.code := by
  rw [voteAll_apply]
  apply le_antisymm
  · apply minOver_le_mem
    exact List.mem_map.2 ⟨c, List.mem_filter.2 ⟨hc, hk⟩, rfl⟩
  · rw [le_minOver_iff]
    refine ⟨code_le_INT_MAX c hdom, ?_⟩
    intro x hx
    obtain ⟨d, hd, rfl⟩ := List.mem_map.1 hx
    exact hmin d (List.mem_filter.1 hd).1

/-- C1: in a vote round over a non-empty list of candidates with `0 ≤ botTi < 2^29` and
`botVi ∈ {0,1,2}`, started from slots that all hold `INT_MAX`, a candidate with the smallest
code finds its own code in both its slots, and such a candidate exists: some candidate wins. -/
theorem vote_progress (cs : List Flip) (hne : cs ≠ []) (hdom : ∀ c ∈ cs, c.inDomain) :
    (∀ c ∈ cs, (∀ d ∈ cs, c.code ≤ d.code) →
        voteAll (fun _ => INT_MAX) cs c.botTi = encode c.botTi c.botVi ∧
        voteAll (fun _ => INT_MAX) cs c.topTi = encode c.botTi c.botVi) ∧
      (∃ c ∈ cs, (∀ d ∈ cs, c.code ≤ d.code) ∧ Flip.wins (voteAll (fun _ => INT_MAX) cs) c) := by
  have key : ∀ c ∈ cs, (∀ d ∈ cs, c.code ≤ d.code) →
      Flip.wins (voteAll (fun _ => INT_MAX) cs) c := by
    intro c hc hmin
    constructor
    · exact min_code_slot cs c hc (hdom c hc) hmin _ (by unfold Flip.names; simp)
    · exact min_code_slot cs c hc (hdom c hc) hmin _ (by unfold Flip.names; simp)
  refine ⟨key, ?_⟩
  obtain ⟨c, hc, hmin⟩ := exists_min_code cs hne
  exact ⟨c, hc, hmin, key c hc hmin⟩

theorem vote_progress_witness :
    ([⟨3, 4, 1⟩, ⟨4, 5, 0⟩, ⟨2, 3, 2⟩] : List Flip) ≠ [] ∧
      Flip.wins (voteAll (fun _ => INT_MAX) [⟨3, 4, 1⟩, ⟨4, 5, 0⟩, ⟨2, 3, 2⟩]) ⟨2, 3, 2⟩ :=
  ⟨by decide,
    (vote_progress [⟨3, 4, 1⟩, ⟨4, 5, 0⟩, ⟨2, 3, 2⟩] (by decide) (by decide)).1 ⟨2, 3, 2⟩
      (by decide) (by decide)⟩

/-- C2: after a vote round over candidates with `0 ≤ botTi < 2^29` and `botVi ∈ {0,1,2}`,
from any initial vote array, two winning candidates that share a triangle index (as bottom or
top of either) have the same `(botTi, botVi)`. -/
theorem vote_at_most_one (init : VoteArr) (cs : List Flip) (hdom : ∀ c ∈ cs, c.inDomain)
    (c d : Flip) (hc : c ∈ cs) (hd : d ∈ cs)
    (wc : Flip.wins (voteAll init cs) c) (wd : Flip.wins (voteAll init cs) d)
    (hshare : c.botTi = d.botTi ∨ c.botTi = d.topTi ∨ c.topTi = d.botTi ∨ c.topTi = d.topTi) :
    c.botTi = d.botTi ∧ c.botVi = d.botVi := by
  apply code_injective c d (hdom c hc) (hdom d hd)
  obtain ⟨wc1, wc2⟩ := wc
  obtain ⟨wd1, wd2⟩ := wd
  rcases hshare with h | h | h | h
  · rw [← wc1, ← wd1, h]
  · rw [← wc1, ← wd2, h]
  · rw [← wc2, ← wd1, h]
  · rw [← wc2, ← wd2, h]

theorem vote_at_most_one_witness :
    Flip.wins (voteAll (fun _ => INT_MAX) [⟨2, 3, 1⟩, ⟨2, 3, 1⟩, ⟨3, 4, 0⟩]) ⟨2, 3, 1⟩ ∧
      ((2 : Int) = 2 ∧ (1 : Int) = 1) :=
  ⟨by decide,
    vote_at_most_one (fun _ => INT_MAX) [⟨2, 3, 1⟩, ⟨2, 3, 1⟩, ⟨3, 4, 0⟩] (by decide)
      ⟨2, 3, 1⟩ ⟨2, 3, 1⟩ (by decide) (by decide) (by decide) (by decide) (by decide)⟩

/-- C3: for every initial vote array, a vote round gives the same final array for every
permutation of the candidate list, and each slot ends with the minimum of its initial value
and the codes of all candidates that name it as `botTi` or `topTi`. -/
theorem vote_order_independent (init : VoteArr) (cs cs' : List Flip) (hp : cs.Perm cs') :
    voteAll init cs' = voteAll init cs ∧
      ∀ k, voteAll init cs k =
        minOver (init k) ((cs.filter (fun c => c.names k)).map Flip.code) := by
  refine ⟨?_, fun k => voteAll_apply cs init k⟩
  funext k
  rw [voteAll_apply, voteAll_apply]
  have hmem : ∀ x, x ∈ (cs'.filter (fun c => c.names k)).map Flip.code ↔
      x ∈ (cs.filter (fun c => c.names k)).map Flip.code := by
    intro x
    simp only [List.mem_map, List.mem_filter, hp.mem_iff]
  apply le_antisymm
  · rw [le_minOver_iff]
    exact ⟨minOver_le_init _ _, fun x hx => minOver_le_mem _ _ x ((hmem x).2 hx)⟩
  · rw [le_minOver_iff]
    exact ⟨minOver_le_init _ _, fun x hx => minOver_le_mem _ _ x ((hmem x).1 hx)⟩

theorem vote_order_independent_witness :
    List.Perm ([⟨0, 1, 2⟩, ⟨1, 2, 0⟩] : List Flip) [⟨1, 2, 0⟩, ⟨0, 1, 2⟩] ∧
      voteAll (fun _ => INT_MAX) [⟨1, 2, 0⟩, ⟨0, 1, 2⟩] =
        voteAll (fun _ => INT_MAX) [⟨0, 1, 2⟩, ⟨1, 2, 0⟩] :=
  ⟨List.Perm.swap _ _ _,
    (vote_order_independent (fun _ => INT_MAX) [⟨0, 1, 2⟩, ⟨1, 2, 0⟩] [⟨1, 2, 0⟩, ⟨0, 1, 2⟩]
      (List.Perm.swap _ _ _)).1⟩

/-! ## Loops -/

/-- A loop whose body succeeds under an invariant runs to its end and keeps the invariant. -/
theorem loopFrom_total {σ : Type} (body : Nat → σ → Option σ) (P : Nat → σ → Prop) :
    ∀ (k i : Nat) (s : σ), P i s →
      (∀ j s, i ≤ j → j < i + k → P j s → ∃ s1, body j s = some s1 ∧ P (j + 1) s1) →
      ∃ s1, loopFrom body k i s = some s1 ∧ P (i + k) s1 := by
  intro k
  induction k with
  | zero => intro i s hP _; exact ⟨s, rfl, hP⟩
  | succ k ih =>
    intro i s hP hstep
    obtain ⟨s1, hb, hP1⟩ := hstep i s le_rfl (by omega) hP
    obtain ⟨s2, hl, hP2⟩ := ih (i + 1) s1 hP1
      (fun j s hj1 hj2 hPj => hstep j s (by omega) (by omega) hPj)
    refine ⟨s2, ?_, ?_⟩
    · simp only [loopFrom, hb]; exact hl
    · have e : i + (k + 1) = i + 1 + k := by omega
      rw [e]; exact hP2

/-- A loop that ran to its end kept every invariant of its body. -/
theorem loopFrom_inv {σ : Type} (body : Nat → σ → Option σ) (P : Nat → σ → Prop) :
    ∀ (k i : Nat) (s s2 : σ), P i s →
      (∀ j s s1, i ≤ j → j < i + k → P j s → body j s = some s1 → P (j + 1) s1) →
      loopFrom body k i s = some s2 → P (i + k) s2 := by
  intro k
  induction k with
  | zero =>
    intro i s s2 hP _ h
    simp only [loopFrom, Option.some.injEq] at h
    subst h; exact hP
  | succ k ih =>
    intro i s s2 hP hstep h
    simp only [loopFrom] at h
    cases hb : body i s with
    | none => rw [hb] at h; exact absurd h (by simp)
    | some s1 =>
      rw [hb] at h
      have hP1 := hstep i s s1 le_rfl (by omega) hP hb
      have := ih (i + 1) s1 s2 hP1
        (fun j s s1 hj1 hj2 hPj => hstep j s s1 (by omega) (by omega) hPj) h
      have e : i + (k + 1) = i + 1 + k := by omega
      rw [e]; exact this

/-! ## checkAdjacency -/

/-- The verdict line of `checkAdjacency` does not depend on what the loops found. -/
theorem checkAdjacency_verdict (output : Output) (r : List AdjMsg × Verdict)
    (h : checkAdjacency output = some r) : r.2 = Verdict.pass := by
  unfold checkAdjacency at h
  cases hl : loopFrom (checkAdjacencyTri output.triVec output.triOppVec)
      (sizeToInt output.triVec.length).toNat 0 [] with
  | none => rw [hl] at h; exact absurd h (by simp)
  | some msgs =>
    rw [hl] at h
    simp only [Option.some.injEq] at h
    subst h; rfl

/-- C10: on the two triangles whose adjacency is one-way (triangle 0 names triangle 1, which
names nobody), the adjacency is not symmetric, `checkAdjacency` prints the diagnostic `Fail4!`
and its verdict line is still `Pass`. -/
theorem checkAdjacency_oneWay :
    ¬ AdjacencySymmetric ⟨squareTris, oneWayOpps⟩ ∧
      checkAdjacency ⟨squareTris, oneWayOpps⟩ = some ([AdjMsg.fail4], Verdict.pass) := by
  constructor
  · decide
  · decide

/-! ## checkDelaunay -/

theorem sizeToInt_toNat (n : Nat) (h : (n : Int) ≤ INT_MAX) : (sizeToInt n).toNat = n := by
  unfold INT_MAX at h
  unfold sizeToInt
  rw [if_pos (by omega)]
  rfl

theorem getAt_natCast {α : Type} (l : List α) (t : Nat) : getAt l (t : Int) = l[t]? := by
  unfold getAt
  rw [if_pos (by omega)]
  rfl

theorem getAt_isSome {α : Type} (l : List α) (t : Nat) (h : t < l.length) :
    ∃ x, getAt l (t : Int) = some x := by
  rw [getAt_natCast]
  exact ⟨l[t], List.getElem?_eq_getElem h⟩

theorem TriOpp.t_lt_three (o : TriOpp) (e : Nat) (he : e < 3) : ∃ s, o.t (e : Int) = some s := by
  interval_cases e
  · exact ⟨o.t0, rfl⟩
  · exact ⟨o.t1, rfl⟩
  · exact ⟨o.t2, rfl⟩

/-- One slot of `checkDelaunay`: the counter is kept on a good face and incremented on a bad
one. -/
theorem checkDelaunaySlot_spec (doIncircle : Tri → Int → Side) (output : Output)
    (hidx : DelaunayIndexed output) (t e : Nat) (ht : t < output.triVec.length) (he : e < 3)
    (botTri : Tri) (botOpp : TriOpp) (h1 : getAt output.triVec t = some botTri)
    (h2 : getAt output.triOppVec t = some botOpp) (f : Int) :
    ∃ f1, checkDelaunaySlot doIncircle output.triVec t botTri botOpp e f = some f1 ∧
      ((FaceGood doIncircle output t e ∧ f1 = f) ∨
        (¬ FaceGood doIncircle output t e ∧ f1 = wrap32 (f + 1))) := by
  obtain ⟨s, hs⟩ := TriOpp.t_lt_three botOpp e he
  have hslot : slotOf output.triOppVec t e = some s := by
    unfold slotOf; rw [h2]; exact hs
  unfold checkDelaunaySlot
  rw [hs]
  simp only
  by_cases hb : s.tri = -1 ∨ s.cons = true
  · rw [if_pos hb]
    refine ⟨f, rfl, Or.inl ⟨?_, rfl⟩⟩
    intro s1 hs1 hn hc _
    rw [hslot] at hs1
    cases hs1
    rcases hb with hb | hb
    · exact absurd hb hn
    · rw [hc] at hb; exact absurd hb (by decide)
  · rw [if_neg hb]
    by_cases hlt : s.tri < (t : Int)
    · rw [if_pos hlt]
      refine ⟨f, rfl, Or.inl ⟨?_, rfl⟩⟩
      intro s1 hs1 _ _ hle
      rw [hslot] at hs1
      cases hs1
      omega
    · rw [if_neg hlt]
      have hn : s.tri ≠ -1 := fun h => hb (Or.inl h)
      have hc : s.cons = false := by
        cases hcs : s.cons with
        | false => rfl
        | true => exact absurd (Or.inr hcs) hb
      have hsome := hidx.2.2 t ht e he s hslot hn hc (by omega)
      unfold vertOf at hsome
      cases hu : getAt output.triVec s.tri with
      | none => rw [hu] at hsome; exact absurd hsome (by simp)
      | some topTri =>
        rw [hu] at hsome
        simp only [Option.some_bind] at hsome
        cases hw : topTri.v s.vi with
        | none => rw [hw] at hsome; exact absurd hsome (by simp)
        | some topVert =>
          have hvert : vertOf output.triVec s.tri s.vi = some topVert := by
            unfold vertOf; rw [hu]; exact hw
          simp only [hw]
          by_cases hside : Side.SideIn ≠ doIncircle botTri topVert
          · rw [if_pos hside]
            refine ⟨f, rfl, Or.inl ⟨?_, rfl⟩⟩
            intro s1 hs1 _ _ _ tri htri w hw1
            rw [hslot] at hs1
            cases hs1
            rw [h1] at htri
            cases htri
            rw [hvert] at hw1
            cases hw1
            exact fun h => hside h.symm
          · rw [if_neg hside]
            refine ⟨_, rfl, Or.inr ⟨?_, rfl⟩⟩
            intro hgood
            have := hgood s hslot hn hc (by omega) botTri h1 topVert hvert
            exact hside (fun h => this h.symm)

/-- One triangle of `checkDelaunay`: the counter grows by at most three and is kept exactly when
the three faces are good. -/
theorem checkDelaunayTri_spec (doIncircle : Tri → Int → Side) (output : Output)
    (hidx : DelaunayIndexed output) (t : Nat) (ht : t < output.triVec.length) (f : Int)
    (hf0 : 0 ≤ f) (hf : f + 3 ≤ INT_MAX) :
    ∃ f1, checkDelaunayTri doIncircle output.triVec output.triOppVec t f = some f1 ∧
      f ≤ f1 ∧ f1 ≤ f + 3 ∧ (f1 = f ↔ ∀ e : Nat, e < 3 → FaceGood doIncircle output t e) := by
  obtain ⟨botTri, h1⟩ := getAt_isSome output.triVec t ht
  obtain ⟨botOpp, h2⟩ := getAt_isSome output.triOppVec t (lt_of_lt_of_le ht hidx.1)
  unfold checkDelaunayTri
  rw [h1, h2]
  simp only
  have hdeg : DEG.toNat = 3 := rfl
  rw [hdeg]
  unfold INT_MAX at hf
  obtain ⟨f1, hrun, hinv⟩ := loopFrom_total
    (fun botVi f => checkDelaunaySlot doIncircle output.triVec t botTri botOpp botVi f)
    (fun e f1 => f ≤ f1 ∧ f1 ≤ f + e ∧
      (f1 = f ↔ ∀ e1 : Nat, e1 < e → FaceGood doIncircle output t e1))
    3 0 f ⟨le_rfl, by omega, by simp⟩
    (by
      intro j g _ hj ⟨hg1, hg2, hg3⟩
      obtain ⟨g1, hgrun, hcase⟩ :=
        checkDelaunaySlot_spec doIncircle output hidx t j ht (by omega) botTri botOpp h1 h2 g
      refine ⟨g1, hgrun, ?_⟩
      rcases hcase with ⟨hgood, rfl⟩ | ⟨hbad, rfl⟩
      · refine ⟨hg1, by omega, ?_⟩
        rw [hg3]
        constructor
        · intro h e1 he1
          rcases Nat.lt_succ_iff_lt_or_eq.1 he1 with h1 | rfl
          · exact h e1 h1
          · exact hgood
        · intro h e1 he1
          exact h e1 (by omega)
      · rw [wrap32_of_range _ (by omega) (by omega)]
        refine ⟨by omega, by push_cast; omega, ?_⟩
        constructor
        · intro h; omega
        · intro h; exact absurd (h j (by omega)) hbad)
  refine ⟨f1, hrun, hinv.1, ?_, ?_⟩
  · have := hinv.2.1; push_cast at this; omega
  · simpa using hinv.2.2

/-- C9: for every output whose reads stay inside the vectors, `checkDelaunay` prints a verdict;
it is `Pass` if and only if every face whose slot has a neighbour with an index not below the
triangle's own and a clear constraint bit passes the in-circle test, and otherwise it is
`***Fail***` with a positive count. -/
theorem checkDelaunay_verdict (doIncircle : Tri → Int → Side) (output : Output)
    (hidx : DelaunayIndexed output) :
    ∃ v, checkDelaunay doIncircle output = some v ∧
      (v = Verdict.pass ↔ DelaunayUpper doIncircle output) ∧
      (v ≠ Verdict.pass → ∃ n, 0 < n ∧ v = Verdict.fail n) := by
  have hlen : (output.triVec.length : Int) ≤ INT_MAX := by
    have := hidx.2.1; omega
  have hbound := hidx.2.1
  unfold INT_MAX at hbound
  obtain ⟨f, hrun, hf0, _, hiff⟩ := loopFrom_total
    (checkDelaunayTri doIncircle output.triVec output.triOppVec)
    (fun i f => 0 ≤ f ∧ f ≤ 3 * (i : Int) ∧
      (f = 0 ↔ ∀ t : Nat, t < i → ∀ e : Nat, e < 3 → FaceGood doIncircle output t e))
    output.triVec.length 0 0 ⟨le_rfl, by simp, by simp⟩
    (by
      intro j g _ hj ⟨hg0, hg1, hg2⟩
      obtain ⟨g1, hgrun, h1, h2, h3⟩ :=
        checkDelaunayTri_spec doIncircle output hidx j (by omega) g hg0
          (by unfold INT_MAX; omega)
      refine ⟨g1, hgrun, by omega, by push_cast; omega, ?_⟩
      constructor
      · intro hz t ht e he
        have hg : g = 0 := by omega
        rcases Nat.lt_succ_iff_lt_or_eq.1 ht with ht1 | rfl
        · exact hg2.1 hg t ht1 e he
        · exact h3.1 (by omega) e he
      · intro h
        have hg : g = 0 := hg2.2 (fun t ht e he => h t (by omega) e he)
        have := h3.2 (fun e he => h j (by omega) e he)
        omega)
  have hiff2 : f = 0 ↔ DelaunayUpper doIncircle output := by
    rw [hiff]
    unfold DelaunayUpper FaceGood
    simp only [Nat.zero_add]
  unfold checkDelaunay
  rw [sizeToInt_toNat _ hlen, hrun]
  simp only
  by_cases hz : f = 0
  · rw [if_pos hz]
    exact ⟨Verdict.pass, rfl, ⟨fun _ => hiff2.1 hz, fun _ => rfl⟩, fun h => absurd rfl h⟩
  · rw [if_neg hz]
    refine ⟨Verdict.fail f, rfl,
      ⟨fun h => Verdict.noConfusion h, fun h => absurd (hiff2.2 h) hz⟩, ?_⟩
    intro _
    exact ⟨f, by omega, rfl⟩

theorem checkDelaunay_verdict_witness :
    DelaunayIndexed ⟨squareTris, squareOpps⟩ ∧
      ∃ v, checkDelaunay inOnlyFromSecond ⟨squareTris, squareOpps⟩ = some v ∧
        (v = Verdict.pass ↔ DelaunayUpper inOnlyFromSecond ⟨squareTris, squareOpps⟩) ∧
        (v ≠ Verdict.pass → ∃ n, 0 < n ∧ v = Verdict.fail n) :=
  ⟨by decide, checkDelaunay_verdict inOnlyFromSecond ⟨squareTris, squareOpps⟩ (by decide)⟩

/-- C9 as stated fails: on the two triangles with symmetric adjacency and in-range reads, with
an in-circle predicate that is `SideIn` only from the second triangle, `checkDelaunay`
prints `Pass` although the face of slot 0 of triangle 1 has a neighbour, a clear constraint bit
and an in-circle result `SideIn`. -/
theorem checkDelaunay_skips_lower :
    DelaunayIndexed ⟨squareTris, squareOpps⟩ ∧ AdjacencySymmetric ⟨squareTris, squareOpps⟩ ∧
      checkDelaunay inOnlyFromSecond ⟨squareTris, squareOpps⟩ = some Verdict.pass ∧
      ¬ DelaunayAll inOnlyFromSecond ⟨squareTris, squareOpps⟩ := by
  refine ⟨by decide, by decide, by decide, by decide⟩

/-! ## Vector reads and writes -/

theorem getAt_some {α : Type} (l : List α) (i : Int) (x : α) (h : getAt l i = some x) :
    0 ≤ i ∧ i.toNat < l.length ∧ l[i.toNat]? = some x := by
  unfold getAt at h
  by_cases h0 : 0 ≤ i
  · rw [if_pos h0] at h
    exact ⟨h0, (List.getElem?_eq_some.1 h).1, h⟩
  · rw [if_neg h0] at h; exact absurd h (by simp)

theorem getAt_setAt {α : Type} (l l1 : List α) (i : Int) (x : α) (h : setAt l i x = some l1)
    (k : Int) : getAt l1 k = if k = i then some x else getAt l k := by
  unfold setAt at h
  by_cases hi : 0 ≤ i ∧ i.toNat < l.length
  · rw [if_pos hi] at h
    simp only [Option.some.injEq] at h
    subst h
    unfold getAt
    by_cases hk : 0 ≤ k
    · rw [if_pos hk, if_pos hk, List.getElem?_set]
      by_cases hki : k = i
      · subst hki
        rw [if_pos rfl, if_pos hi.2, if_pos rfl]
      · have hne : ¬ i.toNat = k.toNat := by omega
        rw [if_neg hne, if_neg hki]
    · rw [if_neg hk, if_neg hk]
      have hki : ¬ k = i := by omega
      rw [if_neg hki]
  · rw [if_neg hi] at h; exact absurd h (by simp)

theorem TriOpp.t_some (o : TriOpp) (e : Int) (s : OppSlot) (h : o.t e = some s) :
    e = 0 ∨ e = 1 ∨ e = 2 := by
  unfold TriOpp.t at h
  by_cases h0 : e = 0
  · exact Or.inl h0
  · by_cases h1 : e = 1
    · exact Or.inr (Or.inl h1)
    · by_cases h2 : e = 2
      · exact Or.inr (Or.inr h2)
      · rw [if_neg h0, if_neg h1, if_neg h2] at h; exact absurd h (by simp)

theorem Tri.v_some (t : Tri) (i : Int) (x : Int) (h : t.v i = some x) :
    i = 0 ∨ i = 1 ∨ i = 2 := by
  unfold Tri.v at h
  by_cases h0 : i = 0
  · exact Or.inl h0
  · by_cases h1 : i = 1
    · exact Or.inr (Or.inl h1)
    · by_cases h2 : i = 2
      · exact Or.inr (Or.inr h2)
      · rw [if_neg h0, if_neg h1, if_neg h2] at h; exact absurd h (by simp)

/-- Writing the constraint bit of a slot changes that word only, and only its bit. -/
theorem TriOpp.setOppConstraint_t (o o1 : TriOpp) (vi : Int) (val : Bool)
    (h : o.setOppConstraint vi val = some o1) :
    ∃ s, o.t vi = some s ∧
      ∀ e, o1.t e = if e = vi then some ⟨s.tri, s.vi, val⟩ else o.t e := by
  unfold TriOpp.setOppConstraint at h
  cases hs : o.t vi with
  | none => rw [hs] at h; exact absurd h (by simp)
  | some s =>
    rw [hs] at h
    simp only at h
    refine ⟨s, rfl, ?_⟩
    intro e
    rcases TriOpp.t_some o vi s hs with rfl | rfl | rfl
    · simp only [TriOpp.setT, if_true, Option.some.injEq] at h
      subst h
      by_cases he : e = 0
      · subst he; rfl
      · rw [if_neg he]; unfold TriOpp.t; rw [if_neg he, if_neg he]
    · simp [TriOpp.setT] at h
      subst h
      by_cases he : e = 1
      · subst he; rfl
      · rw [if_neg he]; unfold TriOpp.t
        by_cases he0 : e = 0
        · rw [if_pos he0, if_pos he0]
        · rw [if_neg he0, if_neg he0, if_neg he, if_neg he]
    · simp [TriOpp.setT] at h
      subst h
      by_cases he : e = 2
      · subst he; rfl
      · rw [if_neg he]; unfold TriOpp.t
        by_cases he0 : e = 0
        · rw [if_pos he0, if_pos he0]
        · by_cases he1 : e = 1
          · rw [if_neg he0, if_neg he0, if_pos he1, if_pos he1]
          · rw [if_neg he0, if_neg he0, if_neg he1, if_neg he1, if_neg he, if_neg he]

/-- Writing the constraint bit of slot `vi` of triangle `t` in the vector changes that word
only. -/
theorem slotOf_setBit (o o1 : List TriOpp) (t vi : Int) (val : Bool) (opp opp1 : TriOpp)
    (hg : getAt o t = some opp) (hset : opp.setOppConstraint vi val = some opp1)
    (hs : setAt o t opp1 = some o1) :
    ∃ s, slotOf o t vi = some s ∧
      ∀ k e, slotOf o1 k e =
        if k = t ∧ e = vi then some ⟨s.tri, s.vi, val⟩ else slotOf o k e := by
  obtain ⟨s, hs1, hs2⟩ := TriOpp.setOppConstraint_t opp opp1 vi val hset
  refine ⟨s, by unfold slotOf; rw [hg]; exact hs1, ?_⟩
  intro k e
  unfold slotOf
  rw [getAt_setAt o o1 t opp1 hs k]
  by_cases hk : k = t
  · subst hk
    rw [if_pos rfl, hg]
    simp only [Option.some_bind, true_and]
    exact hs2 e
  · rw [if_neg hk, if_neg (fun h => hk h.1)]

theorem vecRel_refl (R : OppSlot → OppSlot → Prop) (hR : ∀ s, R s s) (o : List TriOpp) :
    VecRel R o o :=
  fun _ _ => ⟨fun s h => ⟨s, h, hR s⟩, fun s h => ⟨s, h, hR s⟩⟩

theorem vecRel_trans (R : OppSlot → OppSlot → Prop) (hR : ∀ a b c, R a b → R b c → R a c)
    (o1 o2 o3 : List TriOpp) (h12 : VecRel R o1 o2) (h23 : VecRel R o2 o3) : VecRel R o1 o3 := by
  intro t e
  constructor
  · intro s hs
    obtain ⟨s1, hs1, r1⟩ := (h12 t e).1 s hs
    obtain ⟨s2, hs2, r2⟩ := (h23 t e).1 s1 hs1
    exact ⟨s2, hs2, hR _ _ _ r1 r2⟩
  · intro s2 hs2
    obtain ⟨s1, hs1, r1⟩ := (h23 t e).2 s2 hs2
    obtain ⟨s, hs, r⟩ := (h12 t e).2 s1 hs1
    exact ⟨s, hs, hR _ _ _ r r1⟩

theorem vecRel_mono (R Q : OppSlot → OppSlot → Prop) (hRQ : ∀ a b, R a b → Q a b)
    (o1 o2 : List TriOpp) (h : VecRel R o1 o2) : VecRel Q o1 o2 := by
  intro t e
  constructor
  · intro s hs
    obtain ⟨s1, hs1, r1⟩ := (h t e).1 s hs
    exact ⟨s1, hs1, hRQ _ _ r1⟩
  · intro s1 hs1
    obtain ⟨s, hs, r⟩ := (h t e).2 s1 hs1
    exact ⟨s, hs, hRQ _ _ r⟩

theorem slotEqv_refl (s : OppSlot) : SlotEqv s s := ⟨rfl, rfl⟩

theorem slotEqv_trans (a b c : OppSlot) (h1 : SlotEqv a b) (h2 : SlotEqv b c) : SlotEqv a c :=
  ⟨h1.1.trans h2.1, h1.2.trans h2.2⟩

theorem slotLe_refl (s : OppSlot) : SlotLe s s := ⟨rfl, rfl, fun h => h⟩

theorem slotLe_trans (a b c : OppSlot) (h1 : SlotLe a b) (h2 : SlotLe b c) : SlotLe a c :=
  ⟨h1.1.trans h2.1, h1.2.1.trans h2.2.1, fun h => h2.2.2 (h1.2.2 h)⟩

theorem slotLe_toEqv (a b : OppSlot) (h : SlotLe a b) : SlotEqv a b := ⟨h.1, h.2.1⟩

/-- A write of one constraint bit keeps the slots related, for a relation that relates a word to
itself and to the word with the new bit. -/
theorem vecRel_of_setBit (R : OppSlot → OppSlot → Prop) (hR : ∀ s, R s s)
    (val : Bool) (hval : ∀ s : OppSlot, R s ⟨s.tri, s.vi, val⟩)
    (o o1 : List TriOpp) (t vi : Int) (opp opp1 : TriOpp)
    (hg : getAt o t = some opp) (hset : opp.setOppConstraint vi val = some opp1)
    (hs : setAt o t opp1 = some o1) : VecRel R o o1 := by
  obtain ⟨s, hs1, hs2⟩ := slotOf_setBit o o1 t vi val opp opp1 hg hset hs
  intro k e
  rw [hs2 k e]
  by_cases hke : k = t ∧ e = vi
  · obtain ⟨rfl, rfl⟩ := hke
    rw [if_pos ⟨rfl, rfl⟩, hs1]
    constructor
    · intro s0 h0
      simp only [Option.some.injEq] at h0
      subst h0
      exact ⟨_, rfl, hval _⟩
    · intro s0 h0
      simp only [Option.some.injEq] at h0
      subst h0
      exact ⟨s, rfl, hval _⟩
  · rw [if_neg hke]
    exact ⟨fun s0 h0 => ⟨s0, h0, hR s0⟩, fun s0 h0 => ⟨s0, h0, hR s0⟩⟩

/-! ## The clear pass and the found branch -/

theorem clearSlot_rel (i j : Nat) (o o1 : List TriOpp) (h : clearSlot i j o = some o1) :
    VecRel SlotEqv o o1 := by
  unfold clearSlot at h
  cases hg : getAt o (i : Int) with
  | none => rw [hg] at h; exact absurd h (by simp)
  | some opp =>
    rw [hg] at h
    simp only at h
    cases hs : opp.t (j : Int) with
    | none => rw [hs] at h; exact absurd h (by simp)
    | some s =>
      rw [hs] at h
      simp only at h
      by_cases hb : s.tri ≠ -1
      · rw [if_pos hb] at h
        cases hset : opp.setOppConstraint (j : Int) false with
        | none => rw [hset] at h; exact absurd h (by simp)
        | some opp1 =>
          rw [hset] at h
          exact vecRel_of_setBit SlotEqv slotEqv_refl false (fun _ => ⟨rfl, rfl⟩) o o1 i j opp opp1
            hg hset h
      · rw [if_neg hb] at h
        simp only [Option.some.injEq] at h
        subst h
        exact vecRel_refl SlotEqv slotEqv_refl o

theorem clearTri_rel (i : Nat) (o o1 : List TriOpp) (h : clearTri i o = some o1) :
    VecRel SlotEqv o o1 := by
  unfold clearTri at h
  exact loopFrom_inv (clearSlot i) (fun _ x => VecRel SlotEqv o x) 3 0 o o1
    (vecRel_refl SlotEqv slotEqv_refl o)
    (fun j x x1 _ _ hx hb =>
      vecRel_trans SlotEqv slotEqv_trans o x x1 hx (clearSlot_rel i j x x1 hb)) h

/-- The clear pass keeps the opposite triangle and slot of every word. -/
theorem clearPass_rel (n : Nat) (o o1 : List TriOpp) (h : loopFrom clearTri n 0 o = some o1) :
    VecRel SlotEqv o o1 :=
  loopFrom_inv clearTri (fun _ x => VecRel SlotEqv o x) n 0 o o1
    (vecRel_refl SlotEqv slotEqv_refl o)
    (fun i x x1 _ _ hx hb =>
      vecRel_trans SlotEqv slotEqv_trans o x x1 hx (clearTri_rel i x x1 hb)) h

/-- The found branch sets the bit on the slot and on the slot it names, and clears none. -/
theorem markFound_spec (o o1 : List TriOpp) (t vi : Int) (h : markFound o t vi = some o1) :
    VecRel SlotLe o o1 ∧ MarkedBoth o1 t vi := by
  unfold markFound at h
  cases hg : getAt o t with
  | none => rw [hg] at h; exact absurd h (by simp)
  | some opp =>
    rw [hg] at h
    simp only at h
    cases hs : opp.t vi with
    | none =>
      simp only [TriOpp.getOppTri, TriOpp.getOppVi, hs, Option.map_none'] at h
      exact absurd h (by simp)
    | some s =>
      simp only [TriOpp.getOppTri, TriOpp.getOppVi, hs, Option.map_some'] at h
      cases hset : opp.setOppConstraint vi true with
      | none => rw [hset] at h; exact absurd h (by simp)
      | some opp1 =>
        rw [hset] at h
        simp only at h
        cases hw : setAt o t opp1 with
        | none => rw [hw] at h; exact absurd h (by simp)
        | some ov1 =>
          rw [hw] at h
          simp only at h
          cases hg2 : getAt ov1 s.tri with
          | none => rw [hg2] at h; exact absurd h (by simp)
          | some opp2 =>
            rw [hg2] at h
            simp only at h
            cases hset2 : opp2.setOppConstraint s.vi true with
            | none => rw [hset2] at h; exact absurd h (by simp)
            | some opp3 =>
              rw [hset2] at h
              simp only at h
              have hle : ∀ x : OppSlot, SlotLe x ⟨x.tri, x.vi, true⟩ :=
                fun _ => ⟨rfl, rfl, fun _ => rfl⟩
              have r1 : VecRel SlotLe o ov1 :=
                vecRel_of_setBit SlotLe slotLe_refl true hle o ov1 t vi opp opp1 hg hset hw
              have r2 : VecRel SlotLe ov1 o1 :=
                vecRel_of_setBit SlotLe slotLe_refl true hle ov1 o1 s.tri s.vi opp2 opp3
                  hg2 hset2 h
              refine ⟨vecRel_trans SlotLe slotLe_trans o ov1 o1 r1 r2, ?_⟩
              obtain ⟨s0, hs0, hall1⟩ := slotOf_setBit o ov1 t vi true opp opp1 hg hset hw
              have hs0' : s0 = s := by
                unfold slotOf at hs0
                rw [hg] at hs0
                simp only [Option.some_bind] at hs0
                rw [hs] at hs0
                exact (Option.some.inj hs0).symm
              subst hs0'
              have h1 : slotOf ov1 t vi = some ⟨s0.tri, s0.vi, true⟩ := by
                rw [hall1 t vi, if_pos ⟨rfl, rfl⟩]
              obtain ⟨sa, hsa, hrel⟩ := (r2 t vi).1 _ h1
              obtain ⟨sb, _, hall2⟩ := slotOf_setBit ov1 o1 s0.tri s0.vi true opp2 opp3 hg2 hset2 h
              have h2 : slotOf o1 s0.tri s0.vi = some ⟨sb.tri, sb.vi, true⟩ := by
                rw [hall2 s0.tri s0.vi, if_pos ⟨rfl, rfl⟩]
              have hne : s0.tri ≠ -1 := by
                have := (getAt_some ov1 s0.tri opp2 hg2).1
                omega
              refine ⟨sa, hsa, ?_, hrel.2.2 rfl, ?_⟩
              · rw [← hrel.1]; exact hne
              · rw [← hrel.1, ← hrel.2.1]
                exact ⟨_, h2, rfl⟩

/-- Related vectors keep a mark on both sides of an edge. -/
theorem markedBoth_of_rel (o o1 : List TriOpp) (h : VecRel SlotLe o o1) (t vi : Int)
    (hm : MarkedBoth o t vi) : MarkedBoth o1 t vi := by
  obtain ⟨s, hs, hne, hc, s2, hs2, hc2⟩ := hm
  obtain ⟨sa, hsa, ra⟩ := (h t vi).1 s hs
  obtain ⟨sb, hsb, rb⟩ := (h s.tri s.vi).1 s2 hs2
  refine ⟨sa, hsa, ?_, ra.2.2 hc, sb, ?_, rb.2.2 hc2⟩
  · rw [← ra.1]; exact hne
  · rw [← ra.1, ← ra.2.1]; exact hsb

/-! ## The vertex to triangle map -/

theorem getAt_replicate (n : Nat) (x : Int) (a s : Int)
    (h : getAt (List.replicate n x) a = some s) : s = x := by
  have h1 := (getAt_some _ a s h).2.2
  rw [List.getElem?_replicate] at h1
  split at h1
  · exact (Option.some.inj h1).symm
  · exact absurd h1 (by simp)

theorem fillTri_ok (triVec : List Tri) (i : Nat) (m m1 : List Int) (hm : MapOK triVec m)
    (h : fillTri triVec i m = some m1) : MapOK triVec m1 := by
  unfold fillTri at h
  cases hg : getAt triVec (i : Int) with
  | none => rw [hg] at h; exact absurd h (by simp)
  | some tri =>
    rw [hg] at h
    simp only at h
    cases h0 : setAt m tri.v0 (i : Int) with
    | none => rw [h0] at h; exact absurd h (by simp)
    | some ma =>
      rw [h0] at h
      simp only at h
      cases h1 : setAt ma tri.v1 (i : Int) with
      | none => rw [h1] at h; exact absurd h (by simp)
      | some mb =>
        rw [h1] at h
        simp only at h
        intro a s hs
        rw [getAt_setAt mb m1 tri.v2 i h a] at hs
        by_cases e2 : a = tri.v2
        · rw [if_pos e2] at hs
          cases hs
          exact Or.inr ⟨tri, hg, Or.inr (Or.inr e2.symm)⟩
        · rw [if_neg e2, getAt_setAt ma mb tri.v1 i h1 a] at hs
          by_cases e1 : a = tri.v1
          · rw [if_pos e1] at hs
            cases hs
            exact Or.inr ⟨tri, hg, Or.inr (Or.inl e1.symm)⟩
          · rw [if_neg e1, getAt_setAt m ma tri.v0 i h0 a] at hs
            by_cases e0 : a = tri.v0
            · rw [if_pos e0] at hs
              cases hs
              exact Or.inr ⟨tri, hg, Or.inl e0.symm⟩
            · rw [if_neg e0] at hs
              exact hm a s hs

/-- The map that `checkConstraints` builds sends a vertex to a triangle that has it. -/
theorem fillMap_ok (triVec : List Tri) (n pointNum : Nat) (m : List Int)
    (h : loopFrom (fillTri triVec) n 0 (List.replicate pointNum (-1)) = some m) :
    MapOK triVec m :=
  loopFrom_inv (fillTri triVec) (fun _ x => MapOK triVec x) n 0 _ m
    (fun a s hs => Or.inl (getAt_replicate pointNum (-1) a s hs))
    (fun i x x1 _ _ hx hb => fillTri_ok triVec i x x1 hx hb) h

theorem Tri.v_getIndexOf (tri : Tri) (a : Int) (h : tri.v0 = a ∨ tri.v1 = a ∨ tri.v2 = a) :
    tri.v (tri.getIndexOf a) = some a := by
  unfold Tri.getIndexOf
  by_cases h0 : tri.v0 = a
  · rw [if_pos h0]; unfold Tri.v; rw [if_pos rfl, h0]
  · rw [if_neg h0]
    by_cases h1 : tri.v1 = a
    · rw [if_pos h1]; unfold Tri.v; rw [if_neg (by decide), if_pos rfl, h1]
    · rw [if_neg h1]
      have h2 : tri.v2 = a := by
        rcases h with h | h | h
        · exact absurd h h0
        · exact absurd h h1
        · exact h
      rw [if_pos h2]; unfold Tri.v
      rw [if_neg (by decide), if_neg (by decide), if_pos rfl, h2]

/-! ## The walks -/

theorem cmod_rotate (vi : Int) (h : vi = 0 ∨ vi = 1 ∨ vi = 2) :
    cmod (cmod (vi + 1) 3 + 1) 3 = cmod (vi + 2) 3 ∧ cmod (cmod (vi + 1) 3 + 2) 3 = vi ∧
      cmod (cmod (vi + 2) 3 + 1) 3 = vi ∧ cmod (cmod (vi + 2) 3 + 2) 3 = cmod (vi + 1) 3 := by
  rcases h with rfl | rfl | rfl <;> decide

theorem vertOf_eq (triVec : List Tri) (t : Int) (tri : Tri) (h : getAt triVec t = some tri)
    (i : Int) : vertOf triVec t i = tri.v i := by
  unfold vertOf; rw [h]; rfl

/-- The first walk, started at a slot that holds the first vertex of the constraint, either
ends found on the edge of the constraint or leaves `j` between its start and `MaxWalking`. -/
theorem ccwWalk_spec (triVec : List Tri) (ov : List TriOpp) (hlink : LinkOK triVec ov)
    (startIdx : Int) (c : Edge) :
    ∀ (fuel : Nat) (st st1 : WalkState), vertOf triVec st.triIdx st.vi = some c.v0 →
      st.j + fuel ≤ MaxWalking → ccwWalk triVec ov startIdx c.v1 fuel st = some st1 →
      (st1.j = INT_MAX ∧ EdgeAt triVec c st1.triIdx st1.vi) ∨
        (st.j ≤ st1.j ∧ st1.j ≤ MaxWalking) := by
  intro fuel
  induction fuel with
  | zero =>
    intro st st1 _ hj h
    simp only [ccwWalk, Option.some.injEq] at h
    subst h
    right; constructor
    · exact le_rfl
    · simpa using hj
  | succ fuel ih =>
    intro st st1 hv hj h
    simp only [ccwWalk] at h
    cases hg : getAt triVec st.triIdx with
    | none => rw [hg] at h; exact absurd h (by simp)
    | some tri =>
      rw [hg] at h
      cases hg2 : getAt ov st.triIdx with
      | none => rw [hg2] at h; exact absurd h (by simp)
      | some opp =>
        rw [hg2] at h
        simp only at h
        have hva : tri.v st.vi = some c.v0 := by
          rw [← vertOf_eq triVec st.triIdx tri hg]; exact hv
        have hvi := Tri.v_some tri st.vi c.v0 hva
        obtain ⟨r1, r2, _, _⟩ := cmod_rotate st.vi hvi
        cases hn : tri.v (cmod (st.vi + 2) 3) with
        | none => rw [hn] at h; exact absurd h (by simp)
        | some nextVert =>
          rw [hn] at h
          simp only at h
          by_cases hb : nextVert = c.v1
          · rw [if_pos hb] at h
            simp only [Option.some.injEq] at h
            subst h
            left
            refine ⟨rfl, tri, nextVert, c.v0, hg, ?_, ?_, Or.inr ⟨hb, rfl⟩⟩
            · show tri.v (cmod (cmod (st.vi + 1) 3 + 1) 3) = some nextVert
              rw [r1]; exact hn
            · show tri.v (cmod (cmod (st.vi + 1) 3 + 2) 3) = some c.v0
              rw [r2]; exact hva
          · rw [if_neg hb] at h
            cases hs : opp.t (cmod (st.vi + 1) DEG) with
            | none => rw [hs] at h; exact absurd h (by simp)
            | some s =>
              rw [hs] at h
              simp only at h
              by_cases hbd : s.tri = -1
              · rw [if_pos hbd] at h
                simp only [Option.some.injEq] at h
                subst h
                right; constructor
                · exact le_rfl
                · omega
              · rw [if_neg hbd] at h
                by_cases hst : s.tri = startIdx
                · rw [if_pos hst] at h
                  simp only [Option.some.injEq] at h
                  subst h
                  right; constructor
                  · exact le_rfl
                  · show st.j ≤ MaxWalking
                    omega
                · rw [if_neg hst] at h
                  have hslot : slotOf ov st.triIdx (cmod (st.vi + 1) 3) = some s := by
                    unfold slotOf; rw [hg2]; exact hs
                  have hl := (hlink st.triIdx (cmod (st.vi + 1) 3) tri s hg hslot hbd).1
                  rw [r2, hva] at hl
                  rcases ih ⟨st.j + 1, s.tri, cmod (s.vi + 1) DEG⟩ st1 hl
                      (by show st.j + 1 + (fuel : Int) ≤ MaxWalking; push_cast at hj; omega) h with
                    hfound | ⟨h1, h2⟩
                  · exact Or.inl hfound
                  · right; constructor
                    · have : st.j + 1 ≤ st1.j := h1
                      omega
                    · exact h2

/-- The second walk, started at a slot that holds the first vertex of the constraint, either
ends found on the edge of the constraint or leaves `j` between its start and `MaxWalking`. -/
theorem cwWalk_spec (triVec : List Tri) (ov : List TriOpp) (hlink : LinkOK triVec ov)
    (startIdx : Int) (c : Edge) :
    ∀ (fuel : Nat) (st st1 : WalkState), vertOf triVec st.triIdx st.vi = some c.v0 →
      st.j + fuel ≤ MaxWalking → cwWalk triVec ov startIdx c.v1 fuel st = some st1 →
      (st1.j = INT_MAX ∧ EdgeAt triVec c st1.triIdx st1.vi) ∨
        (st.j ≤ st1.j ∧ st1.j ≤ MaxWalking) := by
  intro fuel
  induction fuel with
  | zero =>
    intro st st1 _ hj h
    simp only [cwWalk, Option.some.injEq] at h
    subst h
    right; constructor
    · exact le_rfl
    · simpa using hj
  | succ fuel ih =>
    intro st st1 hv hj h
    simp only [cwWalk] at h
    cases hg : getAt triVec st.triIdx with
    | none => rw [hg] at h; exact absurd h (by simp)
    | some tri =>
      rw [hg] at h
      simp only at h
      have hva : tri.v st.vi = some c.v0 := by
        rw [← vertOf_eq triVec st.triIdx tri hg]; exact hv
      have hvi := Tri.v_some tri st.vi c.v0 hva
      obtain ⟨_, _, r3, r4⟩ := cmod_rotate st.vi hvi
      cases hn : tri.v (cmod (st.vi + 1) 3) with
      | none => rw [hn] at h; exact absurd h (by simp)
      | some nextVert =>
        rw [hn] at h
        simp only at h
        by_cases hb : nextVert = c.v1
        · rw [if_pos hb] at h
          simp only [Option.some.injEq] at h
          subst h
          left
          refine ⟨rfl, tri, c.v0, nextVert, hg, ?_, ?_, Or.inl ⟨rfl, hb⟩⟩
          · show tri.v (cmod (cmod (st.vi + 2) 3 + 1) 3) = some c.v0
            rw [r3]; exact hva
          · show tri.v (cmod (cmod (st.vi + 2) 3 + 2) 3) = some nextVert
            rw [r4]; exact hn
        · rw [if_neg hb] at h
          cases hg2 : getAt ov st.triIdx with
          | none => rw [hg2] at h; exact absurd h (by simp)
          | some opp =>
            rw [hg2] at h
            simp only at h
            cases hs : opp.t (cmod (st.vi + 2) DEG) with
            | none => rw [hs] at h; exact absurd h (by simp)
            | some s =>
              rw [hs] at h
              simp only at h
              by_cases hbd : s.tri = -1
              · rw [if_pos hbd] at h
                simp only [Option.some.injEq] at h
                subst h
                right; constructor
                · exact le_rfl
                · omega
              · rw [if_neg hbd] at h
                by_cases hst : s.tri = startIdx
                · rw [if_pos hst] at h
                  simp only [Option.some.injEq] at h
                  subst h
                  right; constructor
                  · exact le_rfl
                  · show st.j ≤ MaxWalking
                    omega
                · rw [if_neg hst] at h
                  have hslot : slotOf ov st.triIdx (cmod (st.vi + 2) 3) = some s := by
                    unfold slotOf; rw [hg2]; exact hs
                  have hl := (hlink st.triIdx (cmod (st.vi + 2) 3) tri s hg hslot hbd).2
                  rw [r3, hva] at hl
                  rcases ih ⟨st.j + 1, s.tri, cmod (s.vi + 2) DEG⟩ st1 hl
                      (by show st.j + 1 + (fuel : Int) ≤ MaxWalking; push_cast at hj; omega) h with
                    hfound | ⟨h1, h2⟩
                  · exact Or.inl hfound
                  · right; constructor
                    · have : st.j + 1 ≤ st1.j := h1
                      omega
                    · exact h2

theorem MaxWalking_lt_INT_MAX : MaxWalking < INT_MAX := by decide

/-- The two walks of a constraint whose start triangle has its first vertex: when they end with
`j == INT_MAX`, the final slot is the edge of the constraint. -/
theorem walkBoth_spec (triVec : List Tri) (ov : List TriOpp) (hlink : LinkOK triVec ov)
    (startIdx : Int) (c : Edge) (w : WalkState)
    (hstart : ∃ tri, getAt triVec startIdx = some tri ∧
      (tri.v0 = c.v0 ∨ tri.v1 = c.v0 ∨ tri.v2 = c.v0))
    (h : walkBoth triVec ov startIdx c = some w) (hw : w.j = INT_MAX) :
    EdgeAt triVec c w.triIdx w.vi := by
  obtain ⟨tri, hg, hin⟩ := hstart
  have hlt := MaxWalking_lt_INT_MAX
  unfold walkBoth at h
  rw [hg] at h
  simp only at h
  have hv0 : vertOf triVec startIdx (tri.getIndexOf c.v0) = some c.v0 := by
    rw [vertOf_eq triVec startIdx tri hg]; exact Tri.v_getIndexOf tri c.v0 hin
  cases h1 : ccwWalk triVec ov startIdx c.v1 MaxWalking.toNat
      ⟨0, startIdx, tri.getIndexOf c.v0⟩ with
  | none => rw [h1] at h; exact absurd h (by simp)
  | some w1 =>
    rw [h1] at h
    simp only at h
    have hfuel : ((MaxWalking.toNat : Nat) : Int) = MaxWalking := by decide
    rcases ccwWalk_spec triVec ov hlink startIdx c MaxWalking.toNat _ w1 hv0
        (by show (0 : Int) + _ ≤ MaxWalking; rw [hfuel]; omega) h1 with ⟨hj, hedge⟩ | ⟨hj0, hj1⟩
    · rw [if_neg (by omega)] at h
      simp only [Option.some.injEq] at h
      subst h
      exact hedge
    · have hj0' : (0 : Int) ≤ w1.j := hj0
      by_cases hlt1 : w1.j < MaxWalking
      · rw [if_pos hlt1] at h
        rcases cwWalk_spec triVec ov hlink startIdx c (MaxWalking - w1.j).toNat _ w hv0
            (by show w1.j + _ ≤ MaxWalking; rw [Int.toNat_of_nonneg (by omega)]; omega) h with
          ⟨_, hedge⟩ | ⟨_, hj3⟩
        · exact hedge
        · omega
      · rw [if_neg hlt1] at h
        simp only [Option.some.injEq] at h
        subst h
        omega

theorem slotOf_some (o : List TriOpp) (t e : Int) (s : OppSlot) (h : slotOf o t e = some s) :
    (0 ≤ t ∧ t.toNat < o.length) ∧ (e = 0 ∨ e = 1 ∨ e = 2) := by
  unfold slotOf at h
  cases hg : getAt o t with
  | none => rw [hg] at h; exact absurd h (by simp)
  | some opp =>
    rw [hg] at h
    simp only [Option.some_bind] at h
    have := getAt_some o t opp hg
    exact ⟨⟨this.1, this.2.1⟩, TriOpp.t_some opp e s h⟩

/-- A consistent adjacency links the triangles, also after constraint bits were written. -/
theorem linkOK_of_consistent (output : Output) (hcons : Consistent output) (ov : List TriOpp)
    (hrel : VecRel SlotEqv output.triOppVec ov) : LinkOK output.triVec ov := by
  intro t e tri s1 hg hs hne
  obtain ⟨s, hs0, heq⟩ := (hrel t e).2 s1 hs
  obtain ⟨ht0, ht1, _⟩ := getAt_some output.triVec t tri hg
  obtain ⟨_, he⟩ := slotOf_some _ t e s hs0
  have hte : ∃ n m : Nat, n < output.triVec.length ∧ m < 3 ∧ t = (n : Int) ∧ e = (m : Int) := by
    refine ⟨t.toNat, e.toNat, ht1, by omega, by omega, by omega⟩
  obtain ⟨n, m, hn, hm, rfl, rfl⟩ := hte
  have hne0 : s.tri ≠ -1 := by rw [heq.1]; exact hne
  obtain ⟨_, h1, h2⟩ := hcons n hn m hm s hs0 hne0
  rw [vertOf_eq output.triVec n tri hg] at h1 h2
  rw [← heq.1, ← heq.2]
  exact ⟨h1, h2⟩

/-- One constraint of the loop: no bit is cleared, one walk result is recorded, and a found
constraint ends on its edge with the bit set on both sides. -/
theorem checkOne_spec (triVec : List Tri) (m : List Int) (hm : MapOK triVec m)
    (consVec : List Edge) (i : Nat) (st st1 : ConsState) (hlink : LinkOK triVec st.oppVec)
    (h : checkOne triVec m consVec i st = some st1) :
    VecRel SlotLe st.oppVec st1.oppVec ∧
      ∃ w, st1.walks = st.walks ++ [w] ∧
        ∀ c t vi, getAt consVec (i : Int) = some c → w = Walk.ended INT_MAX t vi →
          EdgeAt triVec c t vi ∧ MarkedBoth st1.oppVec t vi := by
  unfold checkOne at h
  cases hc : getAt consVec (i : Int) with
  | none => rw [hc] at h; exact absurd h (by simp)
  | some c =>
    rw [hc] at h
    simp only at h
    cases hsi : getAt m c.v0 with
    | none => rw [hsi] at h; exact absurd h (by simp)
    | some startIdx =>
      rw [hsi] at h
      simp only at h
      by_cases hneg : startIdx < 0
      · rw [if_pos hneg] at h
        simp only [Option.some.injEq] at h
        subst h
        refine ⟨vecRel_refl SlotLe slotLe_refl _, Walk.noStart, rfl, ?_⟩
        intro _ _ _ _ hw
        exact Walk.noConfusion hw
      · rw [if_neg hneg] at h
        cases hwalk : walkBoth triVec st.oppVec startIdx c with
        | none => rw [hwalk] at h; exact absurd h (by simp)
        | some w =>
          rw [hwalk] at h
          simp only at h
          by_cases hj : w.j = INT_MAX
          · rw [if_pos hj] at h
            cases hmark : markFound st.oppVec w.triIdx w.vi with
            | none => rw [hmark] at h; exact absurd h (by simp)
            | some ov1 =>
              rw [hmark] at h
              simp only [Option.some.injEq] at h
              subst h
              obtain ⟨hrel, hmb⟩ := markFound_spec st.oppVec ov1 w.triIdx w.vi hmark
              refine ⟨hrel, _, rfl, ?_⟩
              intro c1 t vi hc1 hw
              simp only [Option.some.injEq] at hc1
              subst hc1
              simp only [Walk.ended.injEq] at hw
              obtain ⟨_, rfl, rfl⟩ := hw
              have hstart : ∃ tri, getAt triVec startIdx = some tri ∧
                  (tri.v0 = c.v0 ∨ tri.v1 = c.v0 ∨ tri.v2 = c.v0) := by
                rcases hm c.v0 startIdx hsi with h1 | h1
                · omega
                · exact h1
              exact ⟨walkBoth_spec triVec st.oppVec hlink startIdx c w hstart hwalk hj, hmb⟩
          · rw [if_neg hj] at h
            simp only [Option.some.injEq] at h
            subst h
            refine ⟨vecRel_refl SlotLe slotLe_refl _, _, rfl, ?_⟩
            intro _ t vi _ hw
            simp only [Walk.ended.injEq] at hw
            exact absurd hw.1 hj

/-! ## checkConstraints -/

/-- The loop over the constraints keeps the links of the adjacency and leaves every found
constraint on its edge with the bit set on both sides. -/
theorem checkLoop_spec (output : Output) (hcons : Consistent output) (m : List Int)
    (hm : MapOK output.triVec m) (consVec : List Edge) (ov0 : List TriOpp)
    (h0 : VecRel SlotEqv output.triOppVec ov0) (st : ConsState)
    (h : loopFrom (checkOne output.triVec m consVec) consVec.length 0 ⟨ov0, [], [], 0⟩ = some st) :
    VecRel SlotEqv output.triOppVec st.oppVec ∧
      ∀ (n : Nat) c t vi, getAt consVec (n : Int) = some c →
        st.walks[n]? = some (Walk.ended INT_MAX t vi) →
        EdgeAt output.triVec c t vi ∧ MarkedBoth st.oppVec t vi := by
  have key := loopFrom_inv (checkOne output.triVec m consVec)
    (fun k x => VecRel SlotEqv output.triOppVec x.oppVec ∧ x.walks.length = k ∧
      ∀ (n : Nat) c t vi, getAt consVec (n : Int) = some c →
        x.walks[n]? = some (Walk.ended INT_MAX t vi) →
        EdgeAt output.triVec c t vi ∧ MarkedBoth x.oppVec t vi)
    consVec.length 0 ⟨ov0, [], [], 0⟩ st
    ⟨h0, rfl, fun n c t vi _ hw => absurd hw (by simp)⟩
    (by
      intro i x x1 _ _ ⟨hrel, hlen, hall⟩ hb
      obtain ⟨hle, w, hwalks, hnew⟩ := checkOne_spec output.triVec m hm consVec i x x1
        (linkOK_of_consistent output hcons x.oppVec hrel) hb
      refine ⟨?_, ?_, ?_⟩
      · exact vecRel_trans SlotEqv slotEqv_trans _ _ _ hrel
          (vecRel_mono SlotLe SlotEqv slotLe_toEqv _ _ hle)
      · rw [hwalks, List.length_append, hlen]; rfl
      · intro n c t vi hc hw
        rw [hwalks] at hw
        by_cases hn : n < x.walks.length
        · rw [List.getElem?_append_left hn] at hw
          obtain ⟨he, hmk⟩ := hall n c t vi hc hw
          exact ⟨he, markedBoth_of_rel _ _ hle t vi hmk⟩
        · rw [List.getElem?_append_right (by omega)] at hw
          have hni : n = i := by
            by_contra hne
            have : n - x.walks.length ≥ 1 := by omega
            rw [List.getElem?_eq_none (by simpa using this)] at hw
            exact absurd hw (by simp)
          subst hni
          rw [hlen, Nat.sub_self] at hw
          simp only [List.getElem?_cons_zero, Option.some.injEq] at hw
          exact hnew c t vi hc hw)
    h
  exact ⟨key.1, key.2.2⟩

/-- What a run of `checkConstraints` that completes has marked: on a mesh whose adjacency is
consistent, when constraint `i`, `(a, b)`, was found (its walk ended with `j == INT_MAX` at
triangle `triIdx` and slot `vi`), the edge opposite slot `vi` of `triIdx` joins `a` and `b`, and
at the end the constraint bit is set on slot `vi` of `triIdx` and on the slot of the
neighbouring triangle that this slot names, which names `(triIdx, vi)` back. A run in which a
constraint is found on a boundary edge does not complete. -/
theorem checkConstraints_marks_edge (pointNum : Nat) (input : Input) (output : Output)
    (hcons : Consistent output) (res : ConsResult)
    (hrun : checkConstraints pointNum input output = some res)
    (i : Nat) (c : Edge) (hc : input.constraintVec[i]? = some c) (triIdx vi : Int)
    (hfound : res.walks[i]? = some (Walk.ended INT_MAX triIdx vi)) :
    EdgeAt output.triVec c triIdx vi ∧
      ∃ s, slotOf res.oppVec triIdx vi = some s ∧ s.tri ≠ -1 ∧ s.cons = true ∧
        ∃ s2, slotOf res.oppVec s.tri s.vi = some s2 ∧ s2.cons = true ∧
          s2.tri = triIdx ∧ s2.vi = vi := by
  unfold checkConstraints at hrun
  by_cases hemp : input.constraintVec.isEmpty = true
  · rw [if_pos hemp] at hrun
    simp only [Option.some.injEq] at hrun
    subst hrun
    exact absurd hfound (by simp)
  · rw [if_neg hemp] at hrun
    cases h1 : loopFrom clearTri (sizeToInt output.triVec.length).toNat 0 output.triOppVec with
    | none => rw [h1] at hrun; exact absurd hrun (by simp)
    | some ov0 =>
      rw [h1] at hrun
      simp only at hrun
      cases h2 : loopFrom (fillTri output.triVec) (sizeToInt output.triVec.length).toNat 0
          (List.replicate pointNum (-1)) with
      | none => rw [h2] at hrun; exact absurd hrun (by simp)
      | some m =>
        rw [h2] at hrun
        simp only at hrun
        cases h3 : loopFrom (checkOne output.triVec m input.constraintVec)
            input.constraintVec.length 0 ⟨ov0, [], [], 0⟩ with
        | none => rw [h3] at hrun; exact absurd hrun (by simp)
        | some st =>
          rw [h3] at hrun
          simp only [Option.some.injEq] at hrun
          subst hrun
          obtain ⟨hrel, hall⟩ := checkLoop_spec output hcons m (fillMap_ok _ _ _ m h2)
            input.constraintVec ov0 (clearPass_rel _ _ ov0 h1) st h3
          obtain ⟨hedge, s, hs, hne, hbit, s2, hs2, hbit2⟩ :=
            hall i c triIdx vi (by rw [getAt_natCast]; exact hc) hfound
          refine ⟨hedge, s, hs, hne, hbit, s2, hs2, hbit2, ?_⟩
          obtain ⟨tri, _, _, hg, _⟩ := hedge
          obtain ⟨ht0, ht1, _⟩ := getAt_some output.triVec triIdx tri hg
          obtain ⟨s0, hs0, heq0⟩ := (hrel triIdx vi).2 s hs
          obtain ⟨_, he⟩ := slotOf_some _ triIdx vi s0 hs0
          have hte : ∃ n k : Nat, n < output.triVec.length ∧ k < 3 ∧
              triIdx = (n : Int) ∧ vi = (k : Int) := by
            refine ⟨triIdx.toNat, vi.toNat, ht1, by omega, by omega, by omega⟩
          obtain ⟨n, k, hn, hk, rfl, rfl⟩ := hte
          have hne0 : s0.tri ≠ -1 := by rw [heq0.1]; exact hne
          obtain ⟨⟨s1, hs1, hb1, hb2⟩, _⟩ := hcons n hn k hk s0 hs0 hne0
          obtain ⟨s1', hs1', heq1⟩ := (hrel s0.tri s0.vi).1 s1 hs1
          rw [heq0.1, heq0.2, hs2] at hs1'
          simp only [Option.some.injEq] at hs1'
          subst hs1'
          exact ⟨heq1.1.symm.trans hb1, heq1.2.symm.trans hb2⟩

theorem checkConstraints_marks_edge_witness :
    Consistent ⟨squareTris, squareOpps⟩ ∧
      checkConstraints 4 ⟨[⟨1, 2⟩, ⟨0, 3⟩, ⟨2, 1⟩]⟩ ⟨squareTris, squareOpps⟩ =
        some squareConsResult ∧
      EdgeAt squareTris ⟨1, 2⟩ 1 0 ∧
      ∃ s, slotOf squareConsResult.oppVec 1 0 = some s ∧ s.tri ≠ -1 ∧ s.cons = true ∧
        ∃ s2, slotOf squareConsResult.oppVec s.tri s.vi = some s2 ∧ s2.cons = true ∧
          s2.tri = 1 ∧ s2.vi = 0 :=
  ⟨by decide, by decide,
    checkConstraints_marks_edge 4 ⟨[⟨1, 2⟩, ⟨0, 3⟩, ⟨2, 1⟩]⟩ ⟨squareTris, squareOpps⟩
      (by decide) squareConsResult (by decide) 0 ⟨1, 2⟩ (by decide) 1 0 (by decide)⟩

/-- C8, evaluated on the two triangles `[0,1,2]`, `[3,2,1]` with their consistent adjacency and
the constraints `(1,2)`, `(0,1)`: the first constraint is found and marked on both sides of the
shared edge; the walks of the second end found at slot 2 of triangle 0, whose edge does join 0
and 1, but the word of that slot is the boundary word, there is no neighbouring triangle to
mark, the found branch reads `oppVec[-1]`, and the check does not complete. -/
theorem checkConstraints_found_boundary :
    Consistent ⟨squareTris, squareOpps⟩ ∧
      (checkConstraints 4 ⟨[⟨1, 2⟩]⟩ ⟨squareTris, squareOpps⟩).map (fun r => r.oppVec) =
        some squareConsResult.oppVec ∧
      walkBoth squareTris squareConsResult.oppVec 0 ⟨0, 1⟩ = some ⟨INT_MAX, 0, 2⟩ ∧
      EdgeJoins squareTris ⟨0, 1⟩ 0 2 ∧
      slotOf squareConsResult.oppVec 0 2 = some ⟨-1, 0, false⟩ ∧
      markFound squareConsResult.oppVec 0 2 = none ∧
      checkConstraints 4 ⟨[⟨1, 2⟩, ⟨0, 1⟩]⟩ ⟨squareTris, squareOpps⟩ = none := by
  decide

/-! ## checkOrientation -/

theorem orientCount_eq (pred : Int → Int → Int → Orient) :
    ∀ (triVec : List Tri) (count : Int), 0 ≤ count →
      count + (triVec.length : Int) ≤ INT_MAX →
      orientCount pred triVec count = count + (negCount pred triVec : Int) := by
  intro triVec
  induction triVec with
  | nil => intro count _ _; simp [orientCount, negCount]
  | cons t ts ih =>
    intro count h0 h1
    unfold INT_MAX at h1
    simp only [List.length_cons, Nat.cast_add, Nat.cast_one] at h1
    have step : orientCount pred (t :: ts) count =
        orientCount pred ts (if Orient.OrientNeg = pred t.v0 t.v1 t.v2 then wrap32 (count + 1)
          else count) := rfl
    rw [step]
    by_cases hneg : Orient.OrientNeg = pred t.v0 t.v1 t.v2
    · rw [if_pos hneg, wrap32_of_range _ (by omega) (by omega),
        ih (count + 1) (by omega) (by unfold INT_MAX; omega)]
      have : negCount pred (t :: ts) = negCount pred ts + 1 := by
        unfold negCount
        rw [List.filter_cons_of_pos (by simpa using hneg.symm)]
        rfl
      rw [this]; push_cast; ring
    · rw [if_neg hneg, ih count h0 (by unfold INT_MAX; omega)]
      have : negCount pred (t :: ts) = negCount pred ts := by
        unfold negCount
        rw [List.filter_cons_of_neg (by simpa using fun h => hneg h.symm)]
      rw [this]

theorem negCount_eq_zero (pred : Int → Int → Int → Orient) (triVec : List Tri) :
    negCount pred triVec = 0 ↔ ∀ t ∈ triVec, pred t.v0 t.v1 t.v2 ≠ Orient.OrientNeg := by
  unfold negCount
  rw [List.length_eq_zero, List.filter_eq_nil_iff]
  simp

/-- C11: for every triangle vector whose size fits an `int` and every orientation predicate,
`checkOrientation` reports `Pass` if and only if no triangle is negatively oriented, and
otherwise `***Fail***` with the number of negatively oriented triangles; for a predicate that
is never zero on the triangles this is: `Pass` if and only if every triangle is positively
oriented, with the count of the triangles that are not. -/
theorem checkOrientation_verdict (pred : Int → Int → Int → Orient) (output : Output)
    (h : (output.triVec.length : Int) ≤ INT_MAX) :
    (checkOrientation pred output = Verdict.pass ↔
        ∀ t ∈ output.triVec, pred t.v0 t.v1 t.v2 ≠ Orient.OrientNeg) ∧
      (checkOrientation pred output ≠ Verdict.pass →
        checkOrientation pred output = Verdict.fail (negCount pred output.triVec)) ∧
      ((∀ t ∈ output.triVec, pred t.v0 t.v1 t.v2 ≠ Orient.OrientZero) →
        negCount pred output.triVec = notPosCount pred output.triVec ∧
        (checkOrientation pred output = Verdict.pass ↔
          ∀ t ∈ output.triVec, pred t.v0 t.v1 t.v2 = Orient.OrientPos)) := by
  have hc : orientCount pred output.triVec 0 = (negCount pred output.triVec : Int) := by
    rw [orientCount_eq pred output.triVec 0 le_rfl (by omega)]; ring
  have hpass : checkOrientation pred output = Verdict.pass ↔
      ∀ t ∈ output.triVec, pred t.v0 t.v1 t.v2 ≠ Orient.OrientNeg := by
    rw [← negCount_eq_zero]
    unfold checkOrientation
    rw [hc]
    by_cases hz : negCount pred output.triVec = 0
    · rw [if_neg (by rw [hz]; simp)]
      exact ⟨fun _ => hz, fun _ => rfl⟩
    · rw [if_pos (by exact_mod_cast hz)]
      exact ⟨fun hv => Verdict.noConfusion hv, fun hv => absurd hv hz⟩
  refine ⟨hpass, ?_, ?_⟩
  · intro hne
    unfold checkOrientation at hne ⊢
    rw [hc] at hne ⊢
    by_cases hz : ((negCount pred output.triVec : Nat) : Int) ≠ 0
    · rw [if_pos hz]
    · rw [if_neg hz] at hne; exact absurd rfl hne
  · intro hnz
    have hsame : ∀ t ∈ output.triVec,
        (pred t.v0 t.v1 t.v2 = Orient.OrientNeg ↔ pred t.v0 t.v1 t.v2 ≠ Orient.OrientPos) := by
      intro t ht
      have := hnz t ht
      cases hp : pred t.v0 t.v1 t.v2 <;> simp_all
    constructor
    · unfold negCount notPosCount
      congr 1
      apply List.filter_congr
      intro t ht
      simp only [decide_eq_decide]
      exact hsame t ht
    · rw [hpass]
      constructor
      · intro hall t ht
        by_contra hnp
        exact hall t ht ((hsame t ht).2 hnp)
      · intro hall t ht hn
        rw [hall t ht] at hn
        exact Orient.noConfusion hn

theorem checkOrientation_verdict_witness :
    ((squareTris.length : Nat) : Int) ≤ INT_MAX ∧
      (checkOrientation alwaysZero ⟨squareTris, squareOpps⟩ = Verdict.pass ↔
        ∀ t ∈ squareTris, alwaysZero t.v0 t.v1 t.v2 ≠ Orient.OrientNeg) :=
  ⟨by decide, (checkOrientation_verdict alwaysZero ⟨squareTris, squareOpps⟩ (by decide)).1⟩

/-- C11 as stated fails: with a predicate that answers `zero`, `checkOrientation` reports `Pass`
on the two triangles although no triangle is positively oriented (two are not). -/
theorem checkOrientation_ignores_zero :
    checkOrientation alwaysZero ⟨squareTris, squareOpps⟩ = Verdict.pass ∧
      ¬ (∀ t ∈ squareTris, alwaysZero t.v0 t.v1 t.v2 = Orient.OrientPos) ∧
      notPosCount alwaysZero squareTris = 2 := by
  refine ⟨by decide, by decide, by decide⟩

/-! ## checkEuler -/

theorem length_insert_bounds (a : Int) (l : List Int) :
    l.length ≤ (l.insert a).length ∧ (l.insert a).length ≤ l.length + 1 ∧
      1 ≤ (l.insert a).length := by
  by_cases h : a ∈ l
  · rw [List.insert_of_mem h]
    refine ⟨le_rfl, by omega, ?_⟩
    exact List.length_pos_of_mem h
  · rw [List.insert_of_not_mem h]
    simp

theorem vertSet_fold_bounds (triVec : List Tri) :
    ∀ s : List Int,
      s.length ≤ (triVec.foldl
        (fun vertSet tri => ((vertSet.insert tri.v0).insert tri.v1).insert tri.v2) s).length ∧
      (triVec.foldl
        (fun vertSet tri => ((vertSet.insert tri.v0).insert tri.v1).insert tri.v2) s).length ≤
          s.length + 3 * triVec.length ∧
      (triVec ≠ [] → 1 ≤ (triVec.foldl
        (fun vertSet tri => ((vertSet.insert tri.v0).insert tri.v1).insert tri.v2) s).length) := by
  induction triVec with
  | nil => intro s; simp
  | cons t ts ih =>
    intro s
    rw [List.foldl_cons]
    obtain ⟨h1, h2, _⟩ := ih (((s.insert t.v0).insert t.v1).insert t.v2)
    obtain ⟨a1, a2, _⟩ := length_insert_bounds t.v0 s
    obtain ⟨b1, b2, _⟩ := length_insert_bounds t.v1 (s.insert t.v0)
    obtain ⟨c1, c2, c3⟩ := length_insert_bounds t.v2 ((s.insert t.v0).insert t.v1)
    rw [List.length_cons]
    refine ⟨by omega, by omega, fun _ => by omega⟩

/-- C19: for every output whose triangle vector fits the address space, `getSegmentCount` is 0,
`checkEuler` computes `euler = V + F` without wrap-around and reports `***Fail***`: `euler` is 0
for an empty triangle list and at least 2 for a non-empty one. -/
theorem checkEuler_always_fails (output : Output)
    (h : 4 * output.triVec.length < 18446744073709551616) :
    getSegmentCount output = 0 ∧
      (checkEuler output).euler = getVertexCount output + output.triVec.length ∧
      (checkEuler output).pass = false ∧
      (output.triVec = [] → (checkEuler output).euler = 0) ∧
      (output.triVec ≠ [] → 2 ≤ (checkEuler output).euler) := by
  obtain ⟨_, hv, hv1⟩ := vertSet_fold_bounds output.triVec []
  have hV : getVertexCount output ≤ 3 * output.triVec.length := by
    unfold getVertexCount; simpa using hv
  have he : getSegmentCount output = 0 := rfl
  have heuler : (checkEuler output).euler = getVertexCount output + output.triVec.length := by
    show add64 (sub64 (getVertexCount output) (getSegmentCount output))
      (getTriangleCount output) = _
    rw [he]
    unfold add64 sub64 getTriangleCount
    omega
  have hempty : output.triVec = [] → (checkEuler output).euler = 0 := by
    intro hnil
    rw [heuler]
    unfold getVertexCount
    rw [hnil]; rfl
  have hne : output.triVec ≠ [] → 2 ≤ (checkEuler output).euler := by
    intro hn
    rw [heuler]
    have h1 : 1 ≤ getVertexCount output := by
      unfold getVertexCount; exact hv1 hn
    have h2 : 1 ≤ output.triVec.length := by
      cases hl : output.triVec with
      | nil => exact absurd hl hn
      | cons _ _ => simp
    omega
  refine ⟨he, heuler, ?_, hempty, hne⟩
  show decide (¬ (1 ≠ add64 (sub64 (getVertexCount output) (getSegmentCount output))
      (getTriangleCount output))) = false
  have hval : add64 (sub64 (getVertexCount output) (getSegmentCount output))
      (getTriangleCount output) = (checkEuler output).euler := rfl
  rw [hval]
  by_cases hn : output.triVec = []
  · have := hempty hn
    rw [this]; decide
  · have := hne hn
    simp only [ne_eq, Decidable.not_not, decide_eq_false_iff_not]
    omega

theorem checkEuler_always_fails_witness :
    4 * squareTris.length < 18446744073709551616 ∧
      (checkEuler ⟨squareTris, squareOpps⟩).euler = 4 + 2 ∧
      (checkEuler ⟨squareTris, squareOpps⟩).pass = false :=
  ⟨by decide,
    (checkEuler_always_fails ⟨squareTris, squareOpps⟩ (by decide)).2.1,
    (checkEuler_always_fails ⟨squareTris, squareOpps⟩ (by decide)).2.2.1⟩

/-- C12: on the square's two triangles sharing a diagonal the vertices are 4, the distinct
undirected edges 5 and the triangles 2, so `V - E + F = 1`; `checkEuler` counts 0 edges,
computes `euler = 6` and does not report `Pass`. -/
theorem checkEuler_square :
    getVertexCount ⟨squareTris, squareOpps⟩ = 4 ∧ (distinctEdges squareTris).length = 5 ∧
      getTriangleCount ⟨squareTris, squareOpps⟩ = 2 ∧ 4 - 5 + 2 = (1 : Int) ∧
      checkEuler ⟨squareTris, squareOpps⟩ = ⟨4, 0, 2, 6, false⟩ := by
  refine ⟨by decide, by decide, by decide, by decide, by decide⟩

/-! ## What checkConstraints writes -/

theorem checkOne_rel (triVec : List Tri) (m : List Int) (consVec : List Edge) (i : Nat)
    (st st1 : ConsState) (h : checkOne triVec m consVec i st = some st1) :
    VecRel SlotLe st.oppVec st1.oppVec := by
  unfold checkOne at h
  cases hc : getAt consVec (i : Int) with
  | none => rw [hc] at h; exact absurd h (by simp)
  | some c =>
    rw [hc] at h
    simp only at h
    cases hsi : getAt m c.v0 with
    | none => rw [hsi] at h; exact absurd h (by simp)
    | some startIdx =>
      rw [hsi] at h
      simp only at h
      by_cases hneg : startIdx < 0
      · rw [if_pos hneg] at h
        simp only [Option.some.injEq] at h
        subst h
        exact vecRel_refl SlotLe slotLe_refl _
      · rw [if_neg hneg] at h
        cases hwalk : walkBoth triVec st.oppVec startIdx c with
        | none => rw [hwalk] at h; exact absurd h (by simp)
        | some w =>
          rw [hwalk] at h
          simp only at h
          by_cases hj : w.j = INT_MAX
          · rw [if_pos hj] at h
            cases hmark : markFound st.oppVec w.triIdx w.vi with
            | none => rw [hmark] at h; exact absurd h (by simp)
            | some ov1 =>
              rw [hmark] at h
              simp only [Option.some.injEq] at h
              subst h
              exact (markFound_spec st.oppVec ov1 w.triIdx w.vi hmark).1
          · rw [if_neg hj] at h
            simp only [Option.some.injEq] at h
            subst h
            exact vecRel_refl SlotLe slotLe_refl _

theorem vecRel_link (o1 o2 : List TriOpp) (h : VecRel SlotEqv o1 o2) (t e : Int) :
    (slotOf o1 t e).map OppSlot.link = (slotOf o2 t e).map OppSlot.link := by
  cases h1 : slotOf o1 t e with
  | some s =>
    obtain ⟨s1, hs1, r⟩ := (h t e).1 s h1
    rw [hs1]
    simp only [Option.map_some', OppSlot.link, r.1, r.2]
  | none =>
    cases h2 : slotOf o2 t e with
    | none => rfl
    | some s1 =>
      obtain ⟨s, hs, _⟩ := (h t e).2 s1 h2
      rw [h1] at hs
      exact absurd hs (by simp)

/-- C13: when `checkConstraints` has run, `output.triVec` is as before, and every slot of
`output.triOppVec` names the same opposite triangle and the same opposite slot as before; only
constraint bits are written. -/
theorem checkConstraints_frame (pointNum : Nat) (input : Input) (output : Output)
    (res : ConsResult) (hrun : checkConstraints pointNum input output = some res) :
    (outputAfter output res).triVec = output.triVec ∧
      ∀ t e : Int, (slotOf (outputAfter output res).triOppVec t e).map OppSlot.link =
        (slotOf output.triOppVec t e).map OppSlot.link := by
  refine ⟨rfl, ?_⟩
  intro t e
  show (slotOf res.oppVec t e).map OppSlot.link = _
  symm
  apply vecRel_link
  unfold checkConstraints at hrun
  by_cases hemp : input.constraintVec.isEmpty = true
  · rw [if_pos hemp] at hrun
    simp only [Option.some.injEq] at hrun
    subst hrun
    exact vecRel_refl SlotEqv slotEqv_refl _
  · rw [if_neg hemp] at hrun
    cases h1 : loopFrom clearTri (sizeToInt output.triVec.length).toNat 0 output.triOppVec with
    | none => rw [h1] at hrun; exact absurd hrun (by simp)
    | some ov0 =>
      rw [h1] at hrun
      simp only at hrun
      cases h2 : loopFrom (fillTri output.triVec) (sizeToInt output.triVec.length).toNat 0
          (List.replicate pointNum (-1)) with
      | none => rw [h2] at hrun; exact absurd hrun (by simp)
      | some m =>
        rw [h2] at hrun
        simp only at hrun
        cases h3 : loopFrom (checkOne output.triVec m input.constraintVec)
            input.constraintVec.length 0 ⟨ov0, [], [], 0⟩ with
        | none => rw [h3] at hrun; exact absurd hrun (by simp)
        | some st =>
          rw [h3] at hrun
          simp only [Option.some.injEq] at hrun
          subst hrun
          have hloop := loopFrom_inv (checkOne output.triVec m input.constraintVec)
            (fun _ x => VecRel SlotEqv ov0 x.oppVec) input.constraintVec.length 0
            ⟨ov0, [], [], 0⟩ st (vecRel_refl SlotEqv slotEqv_refl _)
            (fun i x x1 _ _ hx hb =>
              vecRel_trans SlotEqv slotEqv_trans _ _ _ hx
                (vecRel_mono SlotLe SlotEqv slotLe_toEqv _ _
                  (checkOne_rel output.triVec m input.constraintVec i x x1 hb))) h3
          exact vecRel_trans SlotEqv slotEqv_trans _ _ _ (clearPass_rel _ _ ov0 h1) hloop

theorem checkConstraints_frame_witness :
    checkConstraints 4 ⟨[⟨1, 2⟩, ⟨0, 3⟩, ⟨2, 1⟩]⟩ ⟨squareTris, squareOpps⟩ =
        some squareConsResult ∧
      (outputAfter ⟨squareTris, squareOpps⟩ squareConsResult).triVec = squareTris ∧
      ∀ t e : Int,
        (slotOf (outputAfter ⟨squareTris, squareOpps⟩ squareConsResult).triOppVec t e).map
            OppSlot.link =
          (slotOf squareOpps t e).map OppSlot.link :=
  ⟨by decide,
    checkConstraints_frame 4 ⟨[⟨1, 2⟩, ⟨0, 3⟩, ⟨2, 1⟩]⟩ ⟨squareTris, squareOpps⟩
      squareConsResult (by decide)⟩

/-- C13 as stated fails: on the two triangles with the non-empty constraint list `(1,2)`,
`(0,3)`, `(2,1)`, `checkConstraints` leaves the constraint bit set on both sides of the shared
edge, where it was clear before: `output.triOppVec` is not the same after as before. -/
theorem checkConstraints_writes_bits :
    checkConstraints 4 ⟨[⟨1, 2⟩, ⟨0, 3⟩, ⟨2, 1⟩]⟩ ⟨squareTris, squareOpps⟩ =
        some squareConsResult ∧
      (outputAfter ⟨squareTris, squareOpps⟩ squareConsResult).triOppVec ≠ squareOpps ∧
      slotOf squareOpps 0 0 = some ⟨1, 0, false⟩ ∧
      slotOf (outputAfter ⟨squareTris, squareOpps⟩ squareConsResult).triOppVec 0 0 =
        some ⟨1, 0, true⟩ := by
  refine ⟨by decide, by decide, by decide, by decide⟩

/-! ## MemoryPool::allocateAny -/

theorem getAt_natCast_some {α : Type} (l : List α) (i : Nat) (x : α) :
    getAt l (i : Int) = some x ↔ l[i]? = some x := by
  rw [getAt_natCast]

theorem setAt_of_getAt {α : Type} (l : List α) (i : Int) (x y : α) (h : getAt l i = some x) :
    ∃ l1, setAt l i y = some l1 ∧ l1.length = l.length := by
  obtain ⟨h0, h1, _⟩ := getAt_some l i x h
  refine ⟨l.set i.toNat y, ?_, List.length_set _ _ _⟩
  unfold setAt
  rw [if_pos ⟨h0, h1⟩]

theorem setAt_length {α : Type} (l l1 : List α) (i : Int) (y : α) (h : setAt l i y = some l1) :
    l1.length = l.length := by
  unfold setAt at h
  split at h
  · simp only [Option.some.injEq] at h
    subst h
    exact List.length_set _ _ _
  · exact absurd h (by simp)

/-- One step of the best-fit loop keeps `bufIdx` the best fit so far. -/
theorem bestFitStep_spec (pool : List Buffer) (n i : Nat) (hi : i < pool.length) (bufIdx : Int)
    (h : (bufIdx = -1 ∧ NoneFits pool n i) ∨ ∃ j : Nat, bufIdx = (j : Int) ∧ IsBestFit pool n i j) :
    ∃ idx1, bestFitStep pool n i bufIdx = some idx1 ∧
      ((idx1 = -1 ∧ NoneFits pool n (i + 1)) ∨
        ∃ j : Nat, idx1 = (j : Int) ∧ IsBestFit pool n (i + 1) j) := by
  have hb : pool[i]? = some pool[i] := List.getElem?_eq_getElem hi
  unfold bestFitStep
  rw [getAt_natCast, hb]
  simp only
  by_cases hfit : pool[i].avail = true ∧ pool[i].sizeInBytes ≥ n
  · rw [if_pos hfit]
    have hfit' : pool[i].fits n := hfit
    rcases h with ⟨hm1, hnone⟩ | ⟨j, hj, hjlt, bj, hbj, hbjfit, hbest⟩
    · rw [if_pos hm1]
      refine ⟨i, rfl, Or.inr ⟨i, rfl, by omega, pool[i], hb, hfit', ?_⟩⟩
      intro k hk b hkb hbfit
      rcases Nat.lt_succ_iff_lt_or_eq.1 hk with hk1 | rfl
      · exact absurd hbfit (hnone k hk1 b hkb)
      · rw [hb] at hkb
        simp only [Option.some.injEq] at hkb
        subst hkb
        exact ⟨le_rfl, fun _ => le_rfl⟩
    · have hne : ¬ bufIdx = -1 := by omega
      rw [if_neg hne, hj, getAt_natCast, hbj]
      simp only
      by_cases hlt : pool[i].sizeInBytes < bj.sizeInBytes
      · rw [if_pos hlt]
        refine ⟨i, rfl, Or.inr ⟨i, rfl, by omega, pool[i], hb, hfit', ?_⟩⟩
        intro k hk b hkb hbfit
        rcases Nat.lt_succ_iff_lt_or_eq.1 hk with hk1 | rfl
        · have := hbest k hk1 b hkb hbfit
          exact ⟨by omega, fun he => by omega⟩
        · rw [hb] at hkb
          simp only [Option.some.injEq] at hkb
          subst hkb
          exact ⟨le_rfl, fun _ => le_rfl⟩
      · rw [if_neg hlt]
        refine ⟨j, rfl, Or.inr ⟨j, rfl, by omega, bj, hbj, hbjfit, ?_⟩⟩
        intro k hk b hkb hbfit
        rcases Nat.lt_succ_iff_lt_or_eq.1 hk with hk1 | rfl
        · exact hbest k hk1 b hkb hbfit
        · rw [hb] at hkb
          simp only [Option.some.injEq] at hkb
          subst hkb
          exact ⟨by omega, fun _ => by omega⟩
  · rw [if_neg hfit]
    refine ⟨bufIdx, rfl, ?_⟩
    rcases h with ⟨hm1, hnone⟩ | ⟨j, hj, hjlt, bj, hbj, hbjfit, hbest⟩
    · left
      refine ⟨hm1, ?_⟩
      intro k hk b hkb
      rcases Nat.lt_succ_iff_lt_or_eq.1 hk with hk1 | rfl
      · exact hnone k hk1 b hkb
      · rw [hb] at hkb
        simp only [Option.some.injEq] at hkb
        subst hkb
        exact hfit
    · right
      refine ⟨j, hj, by omega, bj, hbj, hbjfit, ?_⟩
      intro k hk b hkb hbfit
      rcases Nat.lt_succ_iff_lt_or_eq.1 hk with hk1 | rfl
      · exact hbest k hk1 b hkb hbfit
      · rw [hb] at hkb
        simp only [Option.some.injEq] at hkb
        subst hkb
        exact absurd hbfit hfit

/-- The best-fit loop ends with `-1` when no buffer fits and with the best fit otherwise. -/
theorem findBestFit_spec (pool : List Buffer) (n : Nat) :
    ∃ idx, findBestFit pool n = some idx ∧
      ((idx = -1 ∧ NoneFits pool n pool.length) ∨
        ∃ j : Nat, idx = (j : Int) ∧ IsBestFit pool n pool.length j) := by
  unfold findBestFit
  have := loopFrom_total (bestFitStep pool n)
    (fun i idx => (idx = -1 ∧ NoneFits pool n i) ∨
      ∃ j : Nat, idx = (j : Int) ∧ IsBestFit pool n i j)
    pool.length 0 (-1) (Or.inl ⟨rfl, fun k hk => absurd hk (by omega)⟩)
    (fun j s _ hj hP => bestFitStep_spec pool n j (by omega) s hP)
  simpa using this

theorem allocateFrom_spec (pool : List Buffer) (sz : Nat) (tempOnly : Bool) (j : Nat)
    (b : Buffer) (hb : pool[j]? = some b) :
    ∃ r, allocateFrom pool sz tempOnly j = some r ∧ AllocatedOn pool sz tempOnly j b r := by
  have hj : j < pool.length := (List.getElem?_eq_some.1 hb).1
  unfold allocateFrom
  rw [getAt_natCast, hb]
  simp only
  cases tempOnly with
  | false =>
    rw [if_pos rfl]
    have hset : setAt pool (j : Int) (Buffer.mk b.ptr b.sizeInBytes false) =
        some (pool.set j ⟨b.ptr, b.sizeInBytes, false⟩) := by
      unfold setAt
      rw [if_pos ⟨by omega, by simpa using hj⟩]
      rfl
    rw [hset]
    refine ⟨_, rfl, hb, rfl, rfl, List.length_set _ _ _, ?_, ?_⟩
    · simp only [Bool.and_false]
      exact List.getElem?_set_self hj
    · intro k hk
      exact List.getElem?_set_ne (fun h => hk h.symm)
  | true =>
    rw [if_neg (by decide)]
    refine ⟨_, rfl, hb, rfl, rfl, rfl, ?_, fun _ _ => rfl⟩
    simp only [Bool.and_true]
    exact hb

theorem mul64_of_lt (a b : Nat) (h : a * b < 18446744073709551616) : mul64 a b = a * b := by
  unfold mul64
  exact Nat.mod_eq_of_lt h

/-- What `allocateAny` did when it returned: it built the vector on the best fit of the pool, or,
no buffer fitting, on a buffer of exactly the requested bytes appended to the pool. -/
theorem allocateAny_inv (pool : List Buffer) (size sz : Nat) (tempOnly : Bool)
    (mallocResult : Option Nat) (hov : size * sz < 18446744073709551616)
    (hlen : pool.length < 2147483647) (r : AllocResult)
    (hal : allocateAny pool size sz tempOnly mallocResult = some r) :
    (∃ j b, IsBestFit pool (size * sz) pool.length j ∧ AllocatedOn pool sz tempOnly j b r) ∨
      (NoneFits pool (size * sz) pool.length ∧
        ∃ p, AllocatedOn (pool ++ [⟨p, size * sz, true⟩]) sz tempOnly pool.length
          ⟨p, size * sz, true⟩ r) := by
  unfold allocateAny at hal
  rw [mul64_of_lt size sz hov] at hal
  obtain ⟨idx, hidx, hcase⟩ := findBestFit_spec pool (size * sz)
  rw [hidx] at hal
  simp only at hal
  rcases hcase with ⟨hm1, hnone⟩ | ⟨j, hj, hbest⟩
  · rw [if_pos hm1] at hal
    right
    refine ⟨hnone, ?_⟩
    unfold reserve at hal
    cases hres : DevVector.default.resize size mallocResult with
    | none => rw [hres] at hal; exact absurd hal (by simp)
    | some vf =>
      obtain ⟨vec, fr⟩ := vf
      rw [hres] at hal
      simp only at hal
      rw [mul64_of_lt size sz hov] at hal
      have hidx1 : sizeToInt (pool ++ [Buffer.mk vec._ptr (size * sz) true]).length - 1 =
          (pool.length : Int) := by
        unfold sizeToInt
        rw [List.length_append, List.length_singleton, if_pos (by omega)]
        push_cast; ring
      rw [hidx1] at hal
      have hb : (pool ++ [Buffer.mk vec._ptr (size * sz) true])[pool.length]? =
          some ⟨vec._ptr, size * sz, true⟩ := by
        rw [List.getElem?_append_right (le_refl _), Nat.sub_self]; rfl
      obtain ⟨r1, hr1, hon⟩ := allocateFrom_spec _ sz tempOnly pool.length _ hb
      rw [hr1] at hal
      simp only [Option.some.injEq] at hal
      subst hal
      exact ⟨vec._ptr, hon⟩
  · have hne : ¬ idx = -1 := by omega
    rw [if_neg hne, hj] at hal
    left
    obtain ⟨bj, hbj, _⟩ := hbest.2
    obtain ⟨r1, hr1, hon⟩ := allocateFrom_spec pool sz tempOnly j bj hbj
    rw [hr1] at hal
    simp only [Option.some.injEq] at hal
    subst hal
    exact ⟨j, bj, hbest, hon⟩

/-- `allocateAny` returns when `device_malloc` does not fail. -/
theorem allocateAny_total (pool : List Buffer) (size sz : Nat) (tempOnly : Bool)
    (mallocResult : Option Nat) (hm : mallocResult.isSome = true)
    (hlen : pool.length < 2147483647) :
    ∃ r, allocateAny pool size sz tempOnly mallocResult = some r := by
  unfold allocateAny
  obtain ⟨idx, hidx, hcase⟩ := findBestFit_spec pool (mul64 size sz)
  rw [hidx]
  simp only
  rcases hcase with ⟨hm1, _⟩ | ⟨j, hj, hbest⟩
  · rw [if_pos hm1]
    obtain ⟨p, hp⟩ := Option.isSome_iff_exists.1 hm
    unfold reserve
    have hres : ∃ vf, DevVector.default.resize size mallocResult = some vf := by
      unfold DevVector.resize
      rw [hp]
      by_cases h0 : DevVector.default._capacity ≥ size
      · rw [if_pos h0]; exact ⟨_, rfl⟩
      · rw [if_neg h0]; exact ⟨_, rfl⟩
    obtain ⟨⟨vec, fr⟩, hvf⟩ := hres
    rw [hvf]
    simp only
    have hidx1 : sizeToInt (pool ++ [Buffer.mk vec._ptr (mul64 size sz) true]).length - 1 =
        (pool.length : Int) := by
      unfold sizeToInt
      rw [List.length_append, List.length_singleton, if_pos (by omega)]
      push_cast; ring
    rw [hidx1]
    have hb : (pool ++ [Buffer.mk vec._ptr (mul64 size sz) true])[pool.length]? =
        some ⟨vec._ptr, mul64 size sz, true⟩ := by
      rw [List.getElem?_append_right (le_refl _), Nat.sub_self]; rfl
    obtain ⟨r1, hr1, _⟩ := allocateFrom_spec _ sz tempOnly pool.length _ hb
    exact ⟨r1, hr1⟩
  · have hne : ¬ idx = -1 := by omega
    rw [if_neg hne, hj]
    obtain ⟨bj, hbj, _⟩ := hbest.2
    obtain ⟨r1, hr1, _⟩ := allocateFrom_spec pool sz tempOnly j bj hbj
    exact ⟨r1, hr1⟩

/-- C14: when `sizeof(T) >= 1`, `size*sizeof(T)` does not overflow, `device_malloc` does not fail
and the pool has fewer than `INT_MAX` buffers, `allocateAny` returns a vector with `_size = 0`,
`_owned = false` and `_capacity >= size`, on a buffer of the pool with at least
`size*sizeof(T)` bytes that was available before the call or was appended by it. -/
theorem allocateAny_large_enough (pool : List Buffer) (size sz : Nat) (tempOnly : Bool)
    (mallocResult : Option Nat) (hsz : 1 ≤ sz) (hov : size * sz < 18446744073709551616)
    (hm : mallocResult.isSome = true) (hlen : pool.length < 2147483647) :
    ∃ r, allocateAny pool size sz tempOnly mallocResult = some r ∧
      r.vec._size = 0 ∧ r.vec._owned = false ∧ size ≤ r.vec._capacity ∧
      ∃ (j : Nat) (b : Buffer), r.bufIdx = (j : Int) ∧ r.pool[j]? = some b ∧
        b.ptr = r.vec._ptr ∧ size * sz ≤ b.sizeInBytes ∧
        ((∃ b0, pool[j]? = some b0 ∧ b0.avail = true ∧ b0.ptr = b.ptr ∧
            b0.sizeInBytes = b.sizeInBytes) ∨
          (j = pool.length ∧ r.pool.length = pool.length + 1)) := by
  obtain ⟨r, hal⟩ := allocateAny_total pool size sz tempOnly mallocResult hm hlen
  refine ⟨r, hal, ?_⟩
  rcases allocateAny_inv pool size sz tempOnly mallocResult hov hlen r hal with
    ⟨j, b, hbest, hb0, hvec, hidx, _, hrj, _⟩ | ⟨_, p, hb0, hvec, hidx, hl, hrj, _⟩
  · obtain ⟨_, bj, hbj, hfit, _⟩ := hbest
    rw [hb0] at hbj
    simp only [Option.some.injEq] at hbj
    subst hbj
    rw [hvec]
    refine ⟨rfl, rfl, (Nat.le_div_iff_mul_le (by omega)).2 hfit.2, j, _, hidx, hrj, rfl,
      hfit.2, Or.inl ⟨b, hb0, hfit.1, rfl, rfl⟩⟩
  · rw [hvec]
    refine ⟨rfl, rfl, (Nat.le_div_iff_mul_le (by omega)).2 le_rfl, pool.length, _, hidx, hrj,
      rfl, le_rfl, Or.inr ⟨rfl, ?_⟩⟩
    rw [hl, List.length_append, List.length_singleton]

theorem allocateAny_large_enough_witness :
    allocateAny samplePool 5 4 false none = some sampleAlloc ∧
      ∃ r, allocateAny samplePool 50 4 false (some 4000) = some r ∧
        r.vec._size = 0 ∧ r.vec._owned = false ∧ 50 ≤ r.vec._capacity ∧
        ∃ (j : Nat) (b : Buffer), r.bufIdx = (j : Int) ∧ r.pool[j]? = some b ∧
          b.ptr = r.vec._ptr ∧ 50 * 4 ≤ b.sizeInBytes ∧
          ((∃ b0, samplePool[j]? = some b0 ∧ b0.avail = true ∧ b0.ptr = b.ptr ∧
              b0.sizeInBytes = b.sizeInBytes) ∨
            (j = samplePool.length ∧ r.pool.length = samplePool.length + 1)) :=
  ⟨by decide,
    allocateAny_large_enough samplePool 50 4 false (some 4000) (by decide) (by decide)
      (by decide) (by decide)⟩

/-- C15: under the same conditions, if some available buffer has at least `size*sizeof(T)`
bytes, `allocateAny` selects the available buffer of minimum `sizeInBytes` among those, the
lowest index on ties, and the pool keeps its length; if none has, the pool gets exactly one more
buffer, of exactly `size*sizeof(T)` bytes, after the buffers it had, and that one is selected. -/
theorem allocateAny_best_fit (pool : List Buffer) (size sz : Nat) (tempOnly : Bool)
    (mallocResult : Option Nat) (hov : size * sz < 18446744073709551616)
    (hm : mallocResult.isSome = true) (hlen : pool.length < 2147483647) :
    ∃ r, allocateAny pool size sz tempOnly mallocResult = some r ∧
      ((∃ (k : Nat) (b : Buffer), pool[k]? = some b ∧ b.fits (size * sz)) →
        r.pool.length = pool.length ∧
        ∃ j : Nat, r.bufIdx = (j : Int) ∧ IsBestFit pool (size * sz) pool.length j) ∧
      ((¬ ∃ (k : Nat) (b : Buffer), pool[k]? = some b ∧ b.fits (size * sz)) →
        r.bufIdx = (pool.length : Int) ∧ r.pool.length = pool.length + 1 ∧
        (∀ k, k < pool.length → r.pool[k]? = pool[k]?) ∧
        ∃ b, r.pool[pool.length]? = some b ∧ b.sizeInBytes = size * sz ∧
          b.ptr = r.vec._ptr) := by
  obtain ⟨r, hal⟩ := allocateAny_total pool size sz tempOnly mallocResult hm hlen
  refine ⟨r, hal, ?_, ?_⟩
  · intro ⟨k, b, hkb, hfit⟩
    rcases allocateAny_inv pool size sz tempOnly mallocResult hov hlen r hal with
      ⟨j, _, hbest, _, _, hidx, hl, _, _⟩ | ⟨hnone, _⟩
    · exact ⟨hl, j, hidx, hbest⟩
    · exact absurd hfit (hnone k (List.getElem?_eq_some.1 hkb).1 b hkb)
  · intro hno
    rcases allocateAny_inv pool size sz tempOnly mallocResult hov hlen r hal with
      ⟨j, _, hbest, _⟩ | ⟨_, p, _, hvec, hidx, hl, hrj, hother⟩
    · obtain ⟨_, bj, hbj, hfit, _⟩ := hbest
      exact absurd ⟨j, bj, hbj, hfit⟩ hno
    · refine ⟨hidx, ?_, ?_, _, hrj, rfl, ?_⟩
      · rw [hl, List.length_append, List.length_singleton]
      · intro k hk
        rw [hother k (by omega), List.getElem?_append_left hk]
      · rw [hvec]

theorem allocateAny_best_fit_witness :
    (∃ (k : Nat) (b : Buffer), samplePool[k]? = some b ∧ b.fits (5 * 4)) ∧
      ∃ r, allocateAny samplePool 5 4 false (some 4000) = some r ∧
        ((∃ (k : Nat) (b : Buffer), samplePool[k]? = some b ∧ b.fits (5 * 4)) →
          r.pool.length = samplePool.length ∧
          ∃ j : Nat, r.bufIdx = (j : Int) ∧ IsBestFit samplePool (5 * 4) samplePool.length j) ∧
        ((¬ ∃ (k : Nat) (b : Buffer), samplePool[k]? = some b ∧ b.fits (5 * 4)) →
          r.bufIdx = (samplePool.length : Int) ∧ r.pool.length = samplePool.length + 1 ∧
          (∀ k, k < samplePool.length → r.pool[k]? = samplePool[k]?) ∧
          ∃ b, r.pool[samplePool.length]? = some b ∧ b.sizeInBytes = 5 * 4 ∧
            b.ptr = r.vec._ptr) :=
  ⟨⟨2, ⟨3000, 32, true⟩, by decide, by decide⟩,
    allocateAny_best_fit samplePool 5 4 false (some 4000) (by decide) (by decide) (by decide)⟩

/-! ## MemoryPool::release -/

theorem releaseFrom_spec (vec : DevVector) (hown : vec._owned = false) :
    ∀ (pool : List Buffer) (j : Nat) (b : Buffer), pool[j]? = some b → b.ptr = vec._ptr →
      b.avail = false → (∀ k, k < j → ∀ bk, pool[k]? = some bk → bk.ptr ≠ vec._ptr) →
      releaseFrom vec pool =
        some ⟨pool.set j ⟨b.ptr, b.sizeInBytes, true⟩, vec.free.1, vec.free.2, false⟩ := by
  intro pool
  induction pool with
  | nil => intro j b hb; exact absurd hb (by simp)
  | cons a rest ih =>
    intro j b hb hptr hav hfirst
    cases j with
    | zero =>
      simp only [List.getElem?_cons_zero, Option.some.injEq] at hb
      subst hb
      simp only [releaseFrom]
      rw [if_pos hptr, if_neg (by rw [hav]; decide), if_neg (by rw [hown]; decide)]
      rfl
    | succ j =>
      simp only [List.getElem?_cons_succ] at hb
      have hne : ¬ a.ptr = vec._ptr := hfirst 0 (by omega) a List.getElem?_cons_zero
      simp only [releaseFrom]
      rw [if_neg hne, ih j b hb hptr hav
        (fun k hk bk hkb => hfirst (k + 1) (by omega) bk (by simpa using hkb))]
      rfl

/-- C16: for a vector that `allocateAny` returned with `tempOnly = false`, the pool after the
call having pairwise distinct pointers, `release` makes the buffer of the vector available
again, keeps the length of the pool and the `ptr` and `sizeInBytes` of every buffer, keeps the
`avail` flag of every other buffer, resets the vector to size 0 and capacity 0 and frees
nothing; so every buffer that was in the pool before the allocation has its `avail` flag
back. -/
theorem release_after_allocate (pool : List Buffer) (size sz : Nat) (mallocResult : Option Nat)
    (hov : size * sz < 18446744073709551616) (hlen : pool.length < 2147483647)
    (r : AllocResult) (hal : allocateAny pool size sz false mallocResult = some r)
    (hdist : (r.pool.map Buffer.ptr).Nodup) :
    ∃ q, release r.pool r.vec = some q ∧ q.pool.length = r.pool.length ∧
      (∀ (k : Nat) (b : Buffer), r.pool[k]? = some b → ∃ b1, q.pool[k]? = some b1 ∧
        b1.ptr = b.ptr ∧
        b1.sizeInBytes = b.sizeInBytes ∧ ((k : Int) = r.bufIdx → b1.avail = true) ∧
        ((k : Int) ≠ r.bufIdx → b1.avail = b.avail)) ∧
      q.vec._size = 0 ∧ q.vec._capacity = 0 ∧ q.freed = [] ∧ q.warned = false ∧
      (∀ (k : Nat) (b : Buffer), pool[k]? = some b → ∃ b1, q.pool[k]? = some b1 ∧
        b1.avail = b.avail) := by
  have hcommon : ∃ (pool0 : List Buffer) (j : Nat) (b0 : Buffer),
      AllocatedOn pool0 sz false j b0 r ∧
      (∀ k b, pool[k]? = some b → pool0[k]? = some b ∧ (k = j → b.avail = true)) := by
    rcases allocateAny_inv pool size sz false mallocResult hov hlen r hal with
      ⟨j, b, hbest, hon⟩ | ⟨_, p, hon⟩
    · refine ⟨pool, j, b, hon, ?_⟩
      intro k bk hk
      refine ⟨hk, ?_⟩
      intro hkj
      subst hkj
      obtain ⟨_, bj, hbj, hfit, _⟩ := hbest
      rw [hk] at hbj
      simp only [Option.some.injEq] at hbj
      subst hbj
      exact hfit.1
    · refine ⟨_, pool.length, _, hon, ?_⟩
      intro k bk hk
      have hklt : k < pool.length := (List.getElem?_eq_some.1 hk).1
      refine ⟨by rw [List.getElem?_append_left hklt]; exact hk, fun h => by omega⟩
  obtain ⟨pool0, j, b0, ⟨hb0, hvec, hidx, hl, hrj, hother⟩, hold⟩ := hcommon
  simp only [Bool.and_false] at hrj
  have hjlt : j < r.pool.length := (List.getElem?_eq_some.1 hrj).1
  have hptr : r.vec._ptr = b0.ptr := by rw [hvec]
  have hfirst : ∀ k, k < j → ∀ bk, r.pool[k]? = some bk → bk.ptr ≠ r.vec._ptr := by
    intro k hk bk hkb heq
    have := (List.nodup_iff_getElem?_ne_getElem?.1 hdist) k j hk (by simpa using hjlt)
    apply this
    rw [List.getElem?_map, List.getElem?_map, hkb, hrj]
    simp only [Option.map_some', Option.some.injEq]
    rw [heq, hptr]
  have hrel := releaseFrom_spec r.vec (by rw [hvec]) r.pool j _ hrj hptr.symm rfl hfirst
  refine ⟨_, hrel, List.length_set _ _ _, ?_, rfl, rfl, ?_, rfl, ?_⟩
  · intro k b hkb
    by_cases hkj : k = j
    · subst hkj
      rw [hrj] at hkb
      simp only [Option.some.injEq] at hkb
      subst hkb
      refine ⟨_, List.getElem?_set_self hjlt, rfl, rfl, fun _ => rfl, ?_⟩
      intro hne
      exact absurd hidx.symm hne
    · refine ⟨b, ?_, rfl, rfl, ?_, fun _ => rfl⟩
      · show (r.pool.set j _)[k]? = some b
        rw [List.getElem?_set_ne (fun h => hkj h.symm)]; exact hkb
      · intro heq
        rw [hidx] at heq
        exact absurd (by exact_mod_cast heq) hkj
  · show (DevVector.free r.vec).2 = []
    unfold DevVector.free
    rw [hvec]
    simp
  · intro k b hkb
    obtain ⟨hk0, hav⟩ := hold k b hkb
    by_cases hkj : k = j
    · subst hkj
      exact ⟨_, List.getElem?_set_self hjlt, (hav rfl).symm⟩
    · refine ⟨b, ?_, rfl⟩
      show (r.pool.set j _)[k]? = some b
      rw [List.getElem?_set_ne (fun h => hkj h.symm), hother k hkj]; exact hk0

theorem release_after_allocate_witness :
    allocateAny samplePool 5 4 false none = some sampleAlloc ∧
      (sampleAlloc.pool.map Buffer.ptr).Nodup ∧
      ∃ q, release sampleAlloc.pool sampleAlloc.vec = some q ∧
        q.pool.length = sampleAlloc.pool.length ∧
        (∀ (k : Nat) (b : Buffer), sampleAlloc.pool[k]? = some b → ∃ b1, q.pool[k]? = some b1 ∧
          b1.ptr = b.ptr ∧
          b1.sizeInBytes = b.sizeInBytes ∧ ((k : Int) = sampleAlloc.bufIdx → b1.avail = true) ∧
          ((k : Int) ≠ sampleAlloc.bufIdx → b1.avail = b.avail)) ∧
        q.vec._size = 0 ∧ q.vec._capacity = 0 ∧ q.freed = [] ∧ q.warned = false ∧
        (∀ (k : Nat) (b : Buffer), samplePool[k]? = some b → ∃ b1, q.pool[k]? = some b1 ∧
          b1.avail = b.avail) :=
  ⟨by decide, by decide,
    release_after_allocate samplePool 5 4 none (by decide) (by decide) sampleAlloc (by decide)
      (by decide)⟩

/-! ## generateInput -/

/-- The synthesized branch of `generateInput` leaves no two equal points. -/
theorem generateInput_made_nodup (inputConstraint : Bool)
    (fileLines : List (List (Option Coord))) (pt0 : Point) (constraintsRead : List Edge) (made : List Point) (input : GeneratedInput) :
    ∃ r, generateInput ⟨false, inputConstraint⟩ fileLines pt0 constraintsRead made input =
        some r ∧ r.pointVec.Nodup := by
  refine ⟨_, rfl, ?_⟩
  exact List.nodup_dedup _

/-- C17: read from a file whose two lines both hold `5 5`, `generateInput` leaves the same
point twice in `input.pointVec`; the synthesized branch, given the same point twice by
`makePoints`, leaves it once. -/
theorem generateInput_file_keeps_duplicates :
    generateInput ⟨true, false⟩ [[some 5, some 5], [some 5, some 5]] ⟨0, 0, 0⟩ [] []
        ⟨[], []⟩ = some ⟨[⟨5, 5, 0⟩, ⟨5, 5, 0⟩], []⟩ ∧
      ¬ ([⟨5, 5, 0⟩, ⟨5, 5, 0⟩] : List Point).Nodup ∧
      generateInput ⟨false, false⟩ [] ⟨0, 0, 0⟩ [] [⟨5, 5, 0⟩, ⟨5, 5, 0⟩] ⟨[], []⟩ =
        some ⟨[⟨5, 5, 0⟩], []⟩ := by
  refine ⟨by decide, by decide, by decide⟩

/-! ## Walks along a fan -/

theorem vertOf_some (triVec : List Tri) (t i a : Int) (h : vertOf triVec t i = some a) :
    ∃ tri, getAt triVec t = some tri ∧ tri.v i = some a ∧ (i = 0 ∨ i = 1 ∨ i = 2) := by
  unfold vertOf at h
  cases hg : getAt triVec t with
  | none => rw [hg] at h; exact absurd h (by simp)
  | some tri =>
    rw [hg] at h
    simp only [Option.some_bind] at h
    exact ⟨tri, rfl, h, Tri.v_some tri i a h⟩

theorem Tri.v_total (tri : Tri) (i : Int) (h : i = 0 ∨ i = 1 ∨ i = 2) : ∃ x, tri.v i = some x := by
  rcases h with rfl | rfl | rfl
  · exact ⟨tri.v0, rfl⟩
  · exact ⟨tri.v1, rfl⟩
  · exact ⟨tri.v2, rfl⟩

theorem TriOpp.t_total (o : TriOpp) (i : Int) (h : i = 0 ∨ i = 1 ∨ i = 2) :
    ∃ s, o.t i = some s := by
  rcases h with rfl | rfl | rfl
  · exact ⟨o.t0, rfl⟩
  · exact ⟨o.t1, rfl⟩
  · exact ⟨o.t2, rfl⟩

theorem cmod_range (vi : Int) (h : vi = 0 ∨ vi = 1 ∨ vi = 2) :
    (cmod (vi + 1) 3 = 0 ∨ cmod (vi + 1) 3 = 1 ∨ cmod (vi + 1) 3 = 2) ∧
      (cmod (vi + 2) 3 = 0 ∨ cmod (vi + 2) 3 = 1 ∨ cmod (vi + 2) 3 = 2) := by
  rcases h with rfl | rfl | rfl <;> decide

theorem slotOf_eq (ov : List TriOpp) (t : Int) (opp : TriOpp) (h : getAt ov t = some opp)
    (e : Int) : slotOf ov t e = opp.t e := by
  unfold slotOf; rw [h]; rfl

/-- The first walk along positions `c, c+1, ..., c+m`, each linked to the next and none after
`c` in the start triangle, where the last position has the second vertex of the constraint
next or a boundary edge: it returns, found in the first case, and otherwise found or after at
most `m` rotations. -/
theorem ccwWalk_run (triVec : List Tri) (ov : List TriOpp) (startIdx a b : Int)
    (pos : Nat → FanPos) :
    ∀ (m c fuel : Nat) (j : Int), m < fuel →
      (∀ i, c ≤ i → i ≤ c + m →
        vertOf triVec (pos i).1 (pos i).2 = some a ∧ ∃ o, getAt ov (pos i).1 = some o) →
      (∀ i, c ≤ i → i < c + m → ccwLink ov (pos i) (pos (i + 1)) ∧ (pos (i + 1)).1 ≠ startIdx) →
      (vertOf triVec (pos (c + m)).1 (cmod ((pos (c + m)).2 + 2) 3) = some b ∨
        ccwEnd ov (pos (c + m))) →
      ∃ w, ccwWalk triVec ov startIdx b fuel ⟨j, (pos c).1, (pos c).2⟩ = some w ∧
        (vertOf triVec (pos (c + m)).1 (cmod ((pos (c + m)).2 + 2) 3) = some b →
          w.j = INT_MAX) ∧
        (w.j = INT_MAX ∨ w.j ≤ j + m) ∧
        (w.j = INT_MAX → j + m < INT_MAX → ∃ s, slotOf ov w.triIdx w.vi = some s) := by
  intro m
  induction m with
  | zero =>
    intro c fuel j hfuel hpos _ hend
    obtain ⟨fuel, rfl⟩ : ∃ f, fuel = f + 1 := ⟨fuel - 1, by omega⟩
    obtain ⟨hv, o, ho⟩ := hpos c le_rfl (by omega)
    obtain ⟨tri, hg, hva, hvi⟩ := vertOf_some triVec _ _ a hv
    obtain ⟨x, hx⟩ := Tri.v_total tri _ (cmod_range _ hvi).2
    obtain ⟨s, hs⟩ := TriOpp.t_total o _ (cmod_range _ hvi).1
    simp only [ccwWalk, hg, ho, hx]
    simp only [Nat.add_zero] at hend ⊢
    rw [vertOf_eq triVec _ tri hg, hx] at hend ⊢
    by_cases hb : x = b
    · rw [if_pos hb]
      refine ⟨_, rfl, fun _ => rfl, Or.inl rfl, fun _ _ => ⟨s, ?_⟩⟩
      show slotOf ov (pos c).1 (cmod ((pos c).2 + 1) 3) = some s
      rw [slotOf_eq ov _ o ho]; exact hs
    · rw [if_neg hb]
      rcases hend with h1 | ⟨s1, hs1, hbd⟩
      · exact absurd (Option.some.inj h1) hb
      · rw [Option.mem_def, slotOf_eq ov _ o ho] at hs1
        have hs' : o.t (cmod ((pos c).2 + 1) DEG) = some s1 := hs1
        simp only [hs', if_pos hbd]
        refine ⟨_, rfl, fun h1 => absurd (Option.some.inj h1) hb, Or.inr ?_, ?_⟩
        · show j ≤ j + ((0 : Nat) : Int)
          simp
        · intro h1 h2
          have h1' : j = INT_MAX := h1
          rw [h1'] at h2
          simp at h2
  | succ m ih =>
    intro c fuel j hfuel hpos hlink hend
    obtain ⟨fuel, rfl⟩ : ∃ f, fuel = f + 1 := ⟨fuel - 1, by omega⟩
    obtain ⟨hv, o, ho⟩ := hpos c le_rfl (by omega)
    obtain ⟨tri, hg, hva, hvi⟩ := vertOf_some triVec _ _ a hv
    obtain ⟨x, hx⟩ := Tri.v_total tri _ (cmod_range _ hvi).2
    obtain ⟨s0, hs0⟩ := TriOpp.t_total o _ (cmod_range _ hvi).1
    simp only [ccwWalk, hg, ho, hx]
    by_cases hb : x = b
    · rw [if_pos hb]
      refine ⟨_, rfl, fun _ => rfl, Or.inl rfl, fun _ _ => ⟨s0, ?_⟩⟩
      show slotOf ov (pos c).1 (cmod ((pos c).2 + 1) 3) = some s0
      rw [slotOf_eq ov _ o ho]; exact hs0
    · rw [if_neg hb]
      obtain ⟨⟨s, hs, hne, htri, hvi1⟩, hnstart⟩ := hlink c le_rfl (by omega)
      rw [Option.mem_def, slotOf_eq ov _ o ho] at hs
      have hs' : o.t (cmod ((pos c).2 + 1) DEG) = some s := hs
      have hnst : ¬ s.tri = startIdx := by rw [htri]; exact hnstart
      simp only [hs', if_neg hne, if_neg hnst]
      have hstate : (⟨j + 1, s.tri, cmod (s.vi + 1) DEG⟩ : WalkState) =
          ⟨j + 1, (pos (c + 1)).1, (pos (c + 1)).2⟩ := by
        have hvi2 : cmod (s.vi + 1) DEG = (pos (c + 1)).2 := hvi1
        rw [htri, hvi2]
      rw [hstate]
      have e1 : c + 1 + m = c + (m + 1) := by omega
      obtain ⟨w, hw, hw1, hw2, hw3⟩ := ih (c + 1) fuel (j + 1) (by omega)
        (fun i h1 h2 => hpos i (by omega) (by omega))
        (fun i h1 h2 => hlink i (by omega) (by omega))
        (by rw [e1]; exact hend)
      rw [e1] at hw1
      refine ⟨w, hw, hw1, ?_, fun h1 h2 => hw3 h1 (by push_cast at h2 ⊢; omega)⟩
      rcases hw2 with h | h
      · exact Or.inl h
      · right; push_cast at h ⊢; omega

/-- The second walk along positions `c, c+1, ..., c+m`, each linked to the next by a rotation
the other way and none after `c` in the start triangle, where the last position has the second
vertex of the constraint next: it returns found. -/
theorem cwWalk_run (triVec : List Tri) (ov : List TriOpp) (startIdx a b : Int)
    (pos : Nat → FanPos) :
    ∀ (m c fuel : Nat) (j : Int), m < fuel →
      (∀ i, c ≤ i → i ≤ c + m →
        vertOf triVec (pos i).1 (pos i).2 = some a ∧ ∃ o, getAt ov (pos i).1 = some o) →
      (∀ i, c ≤ i → i < c + m → cwLink ov (pos i) (pos (i + 1)) ∧ (pos (i + 1)).1 ≠ startIdx) →
      vertOf triVec (pos (c + m)).1 (cmod ((pos (c + m)).2 + 1) 3) = some b →
      ∃ w, cwWalk triVec ov startIdx b fuel ⟨j, (pos c).1, (pos c).2⟩ = some w ∧
        w.j = INT_MAX ∧ ∃ s, slotOf ov w.triIdx w.vi = some s := by
  intro m
  induction m with
  | zero =>
    intro c fuel j hfuel hpos _ hend
    obtain ⟨fuel, rfl⟩ : ∃ f, fuel = f + 1 := ⟨fuel - 1, by omega⟩
    obtain ⟨hv, o, ho⟩ := hpos c le_rfl (by omega)
    obtain ⟨tri, hg, hva, hvi⟩ := vertOf_some triVec _ _ a hv
    obtain ⟨s0, hs0⟩ := TriOpp.t_total o _ (cmod_range _ hvi).2
    simp only [Nat.add_zero] at hend
    rw [vertOf_eq triVec _ tri hg] at hend
    simp only [cwWalk, hg, hend, if_pos]
    refine ⟨_, rfl, rfl, s0, ?_⟩
    show slotOf ov (pos c).1 (cmod ((pos c).2 + 2) 3) = some s0
    rw [slotOf_eq ov _ o ho]; exact hs0
  | succ m ih =>
    intro c fuel j hfuel hpos hlink hend
    obtain ⟨fuel, rfl⟩ : ∃ f, fuel = f + 1 := ⟨fuel - 1, by omega⟩
    obtain ⟨hv, o, ho⟩ := hpos c le_rfl (by omega)
    obtain ⟨tri, hg, hva, hvi⟩ := vertOf_some triVec _ _ a hv
    obtain ⟨x, hx⟩ := Tri.v_total tri _ (cmod_range _ hvi).1
    obtain ⟨s0, hs0⟩ := TriOpp.t_total o _ (cmod_range _ hvi).2
    simp only [cwWalk, hg, hx]
    by_cases hb : x = b
    · rw [if_pos hb]
      refine ⟨_, rfl, rfl, s0, ?_⟩
      show slotOf ov (pos c).1 (cmod ((pos c).2 + 2) 3) = some s0
      rw [slotOf_eq ov _ o ho]; exact hs0
    · rw [if_neg hb]
      obtain ⟨⟨s, hs, hne, htri, hvi1⟩, hnstart⟩ := hlink c le_rfl (by omega)
      rw [Option.mem_def, slotOf_eq ov _ o ho] at hs
      have hs' : o.t (cmod ((pos c).2 + 2) DEG) = some s := hs
      have hnst : ¬ s.tri = startIdx := by rw [htri]; exact hnstart
      simp only [ho, hs', if_neg hne, if_neg hnst]
      have hstate : (⟨j + 1, s.tri, cmod (s.vi + 2) DEG⟩ : WalkState) =
          ⟨j + 1, (pos (c + 1)).1, (pos (c + 1)).2⟩ := by
        have hvi2 : cmod (s.vi + 2) DEG = (pos (c + 1)).2 := hvi1
        rw [htri, hvi2]
      rw [hstate]
      have e1 : c + 1 + m = c + (m + 1) := by omega
      exact ih (c + 1) fuel (j + 1) (by omega)
        (fun i h1 h2 => hpos i (by omega) (by omega))
        (fun i h1 h2 => hlink i (by omega) (by omega))
        (by rw [e1]; exact hend)

theorem ccwLink_rel (o1 o2 : List TriOpp) (h : VecRel SlotEqv o1 o2) (p q : FanPos)
    (hl : ccwLink o1 p q) : ccwLink o2 p q := by
  obtain ⟨s, hs, hne, htri, hvi⟩ := hl
  obtain ⟨s1, hs1, r⟩ := (h _ _).1 s hs
  exact ⟨s1, hs1, by rw [← r.1]; exact hne, by rw [← r.1]; exact htri, by rw [← r.2]; exact hvi⟩

theorem cwLink_rel (o1 o2 : List TriOpp) (h : VecRel SlotEqv o1 o2) (p q : FanPos)
    (hl : cwLink o1 p q) : cwLink o2 p q := by
  obtain ⟨s, hs, hne, htri, hvi⟩ := hl
  obtain ⟨s1, hs1, r⟩ := (h _ _).1 s hs
  exact ⟨s1, hs1, by rw [← r.1]; exact hne, by rw [← r.1]; exact htri, by rw [← r.2]; exact hvi⟩

theorem ccwEnd_rel (o1 o2 : List TriOpp) (h : VecRel SlotEqv o1 o2) (p : FanPos)
    (hl : ccwEnd o1 p) : ccwEnd o2 p := by
  obtain ⟨s, hs, hbd⟩ := hl
  obtain ⟨s1, hs1, r⟩ := (h _ _).1 s hs
  exact ⟨s1, hs1, by rw [← r.1]; exact hbd⟩

/-- On a consistent adjacency a rotation can be undone, and the vertex that follows the fan
vertex in the new triangle is the one that precedes it in the old one. -/
theorem ccwLink_back (output : Output) (hcons : Consistent output) (a : Int) (p q : FanPos)
    (hv : vertOf output.triVec p.1 p.2 = some a) (hl : ccwLink output.triOppVec p q) :
    cwLink output.triOppVec q p ∧
      vertOf output.triVec q.1 (cmod (q.2 + 1) 3) =
        vertOf output.triVec p.1 (cmod (p.2 + 2) 3) := by
  obtain ⟨t, v⟩ := p
  obtain ⟨q1, q2⟩ := q
  simp only at hv hl ⊢
  obtain ⟨tri, hg, _, hvi⟩ := vertOf_some _ _ _ a hv
  obtain ⟨ht0, ht1, _⟩ := getAt_some _ t tri hg
  obtain ⟨s, hs, hne, htri, hvi1⟩ := hl
  simp only at hs htri hvi1
  have he := (cmod_range v hvi).1
  have hnm : ∃ n m : Nat, n < output.triVec.length ∧ m < 3 ∧ t = (n : Int) ∧
      cmod (v + 1) 3 = (m : Int) := by
    refine ⟨t.toNat, (cmod (v + 1) 3).toNat, ht1, by omega, by omega, by omega⟩
  obtain ⟨n, m, hn, hm, rfl, hme⟩ := hnm
  rw [hme] at hs
  obtain ⟨⟨s1, hs1, hb1, hb2⟩, _, h2⟩ := hcons n hn m hm s hs hne
  have hsvi := (slotOf_some _ _ _ s1 hs1).2
  obtain ⟨r1, r2, _, _⟩ := cmod_rotate s.vi hsvi
  obtain ⟨r1v, r2v, _, _⟩ := cmod_rotate v hvi
  subst htri
  subst hvi1
  constructor
  · refine ⟨s1, ?_, ?_, hb1, ?_⟩
    · show s1 ∈ slotOf output.triOppVec s.tri (cmod (cmod (s.vi + 1) 3 + 2) 3)
      rw [r2]; exact hs1
    · rw [hb1]; omega
    · show cmod (s1.vi + 2) 3 = v
      rw [hb2, ← hme, r2v]
  · show vertOf output.triVec s.tri (cmod (cmod (s.vi + 1) 3 + 1) 3) = _
    rw [r1, h2, ← hme, r1v]

/-- The found branch returns when the slot has a neighbour whose named slot exists. -/
theorem markFound_total (ov : List TriOpp) (t vi : Int) (s : OppSlot)
    (hs : slotOf ov t vi = some s) (hback : ∃ s2, slotOf ov s.tri s.vi = some s2) :
    ∃ ov1, markFound ov t vi = some ov1 := by
  unfold slotOf at hs
  cases hg : getAt ov t with
  | none => rw [hg] at hs; exact absurd hs (by simp)
  | some opp =>
    rw [hg] at hs
    simp only [Option.some_bind] at hs
    have hset : ∃ opp1, opp.setOppConstraint vi true = some opp1 := by
      unfold TriOpp.setOppConstraint
      rw [hs]
      rcases TriOpp.t_some opp vi s hs with rfl | rfl | rfl
      · exact ⟨_, rfl⟩
      · exact ⟨_, rfl⟩
      · exact ⟨_, rfl⟩
    obtain ⟨opp1, hopp1⟩ := hset
    obtain ⟨ov1, hov1, _⟩ := setAt_of_getAt ov t opp opp1 hg
    obtain ⟨s0, _, hall⟩ := slotOf_setBit ov ov1 t vi true opp opp1 hg hopp1 hov1
    obtain ⟨s2, hs2⟩ := hback
    have hs2' : ∃ s3, slotOf ov1 s.tri s.vi = some s3 := by
      rw [hall s.tri s.vi]
      by_cases hc : s.tri = t ∧ s.vi = vi
      · rw [if_pos hc]; exact ⟨_, rfl⟩
      · rw [if_neg hc]; exact ⟨s2, hs2⟩
    obtain ⟨s3, hs3⟩ := hs2'
    unfold slotOf at hs3
    cases hg2 : getAt ov1 s.tri with
    | none => rw [hg2] at hs3; exact absurd hs3 (by simp)
    | some opp2 =>
      rw [hg2] at hs3
      simp only [Option.some_bind] at hs3
      have hset2 : ∃ opp3, opp2.setOppConstraint s.vi true = some opp3 := by
        unfold TriOpp.setOppConstraint
        rw [hs3]
        rcases TriOpp.t_some opp2 s.vi s3 hs3 with h | h | h <;> rw [h] <;> exact ⟨_, rfl⟩
      obtain ⟨opp3, hopp3⟩ := hset2
      obtain ⟨ov2, hov2, _⟩ := setAt_of_getAt ov1 s.tri opp2 opp3 hg2
      refine ⟨ov2, ?_⟩
      unfold markFound
      simp only [hg, TriOpp.getOppTri, TriOpp.getOppVi, hs, Option.map_some', hopp1, hov1, hg2,
        hopp3, hov2]

theorem slotOf_getAt (o : List TriOpp) (t e : Int) (s : OppSlot) (h : slotOf o t e = some s) :
    ∃ opp, getAt o t = some opp ∧ opp.t e = some s := by
  unfold slotOf at h
  cases hg : getAt o t with
  | none => rw [hg] at h; exact absurd h (by simp)
  | some opp =>
    rw [hg] at h
    exact ⟨opp, rfl, h⟩

/-- Every position of a fan has its word across the edge of the first walk. -/
theorem fan_slot (output : Output) (a : Int) (fan : List FanPos) (closed : Bool)
    (hfan : IsFan output a fan closed) (k : Nat) (hk : k < fan.length) :
    ∃ s, slotOf output.triOppVec (fanAt fan k).1 (cmod ((fanAt fan k).2 + 1) 3) = some s := by
  obtain ⟨_, _, _, _, hlink, hclosed, hopen, _⟩ := hfan
  by_cases hlast : k < fan.length - 1
  · obtain ⟨s, hs, _⟩ := hlink k hlast
    exact ⟨s, hs⟩
  · have hk1 : k = fan.length - 1 := by omega
    subst hk1
    cases closed with
    | true =>
      obtain ⟨s, hs, _⟩ := hclosed rfl
      exact ⟨s, hs⟩
    | false =>
      obtain ⟨s, hs, _⟩ := (hopen rfl).1
      exact ⟨s, hs⟩

theorem fan_opp (output : Output) (a : Int) (fan : List FanPos) (closed : Bool)
    (hfan : IsFan output a fan closed) (ov : List TriOpp)
    (hrel : VecRel SlotEqv output.triOppVec ov) (k : Nat) (hk : k < fan.length) :
    ∃ o, getAt ov (fanAt fan k).1 = some o := by
  obtain ⟨s, hs⟩ := fan_slot output a fan closed hfan k hk
  obtain ⟨s1, hs1, _⟩ := (hrel _ _).1 s hs
  obtain ⟨opp, hopp, _⟩ := slotOf_getAt ov _ _ s1 hs1
  exact ⟨opp, hopp⟩

/-- In a fan around the first vertex of an interior constraint edge, some position has the
second vertex of the constraint as the vertex that the first walk tests. -/
theorem fan_has_edge (output : Output) (hcons : Consistent output) (c : Edge)
    (fan : List FanPos) (closed : Bool) (hfan : IsFan output c.v0 fan closed)
    (hint : InteriorEdge output c) :
    ∃ k, k < fan.length ∧
      vertOf output.triVec (fanAt fan k).1 (cmod ((fanAt fan k).2 + 2) 3) = some c.v1 := by
  have hfan' := hfan
  obtain ⟨hn0, _, hvert, _, hlink, hclosed, hopen, hcover⟩ := hfan
  obtain ⟨⟨t, ht, e, he, hjoin⟩, hinterior⟩ := hint
  have heI : ((e : Int) = 0 ∨ (e : Int) = 1 ∨ (e : Int) = 2) := by omega
  obtain ⟨r1, r2, r3, r4⟩ := cmod_rotate (e : Int) heI
  obtain ⟨c1, c2⟩ := cmod_range (e : Int) heI
  rcases hjoin with ⟨ha, hb⟩ | ⟨hb, ha⟩
  · -- the fan vertex is at slot `(e + 1) % 3`, the other vertex follows it
    have hi : ∃ i : Nat, i < 3 ∧ cmod ((e : Int) + 1) 3 = (i : Int) :=
      ⟨(cmod ((e : Int) + 1) 3).toNat, by omega, by omega⟩
    obtain ⟨i, hi3, hie⟩ := hi
    rw [hie] at ha
    obtain ⟨k, hk, hpk⟩ := hcover t ht i hi3 ha
    have hp : vertOf output.triVec (fanAt fan k).1 (cmod ((fanAt fan k).2 + 1) 3) =
        some c.v1 := by
      rw [hpk]; show vertOf output.triVec (t : Int) (cmod ((i : Int) + 1) 3) = some c.v1
      rw [← hie, r1]; exact hb
    have hcwslot : ∀ s ∈ slotOf output.triOppVec (fanAt fan k).1
        (cmod ((fanAt fan k).2 + 2) 3), s.tri ≠ -1 := by
      intro s hs
      rw [hpk] at hs
      have hs' : s ∈ slotOf output.triOppVec (t : Int) (cmod ((i : Int) + 2) 3) := hs
      rw [← hie, r2] at hs'
      exact hinterior t ht e he (Or.inl ⟨by rw [hie]; exact ha, hb⟩) s hs'
    -- the position before `k` in the fan
    have hprev : ∃ k0, k0 < fan.length ∧
        ccwLink output.triOppVec (fanAt fan k0) (fanAt fan k) := by
      by_cases hk0 : k = 0
      · subst hk0
        cases closed with
        | true => exact ⟨fan.length - 1, by omega, hclosed rfl⟩
        | false =>
          obtain ⟨s, hs, hbd⟩ := (hopen rfl).2
          exact absurd hbd (hcwslot s hs)
      · refine ⟨k - 1, by omega, ?_⟩
        have := hlink (k - 1) (by omega)
        rw [Nat.sub_add_cancel (by omega)] at this
        exact this
    obtain ⟨k0, hk0, hl0⟩ := hprev
    refine ⟨k0, hk0, ?_⟩
    rw [← (ccwLink_back output hcons c.v0 _ _ (hvert k0 hk0) hl0).2]
    exact hp
  · -- the fan vertex is at slot `(e + 2) % 3`, the other vertex precedes it
    have hi : ∃ i : Nat, i < 3 ∧ cmod ((e : Int) + 2) 3 = (i : Int) :=
      ⟨(cmod ((e : Int) + 2) 3).toNat, by omega, by omega⟩
    obtain ⟨i, hi3, hie⟩ := hi
    rw [hie] at ha
    obtain ⟨k, hk, hpk⟩ := hcover t ht i hi3 ha
    refine ⟨k, hk, ?_⟩
    rw [hpk]
    show vertOf output.triVec (t : Int) (cmod ((i : Int) + 2) 3) = some c.v1
    rw [← hie, r4]; exact hb

/-- The walks around the centre of an open fan, from position `ks`, reach a position `k` that
has the second vertex of the constraint next: the first walk when `ks ≤ k`, and otherwise the
first walk runs to the boundary and the second walk reaches position `k + 1`. -/
theorem walk_open_fan (output : Output) (hcons : Consistent output) (ov : List TriOpp)
    (hrel : VecRel SlotEqv output.triOppVec ov) (a b : Int) (fan : List FanPos)
    (hfan : IsFan output a fan false) (startIdx vi0 : Int) (ks k : Nat)
    (hks : ks < fan.length) (hk : k < fan.length) (hpks : fanAt fan ks = (startIdx, vi0))
    (hq : vertOf output.triVec (fanAt fan k).1 (cmod ((fanAt fan k).2 + 2) 3) = some b) :
    ∃ w1, ccwWalk output.triVec ov startIdx b MaxWalking.toNat ⟨0, startIdx, vi0⟩ = some w1 ∧
      ((w1.j = INT_MAX ∧ ∃ s, slotOf ov w1.triIdx w1.vi = some s) ∨ (w1.j < MaxWalking ∧
        ∃ w2, cwWalk output.triVec ov startIdx b (MaxWalking - w1.j).toNat
          ⟨w1.j, startIdx, vi0⟩ = some w2 ∧ w2.j = INT_MAX ∧
            ∃ s, slotOf ov w2.triIdx w2.vi = some s)) := by
  have hopp := fan_opp output a fan false hfan ov hrel
  obtain ⟨hn0, hn1, hvert, hdist, hlink, _, hopen, _⟩ := hfan
  have hMW : MaxWalking.toNat = 1000000 := rfl
  have hs1 : (fanAt fan ks).1 = startIdx := by rw [hpks]
  have hs2 : (fanAt fan ks).2 = vi0 := by rw [hpks]
  have hne : ∀ i, i < fan.length → i ≠ ks → (fanAt fan i).1 ≠ startIdx := by
    intro i hi hik heq
    exact hik (hdist i hi ks hks (by rw [heq, hs1]))
  by_cases hle : ks ≤ k
  · obtain ⟨w, hw, hfound, _, hslot⟩ := ccwWalk_run output.triVec ov startIdx a b (fanAt fan)
      (k - ks) ks MaxWalking.toNat 0 (by omega)
      (fun i _ _ => ⟨hvert i (by omega), hopp i (by omega)⟩)
      (fun i _ _ => ⟨ccwLink_rel _ _ hrel _ _ (hlink i (by omega)),
        hne (i + 1) (by omega) (by omega)⟩)
      (Or.inl (by rw [show ks + (k - ks) = k by omega]; exact hq))
    rw [hs1, hs2] at hw
    have hj : w.j = INT_MAX := hfound (by rw [show ks + (k - ks) = k by omega]; exact hq)
    exact ⟨w, hw, Or.inl ⟨hj, hslot hj (by unfold INT_MAX; omega)⟩⟩
  · have hlk : ccwLink output.triOppVec (fanAt fan k) (fanAt fan (k + 1)) :=
      hlink k (by omega)
    have hp : vertOf output.triVec (fanAt fan (k + 1)).1
        (cmod ((fanAt fan (k + 1)).2 + 1) 3) = some b := by
      rw [(ccwLink_back output hcons a _ _ (hvert k hk) hlk).2]; exact hq
    obtain ⟨w1, hw1, _, hj, hslot⟩ := ccwWalk_run output.triVec ov startIdx a b (fanAt fan)
      (fan.length - 1 - ks) ks MaxWalking.toNat 0 (by omega)
      (fun i _ _ => ⟨hvert i (by omega), hopp i (by omega)⟩)
      (fun i _ _ => ⟨ccwLink_rel _ _ hrel _ _ (hlink i (by omega)),
        hne (i + 1) (by omega) (by omega)⟩)
      (Or.inr (by
        rw [show ks + (fan.length - 1 - ks) = fan.length - 1 by omega]
        exact ccwEnd_rel _ _ hrel _ (hopen rfl).1))
    rw [hs1, hs2] at hw1
    refine ⟨w1, hw1, ?_⟩
    rcases hj with hj | hj
    · exact Or.inl ⟨hj, hslot hj (by unfold INT_MAX; omega)⟩
    · have hjlt : w1.j < MaxWalking := by unfold MaxWalking; omega
      refine Or.inr ⟨hjlt, ?_⟩
      obtain ⟨w2, hw2, hj2⟩ := cwWalk_run output.triVec ov startIdx a b
        (fun i => fanAt fan (ks - i)) (ks - (k + 1)) 0 (MaxWalking - w1.j).toNat w1.j
        (by unfold MaxWalking; omega)
        (fun i _ _ => ⟨hvert (ks - i) (by omega), hopp (ks - i) (by omega)⟩)
        (fun i _ hi => by
          have hi' : i < ks - (k + 1) := by omega
          have hl := hlink (ks - (i + 1)) (by omega)
          rw [show ks - (i + 1) + 1 = ks - i by omega] at hl
          exact ⟨cwLink_rel _ _ hrel _ _
            (ccwLink_back output hcons a _ _ (hvert (ks - (i + 1)) (by omega)) hl).1,
            hne (ks - (i + 1)) (by omega) (by omega)⟩)
        (by
          show vertOf output.triVec (fanAt fan (ks - (0 + (ks - (k + 1))))).1
            (cmod ((fanAt fan (ks - (0 + (ks - (k + 1))))).2 + 1) 3) = some b
          rw [show ks - (0 + (ks - (k + 1))) = k + 1 by omega]; exact hp)
      have hw2' : cwWalk output.triVec ov startIdx b (MaxWalking - w1.j).toNat
          ⟨w1.j, (fanAt fan ks).1, (fanAt fan ks).2⟩ = some w2 := hw2
      rw [hs1, hs2] at hw2'
      exact ⟨w2, hw2', hj2⟩

/-- The first walk around the centre of a closed fan, from position `ks`, reaches a position
`k` that has the second vertex of the constraint next. -/
theorem walk_closed_fan (output : Output) (ov : List TriOpp)
    (hrel : VecRel SlotEqv output.triOppVec ov) (a b : Int) (fan : List FanPos)
    (hfan : IsFan output a fan true) (startIdx vi0 : Int) (ks k : Nat)
    (hks : ks < fan.length) (hk : k < fan.length) (hpks : fanAt fan ks = (startIdx, vi0))
    (hq : vertOf output.triVec (fanAt fan k).1 (cmod ((fanAt fan k).2 + 2) 3) = some b) :
    ∃ w1, ccwWalk output.triVec ov startIdx b MaxWalking.toNat ⟨0, startIdx, vi0⟩ = some w1 ∧
      w1.j = INT_MAX ∧ ∃ s, slotOf ov w1.triIdx w1.vi = some s := by
  have hopp := fan_opp output a fan true hfan ov hrel
  obtain ⟨hn0, hn1, hvert, hdist, hlink, hclosed, _, _⟩ := hfan
  have hMW : MaxWalking.toNat = 1000000 := rfl
  have hs1 : (fanAt fan ks).1 = startIdx := by rw [hpks]
  have hs2 : (fanAt fan ks).2 = vi0 := by rw [hpks]
  have hne : ∀ i, i < fan.length → i ≠ ks → (fanAt fan i).1 ≠ startIdx := by
    intro i hi hik heq
    exact hik (hdist i hi ks hks (by rw [heq, hs1]))
  -- the positions of the fan, taken around twice
  have hposlt : ∀ i, i < fan.length →
      (fun i => if i < fan.length then fanAt fan i else fanAt fan (i - fan.length)) i =
        fanAt fan i := fun i hi => if_pos hi
  have hposge : ∀ i, ¬ i < fan.length →
      (fun i => if i < fan.length then fanAt fan i else fanAt fan (i - fan.length)) i =
        fanAt fan (i - fan.length) := fun i hi => if_neg hi
  have hm : ∃ m, m < fan.length ∧ (ks + m = k ∨ ks + m = k + fan.length) := by
    by_cases hle : ks ≤ k
    · exact ⟨k - ks, by omega, Or.inl (by omega)⟩
    · exact ⟨k + fan.length - ks, by omega, Or.inr (by omega)⟩
  obtain ⟨m, hmlt, hmk⟩ := hm
  have hend : vertOf output.triVec
      ((fun i => if i < fan.length then fanAt fan i else fanAt fan (i - fan.length))
        (ks + m)).1
      (cmod (((fun i => if i < fan.length then fanAt fan i else fanAt fan (i - fan.length))
        (ks + m)).2 + 2) 3) = some b := by
    rcases hmk with h | h
    · rw [hposlt _ (by omega), h]; exact hq
    · rw [hposge _ (by omega), show ks + m - fan.length = k by omega]; exact hq
  obtain ⟨w, hw, hfound, _, hslot⟩ := ccwWalk_run output.triVec ov startIdx a b
    (fun i => if i < fan.length then fanAt fan i else fanAt fan (i - fan.length))
    m ks MaxWalking.toNat 0 (by omega)
    (fun i _ _ => by
      by_cases hi : i < fan.length
      · rw [hposlt i hi]; exact ⟨hvert i hi, hopp i hi⟩
      · rw [hposge i hi]
        exact ⟨hvert _ (by omega), hopp _ (by omega)⟩)
    (fun i _ _ => by
      by_cases hi : i + 1 < fan.length
      · rw [hposlt i (by omega), hposlt (i + 1) hi]
        exact ⟨ccwLink_rel _ _ hrel _ _ (hlink i (by omega)), hne (i + 1) hi (by omega)⟩
      · by_cases hi2 : i < fan.length
        · rw [hposlt i hi2, hposge (i + 1) hi]
          have hi3 : i = fan.length - 1 := by omega
          rw [show i + 1 - fan.length = 0 by omega, hi3]
          exact ⟨ccwLink_rel _ _ hrel _ _ (hclosed rfl), hne 0 hn0 (by omega)⟩
        · rw [hposge i hi2, hposge (i + 1) hi]
          have hl := hlink (i - fan.length) (by omega)
          rw [show i - fan.length + 1 = i + 1 - fan.length by omega] at hl
          exact ⟨ccwLink_rel _ _ hrel _ _ hl, hne _ (by omega) (by omega)⟩)
    (Or.inl hend)
  rw [if_pos hks, hs1, hs2] at hw
  exact ⟨w, hw, hfound hend, hslot (hfound hend) (by unfold INT_MAX; omega)⟩

/-- The two walks of a constraint that is an interior edge, around a first vertex whose
triangles form a single fan, from a triangle of that vertex: they return, found, on a slot that
exists. -/
theorem walkBoth_finds (output : Output) (hcons : Consistent output) (ov : List TriOpp)
    (hrel : VecRel SlotEqv output.triOppVec ov) (c : Edge) (hfe : FanEdge output c)
    (startIdx : Int)
    (hstart : ∃ tri, getAt output.triVec startIdx = some tri ∧
      (tri.v0 = c.v0 ∨ tri.v1 = c.v0 ∨ tri.v2 = c.v0)) :
    ∃ w, walkBoth output.triVec ov startIdx c = some w ∧ w.j = INT_MAX ∧
      ∃ s, slotOf ov w.triIdx w.vi = some s := by
  obtain ⟨hint, fan, closed, hfan⟩ := hfe
  obtain ⟨tri, htri, hmem⟩ := hstart
  have hv := Tri.v_getIndexOf tri c.v0 hmem
  have hidx := Tri.v_some tri _ _ hv
  obtain ⟨h0, hlt, _⟩ := getAt_some _ _ _ htri
  have hcover := hfan.2.2.2.2.2.2.2
  have hks : ∃ ks, ks < fan.length ∧ fanAt fan ks = (startIdx, tri.getIndexOf c.v0) := by
    have hc := hcover startIdx.toNat hlt (tri.getIndexOf c.v0).toNat (by omega)
      (by
        rw [Int.toNat_of_nonneg h0, Int.toNat_of_nonneg (by omega),
          vertOf_eq _ _ tri htri]
        exact hv)
    rw [Int.toNat_of_nonneg h0, Int.toNat_of_nonneg (by omega)] at hc
    exact hc
  obtain ⟨ks, hks, hpks⟩ := hks
  obtain ⟨k, hk, hq⟩ := fan_has_edge output hcons c fan closed hfan hint
  have hnlt : ¬ INT_MAX < MaxWalking := by decide
  unfold walkBoth
  rw [htri]
  simp only
  cases closed with
  | true =>
    obtain ⟨w1, hw1, hj, hslot⟩ := walk_closed_fan output ov hrel c.v0 c.v1 fan hfan
      startIdx _ ks k hks hk hpks hq
    rw [hw1]
    simp only
    rw [if_neg (by rw [hj]; exact hnlt)]
    exact ⟨w1, rfl, hj, hslot⟩
  | false =>
    obtain ⟨w1, hw1, ⟨hj, hslot⟩ | ⟨hjlt, w2, hw2, hj2, hslot2⟩⟩ :=
      walk_open_fan output hcons ov hrel c.v0 c.v1 fan hfan startIdx _ ks k hks hk hpks hq
    · rw [hw1]
      simp only
      rw [if_neg (by rw [hj]; exact hnlt)]
      exact ⟨w1, rfl, hj, hslot⟩
    · rw [hw1]
      simp only
      rw [if_pos hjlt]
      exact ⟨w2, hw2, hj2, hslot2⟩

theorem Tri.v_mem (tri : Tri) (i a : Int) (h : tri.v i = some a) :
    tri.v0 = a ∨ tri.v1 = a ∨ tri.v2 = a := by
  rcases Tri.v_some tri i a h with rfl | rfl | rfl
  · exact Or.inl (Option.some.inj h)
  · exact Or.inr (Or.inl (Option.some.inj h))
  · exact Or.inr (Or.inr (Option.some.inj h))

/-- The body of the loop over the constraints for a constraint that is an interior edge with a
single fan around its first vertex, on a map that has a triangle for every vertex of the
triangles: it returns, the constraint ends found, and `failNum` and the skipped list are
unchanged. -/
theorem checkOne_finds (output : Output) (hcons : Consistent output) (m : List Int)
    (hm : MapOK output.triVec m)
    (hcov : ∀ (t : Int) (tri : Tri), getAt output.triVec t = some tri → ∀ v : Int,
      (tri.v0 = v ∨ tri.v1 = v ∨ tri.v2 = v) → ∃ s, getAt m v = some s ∧ 0 ≤ s)
    (consVec : List Edge) (i : Nat) (c : Edge) (hc : getAt consVec (i : Int) = some c)
    (hfe : FanEdge output c) (st : ConsState)
    (hrel : VecRel SlotEqv output.triOppVec st.oppVec) :
    ∃ st1 t vi, checkOne output.triVec m consVec i st = some st1 ∧
      st1.walks = st.walks ++ [Walk.ended INT_MAX t vi] ∧
      st1.skipped = st.skipped ∧ st1.failNum = st.failNum := by
  have hint := hfe.1
  -- the first vertex of the constraint is in a triangle, so the map has a start triangle
  obtain ⟨⟨t0, _, e0, _, hjoin⟩, hinterior⟩ := hint
  have hin : ∃ (t : Int) (tri : Tri), getAt output.triVec t = some tri ∧
      (tri.v0 = c.v0 ∨ tri.v1 = c.v0 ∨ tri.v2 = c.v0) := by
    rcases hjoin with ⟨ha, _⟩ | ⟨_, ha⟩
    · obtain ⟨tri, hg, hv, _⟩ := vertOf_some _ _ _ _ ha
      exact ⟨_, tri, hg, Tri.v_mem tri _ _ hv⟩
    · obtain ⟨tri, hg, hv, _⟩ := vertOf_some _ _ _ _ ha
      exact ⟨_, tri, hg, Tri.v_mem tri _ _ hv⟩
  obtain ⟨t1, tri1, hg1, hmem1⟩ := hin
  obtain ⟨startIdx, hmap, hnn⟩ := hcov t1 tri1 hg1 c.v0 hmem1
  have hstart : ∃ tri, getAt output.triVec startIdx = some tri ∧
      (tri.v0 = c.v0 ∨ tri.v1 = c.v0 ∨ tri.v2 = c.v0) := by
    rcases hm c.v0 startIdx hmap with h | h
    · omega
    · exact h
  obtain ⟨w, hw, hj, s, hs⟩ := walkBoth_finds output hcons st.oppVec hrel c hfe startIdx hstart
  have hlinkok := linkOK_of_consistent output hcons st.oppVec hrel
  obtain ⟨tri, x, y, hgt, hx, hy, hxy⟩ :=
    walkBoth_spec output.triVec st.oppVec hlinkok startIdx c w hstart hw hj
  obtain ⟨_, hvi⟩ := slotOf_some _ _ _ _ hs
  obtain ⟨ht0, htlt, _⟩ := getAt_some _ _ _ hgt
  -- the slot found is not on the boundary, and the slot it names exists
  obtain ⟨s0, hs0, heqv⟩ := (hrel w.triIdx w.vi).2 s hs
  have hjoinw : EdgeJoins output.triVec c ((w.triIdx.toNat : Nat) : Int)
      ((w.vi.toNat : Nat) : Int) := by
    rw [Int.toNat_of_nonneg ht0, Int.toNat_of_nonneg (by omega)]
    unfold EdgeJoins
    rw [vertOf_eq _ _ tri hgt, vertOf_eq _ _ tri hgt, hx, hy]
    rcases hxy with ⟨h1, h2⟩ | ⟨h1, h2⟩
    · exact Or.inl ⟨by rw [h1], by rw [h2]⟩
    · exact Or.inr ⟨by rw [h1], by rw [h2]⟩
  have hs0' : s0 ∈ slotOf output.triOppVec ((w.triIdx.toNat : Nat) : Int)
      ((w.vi.toNat : Nat) : Int) := by
    rw [Int.toNat_of_nonneg ht0, Int.toNat_of_nonneg (by omega)]
    exact hs0
  have hnb : s0.tri ≠ -1 := hinterior w.triIdx.toNat htlt w.vi.toNat (by omega) hjoinw s0 hs0'
  obtain ⟨⟨sb, hsb, _⟩, _⟩ := hcons w.triIdx.toNat htlt w.vi.toNat (by omega) s0 hs0' hnb
  obtain ⟨sb1, hsb1, _⟩ := (hrel s0.tri s0.vi).1 sb hsb
  have hback : ∃ s2, slotOf st.oppVec s.tri s.vi = some s2 := by
    rw [← heqv.1, ← heqv.2]; exact ⟨sb1, hsb1⟩
  obtain ⟨ov1, hov1⟩ := markFound_total st.oppVec w.triIdx w.vi s hs hback
  refine ⟨⟨ov1, st.walks ++ [Walk.ended w.j w.triIdx w.vi], st.skipped, st.failNum⟩,
    w.triIdx, w.vi, ?_, by rw [hj], rfl, rfl⟩
  unfold checkOne
  rw [hc]
  simp only
  rw [hmap]
  simp only
  rw [if_neg (by omega), hw]
  simp only
  rw [if_pos hj, hov1]

theorem setAt_total {α : Type} (l : List α) (i : Int) (x : α) (h0 : 0 ≤ i)
    (h1 : i < (l.length : Int)) : ∃ l1, setAt l i x = some l1 ∧ l1.length = l.length := by
  unfold setAt
  rw [if_pos ⟨h0, by omega⟩]
  exact ⟨_, rfl, List.length_set _ _ _⟩

/-- A write of a triangle index into the vertex to triangle map gives the written vertex a
triangle and keeps the triangle of every vertex that had one. -/
theorem setAt_covered (m m1 : List Int) (v x : Int) (hx : 0 ≤ x) (h : setAt m v x = some m1) :
    (∃ s, getAt m1 v = some s ∧ 0 ≤ s) ∧
      ∀ u, (∃ s, getAt m u = some s ∧ 0 ≤ s) → ∃ s, getAt m1 u = some s ∧ 0 ≤ s := by
  have hget := getAt_setAt m m1 v x h
  constructor
  · exact ⟨x, by rw [hget, if_pos rfl], hx⟩
  · intro u ⟨s, hs, hs0⟩
    by_cases hu : u = v
    · exact ⟨x, by rw [hget, if_pos hu], hx⟩
    · exact ⟨s, by rw [hget, if_neg hu]; exact hs, hs0⟩

/-- The body of the loop that fills the vertex to triangle map, on a triangle whose vertices
are points: it returns, and the vertices of the triangles so far have a triangle. -/
theorem fillTri_covers (triVec : List Tri) (pointNum : Nat)
    (hverts : ∀ tri ∈ triVec, (0 ≤ tri.v0 ∧ tri.v0 < pointNum) ∧
      (0 ≤ tri.v1 ∧ tri.v1 < pointNum) ∧ (0 ≤ tri.v2 ∧ tri.v2 < pointNum))
    (i : Nat) (hi : i < triVec.length) (m : List Int) (hlen : m.length = pointNum)
    (hprev : ∀ t : Nat, t < i → ∀ tri, triVec[t]? = some tri → ∀ v : Int,
      (tri.v0 = v ∨ tri.v1 = v ∨ tri.v2 = v) → ∃ s, getAt m v = some s ∧ 0 ≤ s) :
    ∃ m1, fillTri triVec i m = some m1 ∧ m1.length = pointNum ∧
      ∀ t : Nat, t < i + 1 → ∀ tri, triVec[t]? = some tri → ∀ v : Int,
        (tri.v0 = v ∨ tri.v1 = v ∨ tri.v2 = v) → ∃ s, getAt m1 v = some s ∧ 0 ≤ s := by
  have hg : getAt triVec (i : Int) = some triVec[i] := by
    rw [getAt_natCast]; exact List.getElem?_eq_getElem hi
  obtain ⟨h0, h1, h2⟩ := hverts triVec[i] (List.getElem_mem hi)
  obtain ⟨m1, hm1, hl1⟩ := setAt_total m triVec[i].v0 (i : Int) h0.1 (by rw [hlen]; exact h0.2)
  obtain ⟨m2, hm2, hl2⟩ := setAt_total m1 triVec[i].v1 (i : Int) h1.1
    (by rw [hl1, hlen]; exact h1.2)
  obtain ⟨m3, hm3, hl3⟩ := setAt_total m2 triVec[i].v2 (i : Int) h2.1
    (by rw [hl2, hl1, hlen]; exact h2.2)
  obtain ⟨c1, k1⟩ := setAt_covered m m1 _ _ (by omega) hm1
  obtain ⟨c2, k2⟩ := setAt_covered m1 m2 _ _ (by omega) hm2
  obtain ⟨c3, k3⟩ := setAt_covered m2 m3 _ _ (by omega) hm3
  refine ⟨m3, ?_, by rw [hl3, hl2, hl1, hlen], ?_⟩
  · unfold fillTri
    rw [hg]
    simp only
    rw [hm1]
    simp only
    rw [hm2]
    simp only
    exact hm3
  · intro t ht tri htri v hv
    by_cases hti : t < i
    · exact k3 v (k2 v (k1 v (hprev t hti tri htri v hv)))
    · have hti' : t = i := by omega
      subst hti'
      rw [List.getElem?_eq_getElem hi] at htri
      simp only [Option.some.injEq] at htri
      subst htri
      rcases hv with rfl | rfl | rfl
      · exact k3 _ (k2 _ c1)
      · exact k3 _ c2
      · exact c3

/-- The loop that fills the vertex to triangle map, on a mesh whose vertices are points: it
returns, and every vertex of every triangle has a triangle in the map. -/
theorem fillMap_covers (triVec : List Tri) (pointNum : Nat)
    (hverts : ∀ tri ∈ triVec, (0 ≤ tri.v0 ∧ tri.v0 < pointNum) ∧
      (0 ≤ tri.v1 ∧ tri.v1 < pointNum) ∧ (0 ≤ tri.v2 ∧ tri.v2 < pointNum)) :
    ∃ m, loopFrom (fillTri triVec) triVec.length 0 (List.replicate pointNum (-1)) = some m ∧
      ∀ (t : Int) (tri : Tri), getAt triVec t = some tri → ∀ v : Int,
        (tri.v0 = v ∨ tri.v1 = v ∨ tri.v2 = v) → ∃ s, getAt m v = some s ∧ 0 ≤ s := by
  obtain ⟨m, hm, _, hcov⟩ := loopFrom_total (fillTri triVec)
    (fun i m => m.length = pointNum ∧
      ∀ t : Nat, t < i → ∀ tri, triVec[t]? = some tri → ∀ v : Int,
        (tri.v0 = v ∨ tri.v1 = v ∨ tri.v2 = v) → ∃ s, getAt m v = some s ∧ 0 ≤ s)
    triVec.length 0 (List.replicate pointNum (-1))
    ⟨List.length_replicate _ _, fun t ht => absurd ht (by omega)⟩
    (fun j s _ hj ⟨hlen, hprev⟩ =>
      fillTri_covers triVec pointNum hverts j (by omega) s hlen hprev)
  refine ⟨m, hm, ?_⟩
  intro t tri htri v hv
  obtain ⟨_, hlt, hget⟩ := getAt_some triVec t tri htri
  exact hcov t.toNat (by omega) tri hget v hv

theorem TriOpp.setOppConstraint_total (o : TriOpp) (i : Int) (val : Bool)
    (h : i = 0 ∨ i = 1 ∨ i = 2) : ∃ o1, o.setOppConstraint i val = some o1 := by
  rcases h with rfl | rfl | rfl
  · exact ⟨_, rfl⟩
  · exact ⟨_, rfl⟩
  · exact ⟨_, rfl⟩

theorem clearSlot_total (i j : Nat) (hj : j < 3) (o : List TriOpp) (hi : i < o.length) :
    ∃ o1, clearSlot i j o = some o1 ∧ o1.length = o.length := by
  obtain ⟨opp, hopp⟩ := getAt_isSome o i hi
  obtain ⟨s, hs⟩ := TriOpp.t_lt_three opp j hj
  unfold clearSlot
  rw [hopp]
  simp only
  rw [hs]
  simp only
  by_cases hbd : s.tri ≠ -1
  · rw [if_pos hbd]
    obtain ⟨opp1, hopp1⟩ := TriOpp.setOppConstraint_total opp (j : Int) false (by omega)
    rw [hopp1]
    simp only
    exact setAt_of_getAt o (i : Int) opp opp1 hopp
  · rw [if_neg hbd]
    exact ⟨o, rfl, rfl⟩

theorem clearTri_total (i : Nat) (o : List TriOpp) (hi : i < o.length) :
    ∃ o1, clearTri i o = some o1 ∧ o1.length = o.length := by
  unfold clearTri
  obtain ⟨o1, h1, h2⟩ := loopFrom_total (clearSlot i) (fun _ x => x.length = o.length)
    3 0 o rfl
    (fun j s _ hj hlen => by
      obtain ⟨s1, hs1, hl1⟩ := clearSlot_total i j (by omega) s (by omega)
      exact ⟨s1, hs1, hl1.trans hlen⟩)
  exact ⟨o1, h1, h2⟩

/-- The clear pass over no more triangles than there are opposites returns. -/
theorem clearPass_total (n : Nat) (o : List TriOpp) (hn : n ≤ o.length) :
    ∃ o1, loopFrom clearTri n 0 o = some o1 := by
  obtain ⟨o1, h1, _⟩ := loopFrom_total clearTri (fun _ x => x.length = o.length)
    n 0 o rfl
    (fun j s _ hj hlen => by
      obtain ⟨s1, hs1, hl1⟩ := clearTri_total j s (by omega)
      exact ⟨s1, hs1, hl1.trans hlen⟩)
  exact ⟨o1, h1⟩

/-- After the loop over the constraints, every constraint that is an interior edge with a
single fan around its first vertex ended found. -/
theorem checkLoop_finds (output : Output) (hcons : Consistent output) (m : List Int)
    (hm : MapOK output.triVec m)
    (hcov : ∀ (t : Int) (tri : Tri), getAt output.triVec t = some tri → ∀ v : Int,
      (tri.v0 = v ∨ tri.v1 = v ∨ tri.v2 = v) → ∃ s, getAt m v = some s ∧ 0 ≤ s)
    (consVec : List Edge) (ov0 : List TriOpp)
    (h0 : VecRel SlotEqv output.triOppVec ov0) (st : ConsState)
    (h : loopFrom (checkOne output.triVec m consVec) consVec.length 0 ⟨ov0, [], [], 0⟩ = some st) :
    ∀ (n : Nat) (c : Edge), consVec[n]? = some c → FanEdge output c →
      ∃ t vi, st.walks[n]? = some (Walk.ended INT_MAX t vi) := by
  have key := loopFrom_inv (checkOne output.triVec m consVec)
    (fun k x => VecRel SlotEqv output.triOppVec x.oppVec ∧ x.walks.length = k ∧
      ∀ (n : Nat) (c : Edge), n < k → consVec[n]? = some c → FanEdge output c →
        ∃ t vi, x.walks[n]? = some (Walk.ended INT_MAX t vi))
    consVec.length 0 ⟨ov0, [], [], 0⟩ st
    ⟨h0, rfl, fun n c hn => absurd hn (by omega)⟩
    (by
      intro i x x1 _ _ ⟨hrel, hlen, hall⟩ hb
      obtain ⟨hle, w, hwalks, _⟩ := checkOne_spec output.triVec m hm consVec i x x1
        (linkOK_of_consistent output hcons x.oppVec hrel) hb
      refine ⟨?_, ?_, ?_⟩
      · exact vecRel_trans SlotEqv slotEqv_trans _ _ _ hrel
          (vecRel_mono SlotLe SlotEqv slotLe_toEqv _ _ hle)
      · rw [hwalks, List.length_append, hlen]; rfl
      · intro n c hn hc hfe
        by_cases hni : n < i
        · obtain ⟨t, vi, hw⟩ := hall n c hni hc hfe
          refine ⟨t, vi, ?_⟩
          rw [hwalks, List.getElem?_append_left (by omega)]
          exact hw
        · have hni' : n = i := by omega
          subst hni'
          obtain ⟨st1, t, vi, hst1, hw1, _⟩ := checkOne_finds output hcons m hm hcov consVec n c
            (by rw [getAt_natCast]; exact hc) hfe x hrel
          rw [hst1] at hb
          simp only [Option.some.injEq] at hb
          subst hb
          refine ⟨t, vi, ?_⟩
          rw [hw1, List.getElem?_append_right (by omega), hlen, Nat.sub_self]
          rfl)
    h
  intro n c hc hfe
  have hn : n < consVec.length := (List.getElem?_eq_some.1 hc).1
  exact key.2.2 n c (by omega) hc hfe

/-- The loop over constraints that are all interior edges with a single fan around their first
vertex returns with `failNum` zero and nothing skipped. -/
theorem checkLoop_total (output : Output) (hcons : Consistent output) (m : List Int)
    (hm : MapOK output.triVec m)
    (hcov : ∀ (t : Int) (tri : Tri), getAt output.triVec t = some tri → ∀ v : Int,
      (tri.v0 = v ∨ tri.v1 = v ∨ tri.v2 = v) → ∃ s, getAt m v = some s ∧ 0 ≤ s)
    (consVec : List Edge) (hall : ∀ c ∈ consVec, FanEdge output c) (ov0 : List TriOpp)
    (h0 : VecRel SlotEqv output.triOppVec ov0) :
    ∃ st, loopFrom (checkOne output.triVec m consVec) consVec.length 0 ⟨ov0, [], [], 0⟩ =
        some st ∧ st.failNum = 0 ∧ st.skipped = [] := by
  obtain ⟨st, hst, _, hf, hs⟩ := loopFrom_total (checkOne output.triVec m consVec)
    (fun _ x => VecRel SlotEqv output.triOppVec x.oppVec ∧ x.failNum = 0 ∧ x.skipped = [])
    consVec.length 0 ⟨ov0, [], [], 0⟩ ⟨h0, rfl, rfl⟩
    (by
      intro j x _ hj ⟨hrel, hf, hs⟩
      have hj' : j < consVec.length := by omega
      have hc : getAt consVec (j : Int) = some consVec[j] := by
        rw [getAt_natCast]; exact List.getElem?_eq_getElem hj'
      obtain ⟨st1, t, vi, hst1, _, hs1, hf1⟩ := checkOne_finds output hcons m hm hcov consVec j
        consVec[j] hc (hall _ (List.getElem_mem hj')) x hrel
      refine ⟨st1, hst1, ?_, by rw [hf1, hf], by rw [hs1, hs]⟩
      exact vecRel_trans SlotEqv slotEqv_trans _ _ _ hrel
        (vecRel_mono SlotLe SlotEqv slotLe_toEqv _ _
          (checkOne_rel output.triVec m consVec j x st1 hst1)))
  exact ⟨st, hst, hf, hs⟩

/-- C24, as stated, fails at `v = -1`: the assertion `v < 0` of `makePositive` holds, the value
returned is `-1`, which is negative, and `makeNegative` fails its assertion on it. -/
theorem makePositive_minus_one :
    makePositive (-1) = some (-1) ∧ ¬ (0 : Int) ≤ -1 ∧ makeNegative (-1) = none := by
  decide

/-- C24, amended: for every 32-bit `v` with `v ≤ -2`, `makePositive` passes its assertion and
returns a non-negative value, on which `makeNegative` passes its assertion and returns `v`;
above `INT_MIN` the value is `-(v + 2)`, at most `INT_MAX - 2`, and nothing overflows. -/
theorem makePositive_roundtrip (v : Int) (h0 : INT_MIN ≤ v) (h1 : v ≤ -2) :
    ∃ p, makePositive v = some p ∧ 0 ≤ p ∧ makeNegative p = some v ∧
      (INT_MIN < v → p = -(v + 2) ∧ p ≤ INT_MAX - 2) := by
  unfold INT_MIN at h0
  refine ⟨neg32 (add32 v 2), ?_, ?_, ?_, ?_⟩
  · unfold makePositive
    rw [if_pos (by omega)]
  · unfold neg32 add32 wrap32; omega
  · unfold makeNegative
    rw [if_pos (by unfold neg32 add32 wrap32; omega)]
    congr 1
    unfold neg32 add32 wrap32; omega
  · intro h
    unfold INT_MIN at h
    unfold INT_MAX neg32 add32 wrap32
    omega

theorem makePositive_roundtrip_witness :
    ∃ p, makePositive (-9) = some p ∧ 0 ≤ p ∧ makeNegative p = some (-9) ∧
      (INT_MIN < -9 → p = -(-9 + 2) ∧ p ≤ INT_MAX - 2) :=
  makePositive_roundtrip (-9) (by decide) (by decide)

/-! ## DevVector: grow, expand and the size invariant -/

theorem resize_beyond (v : DevVector) (n p : Nat) (h : v._capacity < n) :
    v.resize n (some p) = some (⟨p, n, n, true⟩, v.free.2) := by
  unfold DevVector.resize
  rw [if_neg (by omega), if_neg (by omega)]

theorem resize_within (v : DevVector) (n : Nat) (mallocResult : Option Nat)
    (h : n ≤ v._capacity) :
    v.resize n mallocResult = some (⟨v._ptr, n, v._capacity, v._owned⟩, []) := by
  unfold DevVector.resize
  rw [if_pos h]

/-- The branch of `grow` beyond the capacity: the vector is on the new block, with size and
capacity `n`, and the new block holds the old elements. -/
theorem grow_beyond (v : DevVector) (mem : DevMem) (n p : Nat) (hn : v._size ≤ n)
    (h : v._capacity < n) :
    v.grow mem n (some p) = some (⟨p, n, n, true⟩, copyRange mem v._ptr v._size p,
      (if v._capacity > 0 ∧ v._owned = true then [v._ptr] else [])) := by
  have hof : DevVector.ofSize n (some p) = some (⟨p, n, n, true⟩, []) := by
    unfold DevVector.ofSize
    rw [resize_beyond _ n p (by show 0 < n; omega)]
    rfl
  have hn0 : n > 0 := by omega
  unfold DevVector.grow
  rw [if_pos hn, if_neg (by omega), hof]
  simp only [DevVector.swapAndFree, DevVector.swap, DevVector.free, hn0, if_true,
    List.nil_append, gt_iff_lt, lt_self_iff_false, false_and, if_false, List.append_nil]
  by_cases hcap : 0 < v._capacity
  · simp only [hcap, if_true]
  · simp only [hcap, false_and, if_false]

theorem grow_within (v : DevVector) (mem : DevMem) (n : Nat) (mallocResult : Option Nat)
    (hn : v._size ≤ n) (h : n ≤ v._capacity) :
    v.grow mem n mallocResult = some (⟨v._ptr, n, v._capacity, v._owned⟩, mem, []) := by
  unfold DevVector.grow
  rw [if_pos hn, if_pos h]

/-- C22: for a vector with `_size ≤ _capacity` and `n ≥ _size`, `grow(n)` (with a
`device_malloc` that answers) returns with size `n`, a capacity of at least `n`, and the
elements below the old size unchanged; when `n` is within the old capacity the vector keeps its
pointer, capacity and ownership, the device memory is unchanged, and nothing is allocated or
freed. `expand(n)` with `n` within the capacity only sets the size to `n`. -/
theorem grow_keeps_data (v : DevVector) (mem : DevMem) (n : Nat)
    (_hinv : v._size ≤ v._capacity) (hn : v._size ≤ n) :
    (∀ p, ∃ v1 mem1 freed, v.grow mem n (some p) = some (v1, mem1, freed) ∧
      v1._size = n ∧ n ≤ v1._capacity ∧ ∀ i, i < v._size → v1.get mem1 i = v.get mem i) ∧
    (n ≤ v._capacity → ∀ mallocResult,
      v.grow mem n mallocResult = some (⟨v._ptr, n, v._capacity, v._owned⟩, mem, [])) ∧
    (∀ k, k ≤ v._capacity → v.expand k = some ⟨v._ptr, k, v._capacity, v._owned⟩) := by
  refine ⟨?_, ?_, ?_⟩
  · intro p
    by_cases h : n ≤ v._capacity
    · exact ⟨_, _, _, grow_within v mem n (some p) hn h, rfl, h, fun i _ => rfl⟩
    · refine ⟨_, _, _, grow_beyond v mem n p hn (by omega), rfl, le_rfl, ?_⟩
      intro i hi
      show copyRange mem v._ptr v._size p p i = mem v._ptr i
      unfold copyRange
      rw [if_pos ⟨rfl, hi⟩]
  · intro h mallocResult
    exact grow_within v mem n mallocResult hn h
  · intro k hk
    unfold DevVector.expand
    rw [if_pos hk]

theorem grow_keeps_data_witness :
    ∃ v1 mem1 freed,
      DevVector.grow ⟨1000, 3, 4, true⟩ (fun _ i => (i : Int) + 10) 6 (some 2000) =
        some (v1, mem1, freed) ∧
      v1._size = 6 ∧ 6 ≤ v1._capacity ∧
      ∀ i, i < 3 → v1.get mem1 i = DevVector.get ⟨1000, 3, 4, true⟩ (fun _ i => (i : Int) + 10) i :=
  (grow_keeps_data ⟨1000, 3, 4, true⟩ (fun _ i => (i : Int) + 10) 6 (by decide) (by decide)).1
    2000

/-- C23, as stated, fails for a vector of capacity 4 and `n = 5`: after `grow(5)` and after
`resize(5)` the capacity is 5, which is less than twice 4. -/
theorem grow_not_doubling :
    (DevVector.grow ⟨1000, 4, 4, true⟩ (fun _ _ => 0) 5 (some 2000)).map
        (fun r => r.1._capacity) = some 5 ∧
      (DevVector.resize ⟨1000, 4, 4, true⟩ 5 (some 2000)).map (fun r => r.1._capacity) =
        some 5 ∧
      ¬ 2 * 4 ≤ 5 := by
  decide

/-- C23, amended: whenever `grow(n)` (with `n ≥ _size`, its assertion) or `resize(n)` is called
with `n` greater than the current capacity `c > 0`, and `device_malloc` answers, the capacity
afterwards is exactly `n`. -/
theorem grow_capacity_exact (v : DevVector) (mem : DevMem) (n p : Nat)
    (_hc : 0 < v._capacity) (h : v._capacity < n) :
    (v._size ≤ n → (v.grow mem n (some p)).map (fun r => r.1._capacity) = some n) ∧
      (v.resize n (some p)).map (fun r => r.1._capacity) = some n := by
  constructor
  · intro hn
    rw [grow_beyond v mem n p hn h]
    rfl
  · rw [resize_beyond v n p h]
    rfl

theorem grow_capacity_exact_witness :
    ((4 : Nat) ≤ 5 →
        (DevVector.grow ⟨1000, 4, 4, true⟩ (fun _ _ => 0) 5 (some 2000)).map
          (fun r => r.1._capacity) = some 5) ∧
      (DevVector.resize ⟨1000, 4, 4, true⟩ 5 (some 2000)).map (fun r => r.1._capacity) =
        some 5 :=
  grow_capacity_exact ⟨1000, 4, 4, true⟩ (fun _ _ => 0) 5 2000 (by decide) (by decide)

/-- C27: `_size ≤ _capacity` holds for a default-constructed vector, and for a vector `v` on
which it holds it holds again after `resize`, `assign`, `grow` (for `n ≥ _size`), `expand`
(for `n ≤ _capacity`), `erase` of a tail range `[first, end())` with `first` from `begin()`
to `end()`, `swap` and `swapAndFree` (for both vectors, when it holds for the other one) and
`free`; each of them returns (with a `device_malloc` that answers). `resize(n)` within the
capacity keeps the pointer, the capacity and the ownership and allocates and frees nothing,
whatever `device_malloc` would answer, in particular `resize(0)`; beyond the capacity it sets
the capacity to exactly `n`. -/
theorem devVector_size_invariant (v : DevVector) (hv : v._size ≤ v._capacity) (mem : DevMem)
    (n : Nat) (value : Int) (p : Nat) :
    DevVector.default._size ≤ DevVector.default._capacity ∧
    (∃ r, v.resize n (some p) = some r ∧ r.1._size ≤ r.1._capacity ∧
      (n ≤ v._capacity → r.1._capacity = v._capacity) ∧ (v._capacity < n → r.1._capacity = n)) ∧
    (n ≤ v._capacity → ∀ mallocResult,
      v.resize n mallocResult = some (⟨v._ptr, n, v._capacity, v._owned⟩, [])) ∧
    (∀ mallocResult, v.resize 0 mallocResult = some (⟨v._ptr, 0, v._capacity, v._owned⟩, [])) ∧
    (∃ r, v.assign mem n value (some p) = some r ∧ r.1._size ≤ r.1._capacity) ∧
    (v._size ≤ n → ∃ r, v.grow mem n (some p) = some r ∧ r.1._size ≤ r.1._capacity) ∧
    (n ≤ v._capacity → ∃ r, v.expand n = some r ∧ r._size ≤ r._capacity) ∧
    (∀ first : Int, 0 ≤ first → first ≤ v._size →
      ∃ r, v.erase first v._size = some r ∧ r._size ≤ r._capacity) ∧
    (∀ arr : DevVector, arr._size ≤ arr._capacity →
      ((v.swap arr).1._size ≤ (v.swap arr).1._capacity ∧
        (v.swap arr).2._size ≤ (v.swap arr).2._capacity) ∧
      ((v.swapAndFree arr).1._size ≤ (v.swapAndFree arr).1._capacity ∧
        (v.swapAndFree arr).2.1._size ≤ (v.swapAndFree arr).2.1._capacity)) ∧
    v.free.1._size ≤ v.free.1._capacity := by
  have hres : ∃ r, v.resize n (some p) = some r ∧ r.1._size ≤ r.1._capacity ∧
      (n ≤ v._capacity → r.1._capacity = v._capacity) ∧
      (v._capacity < n → r.1._capacity = n) := by
    by_cases h : n ≤ v._capacity
    · exact ⟨_, resize_within v n (some p) h, h, fun _ => rfl, fun h1 => absurd h1 (by omega)⟩
    · exact ⟨_, resize_beyond v n p (by omega), le_rfl, fun h1 => absurd h1 h, fun _ => rfl⟩
  refine ⟨le_rfl, hres, fun h mr => resize_within v n mr h,
    fun mr => resize_within v 0 mr (Nat.zero_le _), ?_, ?_, ?_, ?_, ?_, le_rfl⟩
  · obtain ⟨r, hr, hle, _⟩ := hres
    refine ⟨(r.1, fillRange mem r.1._ptr n value, r.2), ?_, hle⟩
    unfold DevVector.assign
    rw [hr]
  · intro hn
    by_cases h : n ≤ v._capacity
    · exact ⟨_, grow_within v mem n (some p) hn h, h⟩
    · exact ⟨_, grow_beyond v mem n p hn (by omega), le_rfl⟩
  · intro h
    refine ⟨⟨v._ptr, n, v._capacity, v._owned⟩, ?_, h⟩
    unfold DevVector.expand
    rw [if_pos h]
  · intro first h0 h1
    refine ⟨_, by unfold DevVector.erase; rw [if_pos rfl], ?_⟩
    show (((v._size : Int) - ((v._size : Int) - first)) % 18446744073709551616).toNat ≤
      v._capacity
    omega
  · intro arr harr
    exact ⟨⟨harr, hv⟩, harr, le_rfl⟩

theorem devVector_size_invariant_witness :
    (∃ r, DevVector.resize ⟨1000, 3, 8, true⟩ 9 (some 2000) = some r ∧
        r.1._size ≤ r.1._capacity ∧
        (9 ≤ (8 : Nat) → r.1._capacity = 8) ∧ ((8 : Nat) < 9 → r.1._capacity = 9)) ∧
      ∀ first : Int, 0 ≤ first → first ≤ (3 : Nat) →
        ∃ r, DevVector.erase ⟨1000, 3, 8, true⟩ first (3 : Nat) = some r ∧
          r._size ≤ r._capacity :=
  ⟨(devVector_size_invariant ⟨1000, 3, 8, true⟩ (by decide) (fun _ _ => 0) 9 0 2000).2.1,
    (devVector_size_invariant ⟨1000, 3, 8, true⟩ (by decide) (fun _ _ => 0) 9 0 2000
      ).2.2.2.2.2.2.2.1⟩

/-! ## The constraint check on a boundary edge -/

/-- C25, evaluated on the two triangles `[0,1,2]`, `[3,2,1]` with their symmetric adjacency and
the constraint `(0,1)`, a boundary edge of triangle 0: the second walk finds the edge at slot 2
of triangle 0, the word of that slot is the boundary word, so `oppTri` is `-1`, the access
`oppVec[oppTri]` is outside the vector, and the check does not complete. -/
theorem checkConstraints_boundary_edge :
    Consistent ⟨squareTris, squareOpps⟩ ∧ AdjacencySymmetric ⟨squareTris, squareOpps⟩ ∧
      MeshFits 4 ⟨squareTris, squareOpps⟩ ∧
      walkBoth squareTris squareOpps 0 ⟨0, 1⟩ = some ⟨INT_MAX, 0, 2⟩ ∧
      (getAt squareOpps 0).bind (fun opp => opp.getOppTri 2) = some (-1) ∧
      getAt squareOpps (-1) = none ∧
      markFound squareOpps 0 2 = none ∧
      checkConstraints 4 ⟨[⟨0, 1⟩]⟩ ⟨squareTris, squareOpps⟩ = none := by
  decide

/-! ## MemoryPool: exclusivity -/

theorem reserve_spec (pool : List Buffer) (size sz : Nat) (m : Option Nat) (hpos : 1 ≤ size)
    (r : ReserveResult) (h : reserve pool size sz m = some r) :
    ∃ p, m = some p ∧ r.pool = pool ++ [⟨p, mul64 size sz, true⟩] := by
  unfold reserve DevVector.resize at h
  have h0 : ¬ DevVector.default._capacity ≥ size := by
    show ¬ 0 ≥ size
    omega
  rw [if_neg h0] at h
  cases m with
  | none => exact absurd h (by simp)
  | some p =>
    simp only [Option.some.injEq] at h
    subst h
    exact ⟨p, rfl, rfl⟩

/-- What `allocateAny` did when it returned: it built the vector on a buffer of the pool that
was available, or, after `reserve`, on the available buffer that `reserve` appended. -/
theorem allocateAny_cases (pool : List Buffer) (size sz : Nat) (tempOnly : Bool)
    (m : Option Nat) (hlen : pool.length < 2147483647) (r : AllocResult)
    (hal : allocateAny pool size sz tempOnly m = some r) :
    (∃ j b, b.avail = true ∧ AllocatedOn pool sz tempOnly j b r) ∨
      (∃ rr bnew, reserve pool size sz m = some rr ∧ rr.pool = pool ++ [bnew] ∧
        bnew.avail = true ∧ AllocatedOn rr.pool sz tempOnly pool.length bnew r) := by
  unfold allocateAny at hal
  obtain ⟨idx, hidx, hcase⟩ := findBestFit_spec pool (mul64 size sz)
  rw [hidx] at hal
  simp only at hal
  rcases hcase with ⟨hm1, _⟩ | ⟨j, hj, hbest⟩
  · rw [if_pos hm1] at hal
    right
    cases hres : reserve pool size sz m with
    | none => rw [hres] at hal; exact absurd hal (by simp)
    | some rr =>
      rw [hres] at hal
      simp only at hal
      have hres' := hres
      unfold reserve at hres'
      cases hvf : DevVector.default.resize size m with
      | none => rw [hvf] at hres'; exact absurd hres' (by simp)
      | some vf =>
        obtain ⟨vec, fr⟩ := vf
        rw [hvf] at hres'
        simp only [Option.some.injEq] at hres'
        subst hres'
        have hidx1 : sizeToInt (pool ++ [Buffer.mk vec._ptr (mul64 size sz) true]).length - 1 =
            (pool.length : Int) := by
          unfold sizeToInt
          rw [List.length_append, List.length_singleton, if_pos (by omega)]
          push_cast; ring
        simp only at hal
        rw [hidx1] at hal
        have hb : (pool ++ [Buffer.mk vec._ptr (mul64 size sz) true])[pool.length]? =
            some ⟨vec._ptr, mul64 size sz, true⟩ := by
          rw [List.getElem?_append_right (le_refl _), Nat.sub_self]; rfl
        obtain ⟨r1, hr1, hon⟩ := allocateFrom_spec _ sz tempOnly pool.length _ hb
        rw [hr1] at hal
        simp only [Option.some.injEq] at hal
        subst hal
        exact ⟨_, ⟨vec._ptr, mul64 size sz, true⟩, rfl, rfl, rfl, hon⟩
  · have hne : ¬ idx = -1 := by omega
    rw [if_neg hne, hj] at hal
    left
    obtain ⟨bj, hbj, hfit, _⟩ := hbest.2
    obtain ⟨r1, hr1, hon⟩ := allocateFrom_spec pool sz tempOnly j bj hbj
    rw [hr1] at hal
    simp only [Option.some.injEq] at hal
    subst hal
    exact ⟨j, bj, hfit.1, hon⟩

/-- Two pools with the same pointer at every index have the same list of pointers. -/
theorem ptrs_eq_of_pointwise (l1 l2 : List Buffer) (hlen : l1.length = l2.length)
    (h : ∀ (k : Nat) (b1 b2 : Buffer), l1[k]? = some b1 → l2[k]? = some b2 → b1.ptr = b2.ptr) :
    l1.map Buffer.ptr = l2.map Buffer.ptr := by
  apply List.ext_getElem?
  intro k
  rw [List.getElem?_map, List.getElem?_map]
  by_cases hk : k < l1.length
  · have hk2 : k < l2.length := by omega
    rw [List.getElem?_eq_getElem hk, List.getElem?_eq_getElem hk2]
    simp only [Option.map_some']
    rw [h k _ _ (List.getElem?_eq_getElem hk) (List.getElem?_eq_getElem hk2)]
  · rw [List.getElem?_eq_none (by omega), List.getElem?_eq_none (by omega)]

theorem allocatedOn_ptrs (pool0 : List Buffer) (sz : Nat) (tempOnly : Bool) (j : Nat)
    (b : Buffer) (r : AllocResult) (h : AllocatedOn pool0 sz tempOnly j b r) :
    r.pool.map Buffer.ptr = pool0.map Buffer.ptr := by
  obtain ⟨hb, _, _, hlen, hj, hother⟩ := h
  apply ptrs_eq_of_pointwise _ _ hlen
  intro k b1 b2 h1 h2
  by_cases hk : k = j
  · subst hk
    rw [hj] at h1
    rw [hb] at h2
    simp only [Option.some.injEq] at h1 h2
    subst h1 h2
    rfl
  · rw [hother k hk, h2] at h1
    simp only [Option.some.injEq] at h1
    rw [h1]

/-- In a list whose images under `f` are pairwise distinct, two entries with the same image are
at the same index. -/
theorem nodup_map_inj {α β : Type} (f : α → β) (l : List α) (h : (l.map f).Nodup)
    (i j : Nat) (a b : α) (hi : l[i]? = some a) (hj : l[j]? = some b) (hab : f a = f b) :
    i = j := by
  obtain ⟨hi1, hi2⟩ := List.getElem?_eq_some.1 hi
  obtain ⟨hj1, hj2⟩ := List.getElem?_eq_some.1 hj
  have hi3 : i < (l.map f).length := by rw [List.length_map]; exact hi1
  have hj3 : j < (l.map f).length := by rw [List.length_map]; exact hj1
  have heq : (l.map f)[i] = (l.map f)[j] := by
    rw [List.getElem_map, List.getElem_map, hi2, hj2, hab]
  exact (List.Nodup.getElem_inj_iff h).1 heq

/-- In a pool that satisfies the invariant, `release` of an outstanding vector passes both
assertions and makes the entry of the vector available. -/
theorem release_of_inv (s : PoolState) (hinv : PoolInv s) (a : Allocation) (ha : a ∈ s.out) :
    ∃ (j : Nat) (b : Buffer), a.bufIdx = (j : Int) ∧ s.pool[j]? = some b ∧
      release s.pool a.vec =
        some ⟨s.pool.set j ⟨b.ptr, b.sizeInBytes, true⟩, a.vec.free.1, a.vec.free.2, false⟩ := by
  obtain ⟨hptrs, _, hout⟩ := hinv
  obtain ⟨j, hj, b, hb, hav, hptr, hown⟩ := hout a ha
  refine ⟨j, b, hj, hb, ?_⟩
  unfold release
  apply releaseFrom_spec a.vec hown s.pool j b hb hptr hav
  intro k hk bk hbk heq
  have := nodup_map_inj Buffer.ptr s.pool hptrs k j bk b hbk hb (by rw [heq, hptr])
  omega

theorem set_ptrs (pool : List Buffer) (j : Nat) (b : Buffer) (hb : pool[j]? = some b)
    (flag : Bool) :
    (pool.set j ⟨b.ptr, b.sizeInBytes, flag⟩).map Buffer.ptr = pool.map Buffer.ptr := by
  have hj : j < pool.length := (List.getElem?_eq_some.1 hb).1
  apply ptrs_eq_of_pointwise _ _ (List.length_set _ _ _)
  intro k b1 b2 h1 h2
  by_cases hk : k = j
  · subst hk
    rw [List.getElem?_set_self hj] at h1
    rw [hb] at h2
    simp only [Option.some.injEq] at h1 h2
    subst h1 h2
    rfl
  · rw [List.getElem?_set_ne (fun h => hk h.symm), h2] at h1
    simp only [Option.some.injEq] at h1
    rw [h1]

theorem nodup_ptrs_append (pool : List Buffer) (bnew : Buffer)
    (h : (pool.map Buffer.ptr).Nodup) (hfresh : bnew.ptr ∉ pool.map Buffer.ptr) :
    ((pool ++ [bnew]).map Buffer.ptr).Nodup := by
  rw [List.map_append, List.nodup_append]
  refine ⟨h, by simp, ?_⟩
  intro q hq1 hq2
  simp only [List.map_cons, List.map_nil, List.mem_singleton] at hq2
  subst hq2
  exact hfresh hq1

/-- One call on a pool that satisfies the invariant, for at least one element and with a
`device_malloc` that answers a pointer not in the pool, leaves a pool that satisfies it. -/
theorem poolStep_inv (s : PoolState) (op : PoolOp) (hinv : PoolInv s) (hpos : op.positive)
    (hfresh : ∀ p, op.malloc = some p → p ∉ s.pool.map Buffer.ptr)
    (hlen : s.pool.length < 2147483647) (s1 : PoolState) (h : poolStep s op = some s1) :
    PoolInv s1 ∧ s1.pool.length ≤ s.pool.length + 1 ∧
      ∀ q ∈ s1.pool.map Buffer.ptr, q ∈ s.pool.map Buffer.ptr ∨ op.malloc = some q := by
  have hinv' := hinv
  obtain ⟨hptrs, hidxs, hout⟩ := hinv
  cases op with
  | reserve size sz m =>
    simp only [poolStep] at h
    cases hres : reserve s.pool size sz m with
    | none => rw [hres] at h; exact absurd h (by simp)
    | some rr =>
      rw [hres] at h
      simp only [Option.some.injEq] at h
      subst h
      obtain ⟨p, hm, hpool⟩ := reserve_spec s.pool size sz m hpos rr hres
      refine ⟨⟨?_, hidxs, ?_⟩, ?_, ?_⟩
      · show (rr.pool.map Buffer.ptr).Nodup
        rw [hpool]
        exact nodup_ptrs_append _ _ hptrs (hfresh p hm)
      · intro a ha
        obtain ⟨j, hj, b, hb, hrest⟩ := hout a ha
        refine ⟨j, hj, b, ?_, hrest⟩
        show rr.pool[j]? = some b
        rw [hpool, List.getElem?_append_left (List.getElem?_eq_some.1 hb).1]
        exact hb
      · show rr.pool.length ≤ s.pool.length + 1
        rw [hpool, List.length_append, List.length_singleton]
      · intro q hq
        have hq' : q ∈ rr.pool.map Buffer.ptr := hq
        rw [hpool, List.map_append, List.mem_append] at hq'
        rcases hq' with hq' | hq'
        · exact Or.inl hq'
        · simp only [List.map_cons, List.map_nil, List.mem_singleton] at hq'
          exact Or.inr (by rw [hq']; exact hm)
  | allocate size sz m =>
    simp only [poolStep] at h
    cases hal : allocateAny s.pool size sz false m with
    | none => rw [hal] at h; exact absurd h (by simp)
    | some r =>
      rw [hal] at h
      simp only [Option.some.injEq] at h
      subst h
      rcases allocateAny_cases s.pool size sz false m hlen r hal with
        ⟨j, b, hav, hon⟩ | ⟨rr, bnew, hres, hpool, hav, hon⟩
      · have hp := allocatedOn_ptrs _ _ _ _ _ _ hon
        obtain ⟨hb, hvec, hidx, hlen', hj, hother⟩ := hon
        have hold : ∀ a ∈ s.out, a.bufIdx ≠ r.bufIdx := by
          intro a ha heq
          obtain ⟨ja, hja, ba, hba, hava, _⟩ := hout a ha
          have : ja = j := by rw [hja, hidx] at heq; exact_mod_cast heq
          subst this
          rw [hb] at hba
          simp only [Option.some.injEq] at hba
          subst hba
          rw [hav] at hava
          exact absurd hava (by decide)
        refine ⟨⟨?_, ?_, ?_⟩, ?_, ?_⟩
        · show (r.pool.map Buffer.ptr).Nodup
          rw [hp]; exact hptrs
        · show ((s.out ++ [Allocation.mk r.vec r.bufIdx]).map Allocation.bufIdx).Nodup
          rw [List.map_append, List.nodup_append]
          refine ⟨hidxs, by simp, ?_⟩
          intro q hq1 hq2
          simp only [List.map_cons, List.map_nil, List.mem_singleton] at hq2
          obtain ⟨a, ha, haq⟩ := List.mem_map.1 hq1
          exact hold a ha (by rw [haq, hq2])
        · intro a ha
          rcases List.mem_append.1 ha with ha | ha
          · obtain ⟨ja, hja, ba, hba, hrest⟩ := hout a ha
            refine ⟨ja, hja, ba, ?_, hrest⟩
            show r.pool[ja]? = some ba
            rw [hother ja (by
              intro hjj
              exact hold a ha (by rw [hja, hidx, hjj]))]
            exact hba
          · simp only [List.mem_singleton] at ha
            subst ha
            refine ⟨j, hidx, ⟨b.ptr, b.sizeInBytes, b.avail && false⟩, hj, by simp, ?_, ?_⟩
            · show b.ptr = r.vec._ptr
              rw [hvec]
            · show r.vec._owned = false
              rw [hvec]
        · show r.pool.length ≤ s.pool.length + 1
          omega
        · intro q hq
          have hq' : q ∈ r.pool.map Buffer.ptr := hq
          rw [hp] at hq'
          exact Or.inl hq'
      · have hp := allocatedOn_ptrs _ _ _ _ _ _ hon
        obtain ⟨p, hm, hpool2⟩ := reserve_spec s.pool size sz m hpos rr hres
        have hbn : bnew = ⟨p, mul64 size sz, true⟩ := by
          rw [hpool] at hpool2
          have := List.append_cancel_left hpool2
          simpa using this
        obtain ⟨hb, hvec, hidx, hlen', hj, hother⟩ := hon
        have hrl : rr.pool.length = s.pool.length + 1 := by
          rw [hpool, List.length_append, List.length_singleton]
        have hold : ∀ a ∈ s.out, ∃ ja : Nat, a.bufIdx = (ja : Int) ∧ ja < s.pool.length := by
          intro a ha
          obtain ⟨ja, hja, ba, hba, _⟩ := hout a ha
          exact ⟨ja, hja, (List.getElem?_eq_some.1 hba).1⟩
        refine ⟨⟨?_, ?_, ?_⟩, ?_, ?_⟩
        · show (r.pool.map Buffer.ptr).Nodup
          rw [hp, hpool]
          exact nodup_ptrs_append _ _ hptrs (by rw [hbn]; exact hfresh p hm)
        · show ((s.out ++ [Allocation.mk r.vec r.bufIdx]).map Allocation.bufIdx).Nodup
          rw [List.map_append, List.nodup_append]
          refine ⟨hidxs, by simp, ?_⟩
          intro q hq1 hq2
          simp only [List.map_cons, List.map_nil, List.mem_singleton] at hq2
          obtain ⟨a, ha, haq⟩ := List.mem_map.1 hq1
          obtain ⟨ja, hja, hlt⟩ := hold a ha
          rw [← haq, hja, hidx] at hq2
          have : ja = s.pool.length := by exact_mod_cast hq2
          omega
        · intro a ha
          rcases List.mem_append.1 ha with ha | ha
          · obtain ⟨ja, hja, ba, hba, hrest⟩ := hout a ha
            have hlt := (List.getElem?_eq_some.1 hba).1
            refine ⟨ja, hja, ba, ?_, hrest⟩
            show r.pool[ja]? = some ba
            rw [hother ja (by omega), hpool, List.getElem?_append_left hlt]
            exact hba
          · simp only [List.mem_singleton] at ha
            subst ha
            refine ⟨s.pool.length, hidx, ⟨bnew.ptr, bnew.sizeInBytes, bnew.avail && false⟩,
              hj, by simp, ?_, ?_⟩
            · show bnew.ptr = r.vec._ptr
              rw [hvec]
            · show r.vec._owned = false
              rw [hvec]
        · show r.pool.length ≤ s.pool.length + 1
          omega
        · intro q hq
          have hq' : q ∈ r.pool.map Buffer.ptr := hq
          rw [hp, hpool, List.map_append, List.mem_append] at hq'
          rcases hq' with hq' | hq'
          · exact Or.inl hq'
          · simp only [List.map_cons, List.map_nil, List.mem_singleton] at hq'
            exact Or.inr (by rw [hq', hbn]; exact hm)
  | release k =>
    simp only [poolStep] at h
    cases hk : s.out[k]? with
    | none => rw [hk] at h; exact absurd h (by simp)
    | some a =>
      rw [hk] at h
      simp only at h
      have ha : a ∈ s.out := List.getElem?_mem hk
      obtain ⟨j, b, hj, hb, hrel⟩ := release_of_inv s hinv' a ha
      rw [hrel] at h
      simp only [Option.some.injEq] at h
      subst h
      have hp := set_ptrs s.pool j b hb true
      refine ⟨⟨?_, ?_, ?_⟩, ?_, ?_⟩
      · show ((s.pool.set j ⟨b.ptr, b.sizeInBytes, true⟩).map Buffer.ptr).Nodup
        rw [hp]; exact hptrs
      · exact List.Nodup.sublist ((List.eraseIdx_sublist _ _).map _) hidxs
      · intro a1 ha1
        obtain ⟨i, hik, hi⟩ := List.mem_eraseIdx_iff_getElem?.1 ha1
        obtain ⟨j1, hj1, b1, hb1, hrest⟩ := hout a1 (List.getElem?_mem hi)
        refine ⟨j1, hj1, b1, ?_, hrest⟩
        show (s.pool.set j ⟨b.ptr, b.sizeInBytes, true⟩)[j1]? = some b1
        rw [List.getElem?_set_ne (by
          intro hjj
          exact hik (nodup_map_inj Allocation.bufIdx s.out hidxs i k a1 a hi hk
            (by rw [hj1, hj, hjj])))]
        exact hb1
      · show (s.pool.set j ⟨b.ptr, b.sizeInBytes, true⟩).length ≤ s.pool.length + 1
        rw [List.length_set]; omega
      · intro q hq
        have hq' : q ∈ (s.pool.set j ⟨b.ptr, b.sizeInBytes, true⟩).map Buffer.ptr := hq
        rw [hp] at hq'
        exact Or.inl hq'

/-- A sequence of calls, each for at least one element, with `device_malloc` answering pairwise
distinct pointers that are not in the pool, keeps the invariant of the pool. -/
theorem poolRun_inv : ∀ (ops : List PoolOp) (s : PoolState), PoolInv s →
    (∀ op ∈ ops, op.positive) → (ops.filterMap PoolOp.malloc).Nodup →
    (∀ p ∈ ops.filterMap PoolOp.malloc, p ∉ s.pool.map Buffer.ptr) →
    s.pool.length + ops.length < 2147483647 →
    ∀ s2, poolRun s ops = some s2 → PoolInv s2 := by
  intro ops
  induction ops with
  | nil =>
    intro s hinv _ _ _ _ s2 h
    simp only [poolRun, Option.some.injEq] at h
    subst h
    exact hinv
  | cons op ops ih =>
    intro s hinv hpos hnd hfresh hlen s2 h
    simp only [poolRun] at h
    simp only [List.length_cons] at hlen
    cases hstep : poolStep s op with
    | none => rw [hstep] at h; exact absurd h (by simp)
    | some s1 =>
      rw [hstep] at h
      simp only at h
      have hop : ∀ p, op.malloc = some p → p ∉ s.pool.map Buffer.ptr := by
        intro p hp
        exact hfresh p (by rw [List.filterMap_cons_some hp]; exact List.mem_cons_self _ _)
      obtain ⟨hinv1, hlen1, hsub⟩ := poolStep_inv s op hinv (hpos op (List.mem_cons_self _ _))
        hop (by omega) s1 hstep
      have htail : ∀ q ∈ ops.filterMap PoolOp.malloc,
          q ∈ (op :: ops).filterMap PoolOp.malloc := by
        intro q hq
        cases hm : op.malloc with
        | none => rw [List.filterMap_cons_none hm]; exact hq
        | some p => rw [List.filterMap_cons_some hm]; exact List.mem_cons_of_mem _ hq
      have hnd1 : (ops.filterMap PoolOp.malloc).Nodup := by
        cases hm : op.malloc with
        | none => rw [List.filterMap_cons_none hm] at hnd; exact hnd
        | some p => rw [List.filterMap_cons_some hm] at hnd; exact (List.nodup_cons.1 hnd).2
      refine ih s1 hinv1 (fun o ho => hpos o (List.mem_cons_of_mem _ ho)) hnd1 ?_ (by omega)
        s2 h
      intro q hq hq1
      rcases hsub q hq1 with hin | hm
      · exact hfresh q (htail q hq) hin
      · rw [List.filterMap_cons_some hm] at hnd
        exact (List.nodup_cons.1 hnd).1 hq

theorem exclusive_of_inv (s : PoolState) (hinv : PoolInv s) : Exclusive s := by
  obtain ⟨_, hidxs, hout⟩ := hinv
  refine ⟨hidxs, ?_⟩
  intro a ha
  obtain ⟨j, hj, b, hb, hav, hptr, _⟩ := hout a ha
  exact ⟨b, by rw [hj, Option.mem_def, getAt_natCast]; exact hb, hav, hptr⟩

/-- C26, evaluated on requests for no element: `reserve` then allocates nothing (`resize(0)`
returns before `device_malloc`), so the two pool entries hold the same null pointer; `release`
of the second vector marks entry 0 available, on which the first vector is outstanding; a third
request is then given entry 0 again, so two outstanding vectors are on one entry; and `release`
of the first vector, instead of the third request, fails the assertion `!i.avail`. -/
theorem pool_zero_size_shared :
    (poolRun ⟨[], []⟩ (zeroSizeOps.take 2)).map (fun s => s.pool) =
        some [⟨0, 0, false⟩, ⟨0, 0, false⟩] ∧
      (poolRun ⟨[], []⟩ (zeroSizeOps.take 3)).map (fun s => (s.pool, s.out)) =
        some ([⟨0, 0, true⟩, ⟨0, 0, false⟩], [⟨⟨0, 0, 0, false⟩, 0⟩]) ∧
      (poolRun ⟨[], []⟩ zeroSizeOps).map (fun s => s.out.map Allocation.bufIdx) = some [0, 0] ∧
      (poolRun ⟨[], []⟩ zeroSizeOps).map (fun s => decide (Exclusive s)) = some false ∧
      poolRun ⟨[], []⟩ (zeroSizeOps.take 3 ++ [PoolOp.release 0]) = none := by
  decide

/-- The exclusivity of the pool where every buffer has a pointer of its own: from the empty
pool, across every sequence of `reserve`, `allocateAny` with
`tempOnly = false` and `release` of outstanding vectors in which every request is for at least
one element (`device_malloc` answering pairwise distinct pointers), any two outstanding vectors
are on different pool entries, each marked unavailable and holding the pointer of its vector,
and `release` of any outstanding vector passes its assertions. On every pool, `allocateAny`
with `tempOnly = false` selects an entry whose `avail` flag is true (one of the pool, or the
one `reserve` appended) and clears the flag; with `tempOnly = true` it leaves every buffer of
the pool as it was. -/
theorem pool_exclusive (ops : List PoolOp) (hpos : ∀ op ∈ ops, op.positive)
    (hfresh : (ops.filterMap PoolOp.malloc).Nodup) (hlen : ops.length < 2147483647)
    (s : PoolState) (hrun : poolRun ⟨[], []⟩ ops = some s) :
    Exclusive s ∧
    (∀ k, k < s.out.length → ∃ s1, poolStep s (PoolOp.release k) = some s1) ∧
    (∀ (pool : List Buffer) (size sz : Nat) (m : Option Nat) (r : AllocResult),
      pool.length < 2147483647 → allocateAny pool size sz false m = some r →
      ∃ (j : Nat) (b : Buffer), r.bufIdx = (j : Int) ∧ b.avail = true ∧
        (pool[j]? = some b ∨ j = pool.length) ∧
        r.pool[j]? = some ⟨b.ptr, b.sizeInBytes, false⟩) ∧
    (∀ (pool : List Buffer) (size sz : Nat) (m : Option Nat) (r : AllocResult),
      pool.length < 2147483647 → allocateAny pool size sz true m = some r →
      ∀ (k : Nat) (b : Buffer), pool[k]? = some b → r.pool[k]? = some b) := by
  have hinv : PoolInv s := poolRun_inv ops ⟨[], []⟩
    ⟨List.nodup_nil, List.nodup_nil, fun a ha => absurd ha (List.not_mem_nil a)⟩
    hpos hfresh (fun p _ hp => absurd hp (List.not_mem_nil p))
    (by simpa using hlen) s hrun
  refine ⟨exclusive_of_inv s hinv, ?_, ?_, ?_⟩
  · intro k hk
    obtain ⟨j, b, _, _, hrel⟩ := release_of_inv s hinv s.out[k] (List.getElem_mem hk)
    refine ⟨⟨s.pool.set j ⟨b.ptr, b.sizeInBytes, true⟩, s.out.eraseIdx k⟩, ?_⟩
    simp only [poolStep]
    rw [List.getElem?_eq_getElem hk]
    simp only
    rw [hrel]
  · intro pool size sz m r hl hal
    rcases allocateAny_cases pool size sz false m hl r hal with
      ⟨j, b, hav, hb, _, hidx, _, hj, _⟩ | ⟨rr, bnew, _, _, hav, hb, _, hidx, _, hj, _⟩
    · exact ⟨j, b, hidx, hav, Or.inl hb, by simpa using hj⟩
    · exact ⟨pool.length, bnew, hidx, hav, Or.inr rfl, by simpa using hj⟩
  · intro pool size sz m r hl hal k b hkb
    have hk : k < pool.length := (List.getElem?_eq_some.1 hkb).1
    rcases allocateAny_cases pool size sz true m hl r hal with
      ⟨j, b0, _, hb, _, _, _, hj, hother⟩ | ⟨rr, bnew, _, hpool, _, hb, _, _, _, hj, hother⟩
    · by_cases hkj : k = j
      · subst hkj
        rw [hb] at hkb
        simp only [Option.some.injEq] at hkb
        subst hkb
        simpa using hj
      · rw [hother k hkj]; exact hkb
    · rw [hother k (by omega), hpool, List.getElem?_append_left hk]
      exact hkb

theorem pool_exclusive_witness :
    Exclusive ⟨[⟨1000, 20, false⟩, ⟨2000, 20, false⟩, ⟨4000, 8, true⟩],
      [⟨⟨2000, 0, 5, false⟩, 1⟩, ⟨⟨1000, 0, 5, false⟩, 0⟩]⟩ :=
  (pool_exclusive
    [PoolOp.allocate 5 4 (some 1000), PoolOp.allocate 5 4 (some 2000), PoolOp.release 0,
      PoolOp.allocate 3 4 (some 3000), PoolOp.reserve 2 4 (some 4000)]
    (by decide) (by decide) (by decide)
    ⟨[⟨1000, 20, false⟩, ⟨2000, 20, false⟩, ⟨4000, 8, true⟩],
      [⟨⟨2000, 0, 5, false⟩, 1⟩, ⟨⟨1000, 0, 5, false⟩, 0⟩]⟩ (by decide)).1

/-! ## The walks of checkConstraints are bounded -/

/-- The counted first walk is the first walk. -/
theorem ccwWalkCount_fst (triVec : List Tri) (ov : List TriOpp) (startIdx b : Int) :
    ∀ (fuel : Nat) (st : WalkState) (r : Nat),
      (ccwWalkCount triVec ov startIdx b fuel st r).map Prod.fst =
        ccwWalk triVec ov startIdx b fuel st := by
  intro fuel
  induction fuel with
  | zero => intro st r; rfl
  | succ fuel ih =>
    intro st r
    simp only [ccwWalkCount, ccwWalk]
    cases getAt triVec st.triIdx with
    | none => rfl
    | some tri =>
      cases getAt ov st.triIdx with
      | none => rfl
      | some opp =>
        simp only
        cases tri.v (cmod (st.vi + 2) 3) with
        | none => rfl
        | some nextVert =>
          simp only
          by_cases hb : nextVert = b
          · rw [if_pos hb, if_pos hb]; rfl
          · rw [if_neg hb, if_neg hb]
            cases opp.t (cmod (st.vi + 1) DEG) with
            | none => rfl
            | some s =>
              simp only
              by_cases h1 : s.tri = -1
              · rw [if_pos h1, if_pos h1]; rfl
              · rw [if_neg h1, if_neg h1]
                by_cases h2 : s.tri = startIdx
                · rw [if_pos h2, if_pos h2]; rfl
                · rw [if_neg h2, if_neg h2]; exact ih _ _

/-- The counted second walk is the second walk. -/
theorem cwWalkCount_fst (triVec : List Tri) (ov : List TriOpp) (startIdx b : Int) :
    ∀ (fuel : Nat) (st : WalkState) (r : Nat),
      (cwWalkCount triVec ov startIdx b fuel st r).map Prod.fst =
        cwWalk triVec ov startIdx b fuel st := by
  intro fuel
  induction fuel with
  | zero => intro st r; rfl
  | succ fuel ih =>
    intro st r
    simp only [cwWalkCount, cwWalk]
    cases getAt triVec st.triIdx with
    | none => rfl
    | some tri =>
      simp only
      cases tri.v (cmod (st.vi + 1) 3) with
      | none => rfl
      | some nextVert =>
        simp only
        by_cases hb : nextVert = b
        · rw [if_pos hb, if_pos hb]; rfl
        · rw [if_neg hb, if_neg hb]
          cases getAt ov st.triIdx with
          | none => rfl
          | some opp =>
            simp only
            cases opp.t (cmod (st.vi + 2) DEG) with
            | none => rfl
            | some s =>
              simp only
              by_cases h1 : s.tri = -1
              · rw [if_pos h1, if_pos h1]; rfl
              · rw [if_neg h1, if_neg h1]
                by_cases h2 : s.tri = startIdx
                · rw [if_pos h2, if_pos h2]; rfl
                · rw [if_neg h2, if_neg h2]; exact ih _ _

/-- The counted walks of a constraint are its walks. -/
theorem walkBothCount_fst (triVec : List Tri) (ov : List TriOpp) (startIdx : Int) (c : Edge) :
    (walkBothCount triVec ov startIdx c).map Prod.fst = walkBoth triVec ov startIdx c := by
  unfold walkBothCount walkBoth
  cases getAt triVec startIdx with
  | none => rfl
  | some startTri =>
    simp only
    have h1 := ccwWalkCount_fst triVec ov startIdx c.v1 MaxWalking.toNat
      ⟨0, startIdx, startTri.getIndexOf c.v0⟩ 0
    cases hc : ccwWalkCount triVec ov startIdx c.v1 MaxWalking.toNat
        ⟨0, startIdx, startTri.getIndexOf c.v0⟩ 0 with
    | none =>
      rw [hc] at h1
      rw [← h1]
      rfl
    | some wr =>
      obtain ⟨w1, r1⟩ := wr
      rw [hc] at h1
      rw [← h1]
      simp only [Option.map_some']
      by_cases hlt : w1.j < MaxWalking
      · rw [if_pos hlt, if_pos hlt]
        exact cwWalkCount_fst _ _ _ _ _ _ _
      · rw [if_neg hlt, if_neg hlt]
        rfl

theorem wellIndexed_at (triVec : List Tri) (ov : List TriOpp) (hwi : WellIndexed triVec ov)
    (t : Int) (h0 : 0 ≤ t) (h1 : t < (triVec.length : Int)) :
    ∃ tri opp, getAt triVec t = some tri ∧ getAt ov t = some opp ∧
      ∀ e s, opp.t e = some s → SlotIndexed triVec.length s := by
  obtain ⟨hlen, hall⟩ := hwi
  have ht : t.toNat < triVec.length := by omega
  have ht2 : t.toNat < ov.length := by omega
  obtain ⟨tri, htri⟩ := getAt_isSome triVec t.toNat ht
  obtain ⟨opp, hopp⟩ := getAt_isSome ov t.toNat ht2
  rw [Int.toNat_of_nonneg h0] at htri hopp
  refine ⟨tri, opp, htri, hopp, ?_⟩
  have hmem : opp ∈ ov := List.getElem?_mem (getAt_some ov t opp hopp).2.2
  obtain ⟨s0, s1, s2⟩ := hall opp hmem
  intro e s hs
  rcases TriOpp.t_some opp e s hs with rfl | rfl | rfl
  · have : opp.t0 = s := Option.some.inj hs
    rw [← this]; exact s0
  · have : opp.t1 = s := Option.some.inj hs
    rw [← this]; exact s1
  · have : opp.t2 = s := Option.some.inj hs
    rw [← this]; exact s2

/-- The remainders `(vi + 1) % 3` and `(vi + 2) % 3` are slots for `vi` from `-1` to `3`. -/
theorem cmod_slot (vi : Int) (h0 : -1 ≤ vi) (h1 : vi ≤ 3) :
    (0 ≤ cmod (vi + 1) 3 ∧ cmod (vi + 1) 3 ≤ 2) ∧ (0 ≤ cmod (vi + 2) 3 ∧ cmod (vi + 2) 3 ≤ 2) := by
  have h : vi = -1 ∨ vi = 0 ∨ vi = 1 ∨ vi = 2 ∨ vi = 3 := by omega
  rcases h with rfl | rfl | rfl | rfl | rfl <;> decide

theorem Tri.getIndexOf_range (tri : Tri) (v : Int) :
    -1 ≤ tri.getIndexOf v ∧ tri.getIndexOf v ≤ 2 := by
  unfold Tri.getIndexOf
  split_ifs <;> omega

/-- On vectors indexed inside themselves the counted first walk returns: it makes at most
`fuel` rotations, and, when the edge is not found, `j` has grown by at most `fuel` and the
rotations are at most one more than the growth of `j`. -/
theorem ccwWalkCount_bound (triVec : List Tri) (ov : List TriOpp)
    (hwi : WellIndexed triVec ov) (startIdx b : Int) :
    ∀ (fuel : Nat) (st : WalkState) (r : Nat), 0 ≤ st.triIdx →
      st.triIdx < (triVec.length : Int) → -1 ≤ st.vi → st.vi ≤ 2 →
      ∃ w r1, ccwWalkCount triVec ov startIdx b fuel st r = some (w, r1) ∧ r1 ≤ r + fuel ∧
        (w.j = INT_MAX ∨
          (st.j ≤ w.j ∧ w.j ≤ st.j + fuel ∧ (r1 : Int) ≤ r + (w.j - st.j) + 1)) := by
  intro fuel
  induction fuel with
  | zero =>
    intro st r _ _ _ _
    exact ⟨st, r, rfl, by omega, Or.inr ⟨le_rfl, by simp, by omega⟩⟩
  | succ fuel ih =>
    intro st r h0 h1 hv0 hv1
    obtain ⟨tri, opp, htri, hopp, hslots⟩ := wellIndexed_at triVec ov hwi st.triIdx h0 h1
    obtain ⟨c1, c2⟩ := cmod_slot st.vi hv0 (by omega)
    obtain ⟨x, hx⟩ := Tri.v_total tri (cmod (st.vi + 2) 3) (by omega)
    obtain ⟨s, hs⟩ := TriOpp.t_total opp (cmod (st.vi + 1) 3) (by omega)
    have hs' : opp.t (cmod (st.vi + 1) DEG) = some s := hs
    simp only [ccwWalkCount, htri, hopp, hx, hs']
    by_cases hb : x = b
    · rw [if_pos hb]
      exact ⟨_, _, rfl, by omega, Or.inl rfl⟩
    · rw [if_neg hb]
      by_cases hbd : s.tri = -1
      · rw [if_pos hbd]
        refine ⟨_, _, rfl, by omega, Or.inr ⟨le_rfl, ?_, by omega⟩⟩
        push_cast; omega
      · rw [if_neg hbd]
        obtain ⟨hsi, hsv0, hsv1⟩ := hslots _ s hs
        by_cases hst : s.tri = startIdx
        · rw [if_pos hst]
          refine ⟨_, _, rfl, by omega, Or.inr ⟨le_rfl, ?_, ?_⟩⟩
          · show st.j ≤ st.j + ((fuel + 1 : Nat) : Int)
            push_cast; omega
          · show ((r + 1 : Nat) : Int) ≤ r + (st.j - st.j) + 1
            push_cast; omega
        · rw [if_neg hst]
          obtain ⟨d1, _⟩ := cmod_slot s.vi (by omega) hsv1
          obtain ⟨w, r1, hw, hr1, hj⟩ := ih ⟨st.j + 1, s.tri, cmod (s.vi + 1) DEG⟩ (r + 1)
            (by show 0 ≤ s.tri; omega) (by show s.tri < (triVec.length : Int); omega)
            (by show -1 ≤ cmod (s.vi + 1) 3; omega) (by show cmod (s.vi + 1) 3 ≤ 2; omega)
          refine ⟨w, r1, hw, by omega, ?_⟩
          rcases hj with hj | ⟨hj1, hj2, hj3⟩
          · exact Or.inl hj
          · have hj1' : st.j + 1 ≤ w.j := hj1
            have hj2' : w.j ≤ st.j + 1 + (fuel : Int) := hj2
            have hj3' : (r1 : Int) ≤ ((r + 1 : Nat) : Int) + (w.j - (st.j + 1)) + 1 := hj3
            refine Or.inr ⟨by omega, ?_, ?_⟩
            · push_cast; omega
            · push_cast at hj3'; omega

/-- On vectors indexed inside themselves the counted second walk returns, with the same bounds
as the first. -/
theorem cwWalkCount_bound (triVec : List Tri) (ov : List TriOpp)
    (hwi : WellIndexed triVec ov) (startIdx b : Int) :
    ∀ (fuel : Nat) (st : WalkState) (r : Nat), 0 ≤ st.triIdx →
      st.triIdx < (triVec.length : Int) → -1 ≤ st.vi → st.vi ≤ 2 →
      ∃ w r1, cwWalkCount triVec ov startIdx b fuel st r = some (w, r1) ∧ r1 ≤ r + fuel ∧
        (w.j = INT_MAX ∨
          (st.j ≤ w.j ∧ w.j ≤ st.j + fuel ∧ (r1 : Int) ≤ r + (w.j - st.j) + 1)) := by
  intro fuel
  induction fuel with
  | zero =>
    intro st r _ _ _ _
    exact ⟨st, r, rfl, by omega, Or.inr ⟨le_rfl, by simp, by omega⟩⟩
  | succ fuel ih =>
    intro st r h0 h1 hv0 hv1
    obtain ⟨tri, opp, htri, hopp, hslots⟩ := wellIndexed_at triVec ov hwi st.triIdx h0 h1
    obtain ⟨c1, c2⟩ := cmod_slot st.vi hv0 (by omega)
    obtain ⟨x, hx⟩ := Tri.v_total tri (cmod (st.vi + 1) 3) (by omega)
    obtain ⟨s, hs⟩ := TriOpp.t_total opp (cmod (st.vi + 2) 3) (by omega)
    have hs' : opp.t (cmod (st.vi + 2) DEG) = some s := hs
    simp only [cwWalkCount, htri, hopp, hx, hs']
    by_cases hb : x = b
    · rw [if_pos hb]
      exact ⟨_, _, rfl, by omega, Or.inl rfl⟩
    · rw [if_neg hb]
      by_cases hbd : s.tri = -1
      · rw [if_pos hbd]
        refine ⟨_, _, rfl, by omega, Or.inr ⟨le_rfl, ?_, by omega⟩⟩
        push_cast; omega
      · rw [if_neg hbd]
        obtain ⟨hsi, hsv0, hsv1⟩ := hslots _ s hs
        by_cases hst : s.tri = startIdx
        · rw [if_pos hst]
          refine ⟨_, _, rfl, by omega, Or.inr ⟨le_rfl, ?_, ?_⟩⟩
          · show st.j ≤ st.j + ((fuel + 1 : Nat) : Int)
            push_cast; omega
          · show ((r + 1 : Nat) : Int) ≤ r + (st.j - st.j) + 1
            push_cast; omega
        · rw [if_neg hst]
          obtain ⟨_, d2⟩ := cmod_slot s.vi (by omega) hsv1
          obtain ⟨w, r1, hw, hr1, hj⟩ := ih ⟨st.j + 1, s.tri, cmod (s.vi + 2) DEG⟩ (r + 1)
            (by show 0 ≤ s.tri; omega) (by show s.tri < (triVec.length : Int); omega)
            (by show -1 ≤ cmod (s.vi + 2) 3; omega) (by show cmod (s.vi + 2) 3 ≤ 2; omega)
          refine ⟨w, r1, hw, by omega, ?_⟩
          rcases hj with hj | ⟨hj1, hj2, hj3⟩
          · exact Or.inl hj
          · have hj1' : st.j + 1 ≤ w.j := hj1
            have hj2' : w.j ≤ st.j + 1 + (fuel : Int) := hj2
            have hj3' : (r1 : Int) ≤ ((r + 1 : Nat) : Int) + (w.j - (st.j + 1)) + 1 := hj3
            refine Or.inr ⟨by omega, ?_, ?_⟩
            · push_cast; omega
            · push_cast at hj3'; omega

/-- On vectors indexed inside themselves the two walks of a constraint, from a triangle of the
mesh, return after at most 1,000,001 rotations, found or with `j` from 0 to `MaxWalking`. -/
theorem walkBothCount_bound (triVec : List Tri) (ov : List TriOpp)
    (hwi : WellIndexed triVec ov) (startIdx : Int) (h0 : 0 ≤ startIdx)
    (h1 : startIdx < (triVec.length : Int)) (c : Edge) :
    ∃ w r, walkBothCount triVec ov startIdx c = some (w, r) ∧ r ≤ 1000001 ∧
      (w.j = INT_MAX ∨ (0 ≤ w.j ∧ w.j ≤ MaxWalking)) := by
  obtain ⟨tri, _, htri, _, _⟩ := wellIndexed_at triVec ov hwi startIdx h0 h1
  obtain ⟨g0, g1⟩ := Tri.getIndexOf_range tri c.v0
  have hMW : MaxWalking.toNat = 1000000 := rfl
  have hMW2 : MaxWalking = 1000000 := rfl
  unfold walkBothCount
  rw [htri]
  simp only
  obtain ⟨w1, r1, hw1, hr1, hj1⟩ := ccwWalkCount_bound triVec ov hwi startIdx c.v1
    MaxWalking.toNat ⟨0, startIdx, tri.getIndexOf c.v0⟩ 0 h0 h1 g0 g1
  rw [hw1]
  simp only
  by_cases hlt : w1.j < MaxWalking
  · rw [if_pos hlt]
    have hnf : w1.j ≠ INT_MAX := by
      intro h; rw [h] at hlt; exact absurd hlt (by decide)
    rcases hj1 with hj1 | ⟨a1, a2, a3⟩
    · exact absurd hj1 hnf
    · have a1' : (0 : Int) ≤ w1.j := a1
      have a3' : (r1 : Int) ≤ ((0 : Nat) : Int) + (w1.j - 0) + 1 := a3
      obtain ⟨w2, r2, hw2, hr2, hj2⟩ := cwWalkCount_bound triVec ov hwi startIdx c.v1
        (MaxWalking - w1.j).toNat ⟨w1.j, startIdx, tri.getIndexOf c.v0⟩ r1 h0 h1 g0 g1
      refine ⟨w2, r2, hw2, ?_, ?_⟩
      · rw [hMW2] at hr2 hlt
        omega
      · rcases hj2 with hj2 | ⟨b1, b2, _⟩
        · exact Or.inl hj2
        · have b1' : w1.j ≤ w2.j := b1
          have b2' : w2.j ≤ w1.j + (((MaxWalking - w1.j).toNat : Nat) : Int) := b2
          rw [hMW2] at b2' hlt ⊢
          exact Or.inr ⟨by omega, by omega⟩
  · rw [if_neg hlt]
    refine ⟨w1, r1, rfl, by omega, ?_⟩
    rcases hj1 with hj1 | ⟨a1, a2, _⟩
    · exact Or.inl hj1
    · have a1' : (0 : Int) ≤ w1.j := a1
      have a2' : w1.j ≤ 0 + ((MaxWalking.toNat : Nat) : Int) := a2
      rw [hMW] at a2'
      rw [hMW2]
      exact Or.inr ⟨a1', by omega⟩

/-- One iteration of the second walk at triangle 0 of `loopTris`, whose slot 2 names the
triangle itself: a rotation that counts. -/
theorem loop_cw_step (f : Nat) (j : Int) (r : Nat) :
    cwWalkCount loopTris loopOpps 1 4 (f + 1) ⟨j, 0, 0⟩ r =
      cwWalkCount loopTris loopOpps 1 4 f ⟨j + 1, 0, 0⟩ (r + 1) := rfl

/-- The second walk at triangle 0 of `loopTris` rotates until `j` reaches `MaxWalking`. -/
theorem loop_cw_run : ∀ (f : Nat) (j : Int) (r : Nat),
    cwWalkCount loopTris loopOpps 1 4 f ⟨j, 0, 0⟩ r = some (⟨j + f, 0, 0⟩, r + f) := by
  intro f
  induction f with
  | zero =>
    intro j r
    simp [cwWalkCount]
  | succ f ih =>
    intro j r
    rw [loop_cw_step, ih]
    have e1 : j + 1 + (f : Int) = j + ((f + 1 : Nat) : Int) := by push_cast; ring
    have e2 : r + 1 + f = r + (f + 1) := by omega
    rw [e1, e2]

/-- The first iteration of the second walk from triangle 1 of `loopTris`: a rotation to
triangle 0. -/
theorem loop_cw_first (f : Nat) (r : Nat) :
    cwWalkCount loopTris loopOpps 1 4 (f + 1) ⟨0, 1, 0⟩ r =
      cwWalkCount loopTris loopOpps 1 4 f ⟨1, 0, 0⟩ (r + 1) := rfl

/-- C21, as stated, fails on `loopTris` with the adjacency `loopOpps` and the constraint
`(0, 4)`: the vectors are indexed inside themselves, the vertex to triangle map gives vertex 0
the triangle 1, the first walk makes one rotation (back to the start triangle, which leaves the
loop before `++j`), the second walk makes 1,000,000, and the two walks end not found with
`j == MaxWalking` after 1,000,001 rotations. -/
theorem walks_rotate_once_more :
    WellIndexed loopTris loopOpps ∧
      loopFrom (fillTri loopTris) 2 0 (List.replicate 5 (-1)) = some [1, 1, 1, 0, -1] ∧
      walkBothCount loopTris loopOpps 1 ⟨0, 4⟩ = some (⟨1000000, 0, 0⟩, 1000001) ∧
      ¬ 1000001 ≤ 1000000 := by
  refine ⟨by decide, by decide, ?_, by decide⟩
  have hg : getAt loopTris 1 = some ⟨0, 1, 2⟩ := by decide
  have hccw : ccwWalkCount loopTris loopOpps 1 4 MaxWalking.toNat
      ⟨0, 1, Tri.getIndexOf ⟨0, 1, 2⟩ 0⟩ 0 = some (⟨0, 1, 1⟩, 1) := by decide
  have hfuel : (MaxWalking - 0).toNat = 999999 + 1 := by decide
  have hidx : Tri.getIndexOf ⟨0, 1, 2⟩ 0 = 0 := by decide
  unfold walkBothCount
  rw [hg]
  simp only
  rw [hccw]
  simp only
  rw [if_pos (by decide), hfuel, hidx, loop_cw_first, loop_cw_run]
  rfl

/-- C21, amended: on vectors indexed inside themselves (the adjacency may be inconsistent or
cyclic), for every constraint with a start triangle, the two walks of `checkConstraints`
return after at most 1,000,001 rotations together (the shared counter `j` counts at most
1,000,000 of them, and the rotation that brings the first walk back to the start triangle is
not counted), with the edge found (`j == INT_MAX`) or `j` from 0 to `MaxWalking`. When the
edge was not found the iteration returns, counts the constraint in `failNum`, and prints
`Vertex degree too high; Skipping constraint` exactly when `j` reached `MaxWalking`; when the
edge was found nothing is printed. -/
theorem walks_bounded (triVec : List Tri) (st : ConsState)
    (hwi : WellIndexed triVec st.oppVec) (m : List Int) (consVec : List Edge) (i : Nat)
    (c : Edge) (hc : getAt consVec (i : Int) = some c) (startIdx : Int)
    (hmap : getAt m c.v0 = some startIdx) (h0 : 0 ≤ startIdx)
    (h1 : startIdx < (triVec.length : Int)) :
    ∃ w r, walkBothCount triVec st.oppVec startIdx c = some (w, r) ∧
      walkBoth triVec st.oppVec startIdx c = some w ∧ r ≤ 1000001 ∧
      (w.j = INT_MAX ∨ (0 ≤ w.j ∧ w.j ≤ MaxWalking)) ∧
      (w.j ≠ INT_MAX →
        checkOne triVec m consVec i st =
          some ⟨st.oppVec, st.walks ++ [Walk.ended w.j w.triIdx w.vi],
            if w.j = MaxWalking then st.skipped ++ [i] else st.skipped,
            wrap32 (st.failNum + 1)⟩) ∧
      (w.j = INT_MAX →
        ∀ st1, checkOne triVec m consVec i st = some st1 → st1.skipped = st.skipped) := by
  obtain ⟨w, r, hw, hr, hj⟩ := walkBothCount_bound triVec st.oppVec hwi startIdx h0 h1 c
  have hwalk : walkBoth triVec st.oppVec startIdx c = some w := by
    rw [← walkBothCount_fst, hw]
    rfl
  refine ⟨w, r, hw, hwalk, hr, hj, ?_, ?_⟩
  · intro hnf
    unfold checkOne
    rw [hc]
    simp only
    rw [hmap]
    simp only
    rw [if_neg (by omega), hwalk]
    simp only
    rw [if_neg hnf]
    rcases hj with hj | ⟨_, hj2⟩
    · exact absurd hj hnf
    · by_cases he : w.j = MaxWalking
      · rw [if_pos he, if_pos (by omega)]
      · rw [if_neg he, if_neg (by omega)]
  · intro hf st1 hst1
    unfold checkOne at hst1
    rw [hc] at hst1
    simp only at hst1
    rw [hmap] at hst1
    simp only at hst1
    rw [if_neg (by omega), hwalk] at hst1
    simp only at hst1
    rw [if_pos hf] at hst1
    cases hmk : markFound st.oppVec w.triIdx w.vi with
    | none => rw [hmk] at hst1; exact absurd hst1 (by simp)
    | some ov1 =>
      rw [hmk] at hst1
      simp only [Option.some.injEq] at hst1
      subst hst1
      rfl

theorem walks_bounded_witness :
    ∃ w r, walkBothCount squareTris squareOpps 0 ⟨0, 3⟩ = some (w, r) ∧
      walkBoth squareTris squareOpps 0 ⟨0, 3⟩ = some w ∧ r ≤ 1000001 ∧
      (w.j = INT_MAX ∨ (0 ≤ w.j ∧ w.j ≤ MaxWalking)) ∧
      (w.j ≠ INT_MAX →
        checkOne squareTris [0, 1, 1, 1] [⟨0, 3⟩] 0 ⟨squareOpps, [], [], 0⟩ =
          some ⟨squareOpps, [] ++ [Walk.ended w.j w.triIdx w.vi],
            if w.j = MaxWalking then [] ++ [0] else [],
            wrap32 (0 + 1)⟩) ∧
      (w.j = INT_MAX →
        ∀ st1, checkOne squareTris [0, 1, 1, 1] [⟨0, 3⟩] 0 ⟨squareOpps, [], [], 0⟩ = some st1 →
          st1.skipped = []) :=
  walks_bounded squareTris ⟨squareOpps, [], [], 0⟩ (by decide) [0, 1, 1, 1] [⟨0, 3⟩] 0 ⟨0, 3⟩
    (by decide) 0 (by decide) (by decide) (by decide)

end gdg
